import Mathlib

/-!
# genstructs: plain binary search tree and red-black tree over an explicit store

The Go sources (`genstructs.go`, `bstree.go`, `rbtree.go`) manipulate nodes through
pointers.  The embedding keeps the pointer graph: a store is a list of node records,
a pointer is `none` (Go `nil`) or `some a` with `a` an index into the store, and an
allocation (`&BSNode{...}`) appends a record, its address being the old length of
the store.  Every operation returns in `Run`: a nil dereference (a Go panic) is
`Fault.nilDeref`, an address outside the store is `Fault.dangling`, and a loop or a
recursion that has not finished within its budget of steps is `Fault.outOfFuel`.
-/

namespace Genstructs

/-! ## genstructs.go -/

/-- The type `NodeSide` with its two constants `Left = 0` and `Right = 1`. -/
inductive NodeSide where
  | Left
  | Right
deriving DecidableEq

/-- The expression `1 - side` of the sources. -/
def NodeSide.flip : NodeSide → NodeSide
  | .Left => .Right
  | .Right => .Left

/-- Ways in which a run of the embedded code fails to produce a value. -/
inductive Fault where
  | nilDeref
  | dangling
  | outOfFuel
deriving DecidableEq

/-- A pointer: `none` is `nil`, `some a` is the address `a` of a record of the store. -/
abbrev Ptr := Option Nat

/-- Result of running embedded code. -/
abbrev Run (α : Type) := Except Fault α

instance instDecidableEqRun {α : Type} [DecidableEq α] : DecidableEq (Run α)
  | .ok a, .ok b =>
    if h : a = b then isTrue (by rw [h]) else isFalse (fun e => h (by cases e; rfl))
  | .error a, .error b =>
    if h : a = b then isTrue (by rw [h]) else isFalse (fun e => h (by cases e; rfl))
  | .ok _, .error _ => isFalse (fun e => by cases e)
  | .error _, .ok _ => isFalse (fun e => by cases e)

/-- Number of values of a `uint64`. -/
def U64 : Nat := 18446744073709551616

/-- Reading through a pointer. -/
def load {ν : Type} (h : List ν) (p : Ptr) : Run ν :=
  match p with
  | none => .error .nilDeref
  | some a =>
    match h[a]? with
    | none => .error .dangling
    | some n => .ok n

/-- Writing through a pointer. -/
def store {ν : Type} (h : List ν) (p : Ptr) (n : ν) : Run (List ν) :=
  match p with
  | none => .error .nilDeref
  | some a => if a < h.length then .ok (h.set a n) else .error .dangling

/-- The type `SplitFunc[T]`. -/
abbrev SplitFunc (α : Type) := α → α × α

/-- The type `MatchFunc[T]`. -/
abbrev MatchFunc (α : Type) := α → α → Bool × NodeSide

/-- The type `CompareFunc[T]`. -/
abbrev CompareFunc (α : Type) := α → α → NodeSide

/-! ## bstree.go -/

/-- The record `BSNode[T]`; `ChildL` and `ChildR` are `Children[Left]` and
`Children[Right]`. -/
structure BSNode (α : Type) where
  Parent : Ptr
  ChildL : Ptr
  ChildR : Ptr
  Value : α
deriving DecidableEq

/-- The expression `n.Children[side]`. -/
def BSNode.Children {α : Type} (n : BSNode α) : NodeSide → Ptr
  | .Left => n.ChildL
  | .Right => n.ChildR

/-- The record after `n.Children[side] = p`. -/
def BSNode.setChild {α : Type} (n : BSNode α) (side : NodeSide) (p : Ptr) : BSNode α :=
  match side with
  | .Left => { n with ChildL := p }
  | .Right => { n with ChildR := p }

/-- The method `BSNode.Side`. -/
def BSNode.Side {α : Type} (h : List (BSNode α)) (n : Ptr) : Run NodeSide := do
  let nd ← load h n
  let pn ← load h nd.Parent
  if pn.Children .Left = n then pure .Left else pure .Right

/-- The method `BSNode.OnLeft`. -/
def BSNode.OnLeft {α : Type} (h : List (BSNode α)) (n : Ptr) : Run Bool := do
  let nd ← load h n
  let pn ← load h nd.Parent
  if pn.Children .Left = n then pure true else pure false

/-- The method `BSNode.OnRight`. -/
def BSNode.OnRight {α : Type} (h : List (BSNode α)) (n : Ptr) : Run Bool := do
  let nd ← load h n
  let pn ← load h nd.Parent
  if pn.Children .Right = n then pure true else pure false

/-- The method `BSNode.IsLeaf`, on the record of the node. -/
def BSNode.IsLeaf {α : Type} (n : BSNode α) : Bool :=
  if n.Children .Right = none ∧ n.Children .Left = none then true else false

/-- The loop of `FirstAncestorOnSide`, with state `node`, `parent`. -/
def BSNode.FirstAncestorOnSideLoop {α : Type} (h : List (BSNode α)) (aSide : NodeSide) :
    Nat → Ptr → Ptr → Run Ptr
  | 0, _, _ => .error .outOfFuel
  | fuel + 1, node, parent =>
    match parent with
    | none => pure parent
    | some _ => do
      let pSide ← BSNode.Side h node
      if pSide = aSide then pure parent
      else do
        let nd ← load h parent
        BSNode.FirstAncestorOnSideLoop h aSide fuel parent nd.Parent

/-- The method `BSNode.FirstAncestorOnSide`. -/
def BSNode.FirstAncestorOnSide {α : Type} (h : List (BSNode α)) (n : Ptr) (side : NodeSide) :
    Run Ptr := do
  let aSide := if side = .Left then NodeSide.Right else NodeSide.Left
  let nd ← load h n
  BSNode.FirstAncestorOnSideLoop h aSide (h.length + 1) n nd.Parent

/-- The loop of `MaxBelow` (`side = Right`) and of `MinBelow` (`side = Left`). -/
def BSNode.belowLoop {α : Type} (h : List (BSNode α)) (side : NodeSide) : Nat → Ptr → Run Ptr
  | 0, _ => .error .outOfFuel
  | fuel + 1, cur => do
    let nd ← load h cur
    if nd.Children side ≠ none then BSNode.belowLoop h side fuel (nd.Children side)
    else pure cur

/-- The method `BSNode.MaxBelow`. -/
def BSNode.MaxBelow {α : Type} (h : List (BSNode α)) (n : Ptr) : Run Ptr :=
  BSNode.belowLoop h .Right (h.length + 1) n

/-- The method `BSNode.MinBelow`. -/
def BSNode.MinBelow {α : Type} (h : List (BSNode α)) (n : Ptr) : Run Ptr :=
  BSNode.belowLoop h .Left (h.length + 1) n

/-- The method `BSNode.Prev`. -/
def BSNode.Prev {α : Type} (h : List (BSNode α)) (n : Ptr) : Run Ptr := do
  let nd ← load h n
  if nd.Children .Left = none then BSNode.FirstAncestorOnSide h n .Left
  else BSNode.MaxBelow h (nd.Children .Left)

/-- The method `BSNode.Next`. -/
def BSNode.Next {α : Type} (h : List (BSNode α)) (n : Ptr) : Run Ptr := do
  let nd ← load h n
  if nd.Children .Right = none then BSNode.FirstAncestorOnSide h n .Right
  else BSNode.MinBelow h (nd.Children .Right)

/-- The method `BSNode.Traverse`.  The visitor `op` of the callers only reads the
visited record and updates variables it has captured, so it is a function from the
captured state, the record and the depth to the new captured state.  The first argument
bounds the depth of the recursion. -/
def BSNode.Traverse {α σ : Type} (h : List (BSNode α)) :
    Nat → Ptr → Nat → (σ → BSNode α → Nat → σ) → σ → Run σ
  | 0, _, _, _, _ => .error .outOfFuel
  | fuel + 1, n, currentDepth, op, acc => do
    let nd ← load h n
    let acc1 ←
      if nd.Children .Left ≠ none then
        BSNode.Traverse h fuel (nd.Children .Left) ((currentDepth + 1) % U64) op acc
      else pure acc
    let acc2 := op acc1 nd currentDepth
    if nd.Children .Right ≠ none then
      BSNode.Traverse h fuel (nd.Children .Right) ((currentDepth + 1) % U64) op acc2
    else pure acc2

/-- The record `BSTree[T]` together with the store its nodes live in. -/
structure BSTree (α : Type) where
  heap : List (BSNode α)
  Root : Ptr
  NodeCount : Nat
deriving DecidableEq

/-- The empty tree `BSTree[T]{}` over an empty store. -/
def BSTree.empty {α : Type} : BSTree α := { heap := [], Root := none, NodeCount := 0 }

/-- The method `BSTree.Traverse`. -/
def BSTree.Traverse {α σ : Type} (t : BSTree α) (op : σ → BSNode α → Nat → σ) (acc : σ) :
    Run σ :=
  if t.Root = none then pure acc
  else BSNode.Traverse t.heap (t.heap.length + 1) t.Root 0 op acc

/-- The method `BSTree.Flatten`.  The slice is filled by `append`, so the capacity
`t.NodeCount` given to `make` does not affect the returned sequence.  `make` itself panics
when that capacity is out of the range of the allocator; this is not part of the
definition, and the theorems on `Flatten` and `Balance` are stated for trees whose
`NodeCount` is their number of nodes, where the capacity is the length of the sequence
returned. -/
def BSTree.Flatten {α : Type} (t : BSTree α) : Run (List α) :=
  t.Traverse (fun ordered node _ => ordered ++ [node.Value]) []

/-- The loop of `AddFrom`, with state `parent`, `side`. -/
def BSTree.AddFromLoop {α : Type} (h : List (BSNode α)) (value : α) (comparer : CompareFunc α) :
    Nat → Ptr → NodeSide → Run (Ptr × NodeSide)
  | 0, _, _ => .error .outOfFuel
  | fuel + 1, parent, side => do
    let pn ← load h parent
    if pn.Children side ≠ none then do
      let cn ← load h (pn.Children side)
      BSTree.AddFromLoop h value comparer fuel (pn.Children side) (comparer value cn.Value)
    else pure (parent, side)

/-- The method `BSTree.AddFrom`. -/
def BSTree.AddFrom {α : Type} (t : BSTree α) (parent : Ptr) (value : α)
    (comparer : CompareFunc α) : Run (BSTree α × Ptr) :=
  if parent = none then pure (t, none)
  else do
    let pn ← load t.heap parent
    let (parent, side) ←
      BSTree.AddFromLoop t.heap value comparer (t.heap.length + 1) parent
        (comparer value pn.Value)
    let newNode : Ptr := some t.heap.length
    let h1 := t.heap ++ [{ Parent := parent, ChildL := none, ChildR := none, Value := value }]
    let pn ← load h1 parent
    let h2 ← store h1 parent (pn.setChild side newNode)
    pure ({ heap := h2, Root := t.Root, NodeCount := (t.NodeCount + 1) % U64 }, newNode)

/-- The method `BSTree.Add`. -/
def BSTree.Add {α : Type} (t : BSTree α) (value : α) (comparer : CompareFunc α) :
    Run (BSTree α × Ptr) :=
  if t.Root = none then
    let newNode : Ptr := some t.heap.length
    pure ({ heap := t.heap ++ [{ Parent := none, ChildL := none, ChildR := none, Value := value }],
            Root := newNode, NodeCount := (t.NodeCount + 1) % U64 }, newNode)
  else t.AddFrom t.Root value comparer

/-- The method `BSTree.Remove`. -/
def BSTree.Remove {α : Type} (t : BSTree α) (node : Ptr) (highSide : NodeSide) :
    Run (BSTree α) :=
  if node = none then pure t
  else do
    let lowSide := if highSide = .Left then NodeSide.Right else NodeSide.Left
    let nd ← load t.heap node
    let parent := nd.Parent
    let side ← BSNode.Side t.heap node
    -- node.Children[lowSide].Parent = node.Children[highSide]
    let nd ← load t.heap node
    let lo ← load t.heap (nd.Children lowSide)
    let h1 ← store t.heap (nd.Children lowSide) { lo with Parent := nd.Children highSide }
    -- node.Children[highSide].Parent = parent
    let nd ← load h1 node
    let hi ← load h1 (nd.Children highSide)
    let h2 ← store h1 (nd.Children highSide) { hi with Parent := parent }
    -- parent.Children[side] = node.Children[highSide]
    let nd ← load h2 node
    let pn ← load h2 parent
    let h3 ← store h2 parent (pn.setChild side (nd.Children highSide))
    pure { heap := h3, Root := t.Root, NodeCount := (t.NodeCount + U64 - 1) % U64 }

/-- The loop of `Find`, with state `foundNode`. -/
def BSTree.FindLoop {α : Type} (h : List (BSNode α)) (value : α) (matcher : MatchFunc α) :
    Nat → Ptr → Run Ptr
  | 0, _ => .error .outOfFuel
  | fuel + 1, foundNode => do
    let fn ← load h foundNode
    let (equal, side) := matcher value fn.Value
    if equal then pure foundNode
    else if fn.Children side = none then pure none
    else BSTree.FindLoop h value matcher fuel (fn.Children side)

/-- The method `BSTree.Find`. -/
def BSTree.Find {α : Type} (t : BSTree α) (value : α) (matcher : MatchFunc α) : Run Ptr :=
  if t.Root = none then pure none
  else BSTree.FindLoop t.heap value matcher (t.heap.length + 1) t.Root

/-- The method `BSTree.Split`; the statements are taken in the order of the source. -/
def BSTree.Split {α : Type} (t : BSTree α) (rootNode : Ptr) (lowSide : NodeSide)
    (spliter : SplitFunc α) : Run (BSTree α × Ptr) := do
  let rn ← load t.heap rootNode
  let (lVal, rVal) := spliter rn.Value
  let (lowVal, highVal) := if lowSide = .Left then (lVal, rVal) else (rVal, lVal)
  -- rootNode.Value = highVal
  let h1 ← store t.heap rootNode { rn with Value := highVal }
  -- subNode := &BSNode{Parent: rootNode, Children: {nil, nil}, Value: lowVal}
  let subNode : Ptr := some h1.length
  let h2 := h1 ++ [{ Parent := rootNode, ChildL := none, ChildR := none, Value := lowVal }]
  -- rootNode.Children[lowSide] = subNode
  let rn ← load h2 rootNode
  let h3 ← store h2 rootNode (rn.setChild lowSide subNode)
  -- subNode.Children[lowSide] = rootNode.Children[lowSide]
  let rn ← load h3 rootNode
  let sn ← load h3 subNode
  let h4 ← store h3 subNode (sn.setChild lowSide (rn.Children lowSide))
  -- subNode.Children[lowSide].Parent = subNode
  let sn ← load h4 subNode
  let cn ← load h4 (sn.Children lowSide)
  let h5 ← store h4 (sn.Children lowSide) { cn with Parent := subNode }
  pure ({ heap := h5, Root := t.Root, NodeCount := (t.NodeCount + 1) % U64 }, rootNode)

/-- The method `BSTree.SplitAdd`. -/
def BSTree.SplitAdd {α : Type} (t : BSTree α) (value : α) (node : Ptr) (lowSide : NodeSide)
    (spliter : SplitFunc α) (comparer : CompareFunc α) : Run (BSTree α × Ptr × Ptr) := do
  let (t1, newRoot) ← t.Split node lowSide spliter
  let (t2, newNode) ← t1.AddFrom newRoot value comparer
  pure (t2, newRoot, newNode)

/-- The method `BSTree.Cull`. -/
def BSTree.Cull {α : Type} (t : BSTree α) (node : Ptr) (cullSide : NodeSide) :
    Run (BSTree α) := do
  let nd ← load t.heap node
  let orphan := nd.Children cullSide
  let orphanCount ←
    BSNode.Traverse t.heap (t.heap.length + 1) orphan 0 (fun c _ _ => (c + 1) % U64) 0
  let nd ← load t.heap node
  let h1 ← store t.heap node (nd.setChild cullSide none)
  pure { heap := h1, Root := t.Root, NodeCount := (t.NodeCount + U64 - orphanCount) % U64 }

/-- The method `BSTree.LeafImbalance`; the captured state is the pair
`(lowest, highest)`. -/
def BSTree.LeafImbalance {α : Type} (t : BSTree α) : Run Nat := do
  let (lowest, highest) ←
    t.Traverse
      (fun (acc : Nat × Nat) node depth =>
        if node.IsLeaf then
          let lowest := if depth > acc.1 then depth else acc.1
          let highest := if depth < acc.2 then depth else acc.2
          (lowest, highest)
        else acc)
      (0, U64 - 1)
  pure ((lowest + U64 - highest) % U64)

/-- The method `BSTree.halfSplit`, on a store: it returns the store after the
allocations and the address of the subtree built from `ordered`.  The first argument
bounds the depth of the recursion. -/
def BSTree.halfSplit {α : Type} :
    Nat → List (BSNode α) → Ptr → List α → Run (List (BSNode α) × Ptr)
  | 0, _, _, _ => .error .outOfFuel
  | fuel + 1, h, parent, ordered =>
    if ordered.length = 0 then pure (h, none)
    else
      let mid := ordered.length / 2
      match ordered[mid]? with
      | none => .error .dangling
      | some v => do
        let node : Ptr := some h.length
        let h1 := h ++ [{ Parent := parent, ChildL := none, ChildR := none, Value := v }]
        let (h2, lChild) ← BSTree.halfSplit fuel h1 node (ordered.take mid)
        let nd ← load h2 node
        let h3 ← store h2 node (nd.setChild .Left lChild)
        let mid := mid + 1
        if mid ≥ ordered.length then pure (h3, node)
        else do
          let (h4, rChild) ← BSTree.halfSplit fuel h3 node (ordered.drop mid)
          let nd ← load h4 node
          let h5 ← store h4 node (nd.setChild .Right rChild)
          pure (h5, node)

/-- The method `BSTree.Balance`. -/
def BSTree.Balance {α : Type} (t : BSTree α) : Run (BSTree α) := do
  let ordered ← t.Flatten
  let (h1, root) ← BSTree.halfSplit (ordered.length + 1) t.heap none ordered
  pure { heap := h1, Root := root, NodeCount := t.NodeCount }

/-! ## rbtree.go -/

/-- The type `RBColor` with its two constants `Red = 0` and `Black = 1`. -/
inductive RBColor where
  | Red
  | Black
deriving DecidableEq

/-- The record `RBNode[T]`; `ChildL` and `ChildR` are `Children[Left]` and
`Children[Right]`. -/
structure RBNode (α : Type) where
  Color : RBColor
  Parent : Ptr
  ChildL : Ptr
  ChildR : Ptr
  Value : α
deriving DecidableEq

/-- The expression `n.Children[side]`. -/
def RBNode.Children {α : Type} (n : RBNode α) : NodeSide → Ptr
  | .Left => n.ChildL
  | .Right => n.ChildR

/-- The record after `n.Children[side] = p`. -/
def RBNode.setChild {α : Type} (n : RBNode α) (side : NodeSide) (p : Ptr) : RBNode α :=
  match side with
  | .Left => { n with ChildL := p }
  | .Right => { n with ChildR := p }

/-- The store after the assignment `p.Color = c`. -/
def setColor {α : Type} (h : List (RBNode α)) (p : Ptr) (c : RBColor) : Run (List (RBNode α)) := do
  let n ← load h p
  store h p { n with Color := c }

/-- The store after the assignment `p.Parent = q`. -/
def setParent {α : Type} (h : List (RBNode α)) (p : Ptr) (q : Ptr) : Run (List (RBNode α)) := do
  let n ← load h p
  store h p { n with Parent := q }

/-- The store after the assignment `p.Children[side] = q`. -/
def setChildAt {α : Type} (h : List (RBNode α)) (p : Ptr) (side : NodeSide) (q : Ptr) :
    Run (List (RBNode α)) := do
  let n ← load h p
  store h p (n.setChild side q)

/-- The method `RBNode.OnLeft`. -/
def RBNode.OnLeft {α : Type} (h : List (RBNode α)) (n : Ptr) : Run Bool := do
  let nd ← load h n
  let pn ← load h nd.Parent
  pure (decide (pn.Children .Left = n))

/-- The method `RBNode.OnRight`. -/
def RBNode.OnRight {α : Type} (h : List (RBNode α)) (n : Ptr) : Run Bool := do
  let nd ← load h n
  let pn ← load h nd.Parent
  pure (decide (pn.Children .Right = n))

/-- The method `RBNode.Side`. -/
def RBNode.Side {α : Type} (h : List (RBNode α)) (n : Ptr) : Run NodeSide := do
  let l ← RBNode.OnLeft h n
  if l then pure .Left else pure .Right

/-- The method `RBNode.GrandParent`. -/
def RBNode.GrandParent {α : Type} (h : List (RBNode α)) (n : Ptr) : Run Ptr := do
  let nd ← load h n
  let pn ← load h nd.Parent
  pure pn.Parent

/-- The method `RBNode.Sibling`. -/
def RBNode.Sibling {α : Type} (h : List (RBNode α)) (n : Ptr) : Run Ptr := do
  let nd ← load h n
  let side ← RBNode.Side h n
  let pn ← load h nd.Parent
  pure (pn.Children side.flip)

/-- The method `RBNode.Uncle`. -/
def RBNode.Uncle {α : Type} (h : List (RBNode α)) (n : Ptr) : Run Ptr := do
  let nd ← load h n
  RBNode.Sibling h nd.Parent

/-- The method `RBNode.IsRed`. -/
def RBNode.IsRed {α : Type} (h : List (RBNode α)) (n : Ptr) : Run Bool := do
  let nd ← load h n
  pure (decide (nd.Color = .Red))

/-- The method `RBNode.IsBlack`. -/
def RBNode.IsBlack {α : Type} (h : List (RBNode α)) (n : Ptr) : Run Bool := do
  let nd ← load h n
  pure (decide (nd.Color = .Black))

/-- The method `RBNode.SwapWith`; the statements are taken in the order of the
source, `holdN` and `holdO` being the two local records. -/
def RBNode.SwapWith {α : Type} (h : List (RBNode α)) (n : Ptr) (other : Ptr) :
    Run (List (RBNode α)) := do
  let od ← load h other
  let holdN : RBNode α := { od with ChildL := od.Children .Left, ChildR := od.Children .Right }
  let od ← load h other
  let holdO : RBNode α := { od with ChildL := od.Children .Left, ChildR := od.Children .Right }
  -- n.Children[Left].Parent = other
  let nd ← load h n
  let h ← setParent h (nd.Children .Left) other
  -- n.Children[Right].Parent = other
  let nd ← load h n
  let h ← setParent h (nd.Children .Right) other
  -- n.Parent.Children[n.Side()] = other
  let nd ← load h n
  let s ← RBNode.Side h n
  let h ← setChildAt h nd.Parent s other
  -- other.Children[Left].Parent = n
  let od ← load h other
  let h ← setParent h (od.Children .Left) n
  -- other.Children[Right].Parent = n
  let od ← load h other
  let h ← setParent h (od.Children .Right) n
  -- other.Parent.Children[other.Side()] = n
  let od ← load h other
  let s ← RBNode.Side h other
  let h ← setChildAt h od.Parent s n
  -- other.Color, other.Parent, other.Children = holdN ...
  let od ← load h other
  let h ← store h other
    { od with Color := holdN.Color, Parent := holdN.Parent,
              ChildL := holdN.Children .Left, ChildR := holdN.Children .Right }
  -- n.Color, n.Parent, n.Children = holdO ...
  let nd ← load h n
  store h n
    { nd with Color := holdO.Color, Parent := holdO.Parent,
              ChildL := holdO.Children .Left, ChildR := holdO.Children .Right }

/-- The record `RBTree[T]` together with the store its nodes live in. -/
structure RBTree (α : Type) where
  heap : List (RBNode α)
  Root : Ptr
deriving DecidableEq

/-- The method `RBTree.Rotate`; it returns the tree after the call and the returned
pointer. -/
def RBTree.Rotate {α : Type} (t : RBTree α) (oldSubRoot : Ptr) (direction : NodeSide) :
    Run (RBTree α × Ptr) := do
  let od ← load t.heap oldSubRoot
  let parent := od.Parent
  let parentSide ← RBNode.Side t.heap oldSubRoot
  let newSubRoot := od.Children direction.flip
  if newSubRoot = none then pure (t, oldSubRoot)
  else do
    let nn ← load t.heap newSubRoot
    let swapChild := nn.Children direction
    let h ← setChildAt t.heap oldSubRoot direction.flip swapChild
    let h ← if swapChild ≠ none then setParent h swapChild oldSubRoot else pure h
    let h ← setChildAt h newSubRoot direction oldSubRoot
    let h ← setParent h oldSubRoot newSubRoot
    let h ← setParent h newSubRoot parent
    if parent ≠ none then do
      let h ← setChildAt h parent parentSide newSubRoot
      pure ({ heap := h, Root := t.Root }, newSubRoot)
    else pure ({ heap := h, Root := newSubRoot }, newSubRoot)

/-- The loop of `InOrderSuccessor` (`side = Left`) and of `InOrderPredecessor`
(`side = Right`). -/
def RBTree.descendLoop {α : Type} (h : List (RBNode α)) (side : NodeSide) : Nat → Ptr → Run Ptr
  | 0, _ => .error .outOfFuel
  | fuel + 1, cur => do
    let nd ← load h cur
    if nd.Children side ≠ none then RBTree.descendLoop h side fuel (nd.Children side)
    else pure cur

/-- The method `RBTree.InOrderSuccessor`. -/
def RBTree.InOrderSuccessor {α : Type} (t : RBTree α) (node : Ptr) : Run Ptr := do
  let nd ← load t.heap node
  let succ := nd.Children .Right
  if succ = none then pure none
  else RBTree.descendLoop t.heap .Left (t.heap.length + 1) succ

/-- The method `RBTree.InOrderPredecessor`. -/
def RBTree.InOrderPredecessor {α : Type} (t : RBTree α) (node : Ptr) : Run Ptr := do
  let nd ← load t.heap node
  let pred := nd.Children .Left
  if pred = none then pure none
  else RBTree.descendLoop t.heap .Right (t.heap.length + 1) pred

/-- How the loop of `Insert` is left: by a `return`, or by a jump to one of the two
labels, with the values of the local variables the code after the label reads. -/
inductive InsertExit where
  | returned
  | caseI4 (parent : Ptr)
  | case56 (node parent grandParent : Ptr) (side : NodeSide)
deriving DecidableEq

/-- The loop `for keepGoing` of `Insert`, with state `node`, `parent` and the store. -/
def RBTree.InsertLoop {α : Type} :
    Nat → List (RBNode α) → Ptr → Ptr → Run (List (RBNode α) × InsertExit)
  | 0, _, _, _ => .error .outOfFuel
  | fuel + 1, h, node, parent => do
    if ← RBNode.IsBlack h parent then pure (h, .returned)
    else do
      let pn ← load h parent
      let grandParent := pn.Parent
      if grandParent = none then pure (h, .caseI4 parent)
      else do
        let side ← RBNode.Side h parent
        let uncle ← RBNode.Uncle h node
        let uncleBlack ← if uncle = none then pure true else RBNode.IsBlack h uncle
        if uncleBlack then pure (h, .case56 node parent grandParent side)
        else do
          let h ← setColor h parent .Black
          let h ← setColor h uncle .Black
          let h ← setColor h grandParent .Red
          let node := grandParent
          let nd ← load h node
          let parent := nd.Parent
          if parent ≠ none then RBTree.InsertLoop fuel h node parent
          else pure (h, .returned)

/-- The method `RBTree.Insert`. -/
def RBTree.Insert {α : Type} (t : RBTree α) (node : Ptr) (parent : Ptr) (side : NodeSide) :
    Run (RBTree α) := do
  let nd ← load t.heap node
  let h ← store t.heap node
    { nd with Color := .Red, ChildL := none, ChildR := none, Parent := parent }
  if parent = none then pure { heap := h, Root := node }
  else do
    let h ← setChildAt h parent side node
    let (h, exit) ← RBTree.InsertLoop (h.length + 1) h node parent
    match exit with
    | .returned => pure { heap := h, Root := t.Root }
    | .caseI4 parent => do
      let h ← setColor h parent .Black
      pure { heap := h, Root := t.Root }
    | .case56 node parent grandParent side => do
      let t1 : RBTree α := { heap := h, Root := t.Root }
      let pn ← load t1.heap parent
      let (t2, parent) ←
        if node = pn.Children side.flip then do
          let (t2, _) ← t1.Rotate parent side
          let gn ← load t2.heap grandParent
          pure (t2, gn.Children side)
        else pure (t1, parent)
      let (t3, _) ← t2.Rotate grandParent side.flip
      let h ← setColor t3.heap parent .Black
      let h ← setColor h grandParent .Red
      pure { heap := h, Root := t3.Root }

/-- The code of `Delete` from the label `CASE_D6` on. -/
def RBTree.deleteD6 {α : Type} (t : RBTree α) (parent sibling distNephew : Ptr)
    (side : NodeSide) : Run (RBTree α) := do
  let (t1, _) ← t.Rotate parent side
  let pn ← load t1.heap parent
  let h ← setColor t1.heap sibling pn.Color
  let h ← setColor h parent .Black
  let h ← setColor h distNephew .Black
  pure { heap := h, Root := t1.Root }

/-- The code of `Delete` from the label `CASE_D5` on. -/
def RBTree.deleteD5 {α : Type} (t : RBTree α) (parent sibling closeNephew : Ptr)
    (side : NodeSide) : Run (RBTree α) := do
  let (t1, _) ← t.Rotate sibling side.flip
  let h ← setColor t1.heap sibling .Red
  let h ← setColor h closeNephew .Black
  let distNephew := sibling
  let sibling := closeNephew
  RBTree.deleteD6 { heap := h, Root := t1.Root } parent sibling distNephew side

/-- The code of `Delete` from the label `CASE_D4` on. -/
def RBTree.deleteD4 {α : Type} (t : RBTree α) (parent sibling : Ptr) : Run (RBTree α) := do
  let h ← setColor t.heap sibling .Red
  let h ← setColor h parent .Black
  pure { heap := h, Root := t.Root }

/-- The code of `Delete` from the label `CASE_D3` on. -/
def RBTree.deleteD3 {α : Type} (t : RBTree α) (parent sibling closeNephew : Ptr)
    (side : NodeSide) : Run (RBTree α) := do
  let (t1, _) ← t.Rotate parent side
  let h ← setColor t1.heap parent .Red
  let h ← setColor h sibling .Black
  let t2 : RBTree α := { heap := h, Root := t1.Root }
  let sibling := closeNephew
  let sn ← load t2.heap sibling
  let distNephew := sn.Children side.flip
  let distRed ← if distNephew ≠ none then RBNode.IsRed t2.heap distNephew else pure false
  if distRed then RBTree.deleteD6 t2 parent sibling distNephew side
  else do
    let closeRed ← if closeNephew ≠ none then RBNode.IsRed t2.heap closeNephew else pure false
    if closeRed then RBTree.deleteD5 t2 parent sibling closeNephew side
    else RBTree.deleteD4 t2 parent sibling

/-- How the loop of `Delete` is left: by falling out of it, or by a jump to one of the
labels, with the values of the local variables the code after the label reads. -/
inductive DeleteExit where
  | returned
  | caseD3 (parent sibling closeNephew : Ptr) (side : NodeSide)
  | caseD4 (parent sibling : Ptr)
  | caseD5 (parent sibling closeNephew : Ptr) (side : NodeSide)
  | caseD6 (parent sibling distNephew : Ptr) (side : NodeSide)
deriving DecidableEq

/-- The loop `for keepGoing` of `Delete`, with state `parent`, `side` and the store. -/
def RBTree.DeleteLoop {α : Type} :
    Nat → List (RBNode α) → Ptr → NodeSide → Run (List (RBNode α) × DeleteExit)
  | 0, _, _, _ => .error .outOfFuel
  | fuel + 1, h, parent, side => do
    let pn ← load h parent
    let sibling := pn.Children side.flip
    let sn ← load h sibling
    let distNephew := sn.Children side.flip
    let closeNephew := sn.Children side
    if ← RBNode.IsRed h sibling then pure (h, .caseD3 parent sibling closeNephew side)
    else do
      let distRed ← if distNephew ≠ none then RBNode.IsRed h distNephew else pure false
      if distRed then pure (h, .caseD6 parent sibling distNephew side)
      else do
        let closeRed ← if closeNephew ≠ none then RBNode.IsRed h closeNephew else pure false
        if closeRed then pure (h, .caseD5 parent sibling closeNephew side)
        else do
          if ← RBNode.IsRed h parent then pure (h, .caseD4 parent sibling)
          else do
            let h ← setColor h sibling .Red
            let node := parent
            let nd ← load h node
            let parent := nd.Parent
            if parent ≠ none then do
              let side ← RBNode.Side h node
              RBTree.DeleteLoop fuel h parent side
            else pure (h, .returned)

/-- The method `RBTree.Delete`. -/
def RBTree.Delete {α : Type} (t : RBTree α) (node : Ptr) : Run (RBTree α) := do
  let nd ← load t.heap node
  if nd.Parent = none ∧ nd.Children .Left = none ∧ nd.Children .Right = none then
    pure { heap := t.heap, Root := none }
  else do
    let h ←
      if nd.Children .Left ≠ none ∧ nd.Children .Right ≠ none then do
        let successor ← t.InOrderSuccessor node
        RBNode.SwapWith t.heap node successor
      else pure t.heap
    if ← RBNode.IsRed h node then do
      let nd ← load h node
      let s ← RBNode.Side h node
      let h ← setChildAt h nd.Parent s none
      pure { heap := h, Root := t.Root }
    else do
      let nd ← load h node
      let leftChild := decide (nd.Children .Left ≠ none ∧ nd.Children .Right = none)
      let rightChild := decide (nd.Children .Left = none ∧ nd.Children .Right ≠ none)
      if leftChild ∨ rightChild then do
        let side := if rightChild then NodeSide.Right else NodeSide.Left
        let h ← setColor h (nd.Children side) .Black
        let nd ← load h node
        let h ← RBNode.SwapWith h node (nd.Children side)
        let nd ← load h node
        let s ← RBNode.Side h node
        let h ← setChildAt h nd.Parent s none
        pure { heap := h, Root := t.Root }
      else do
        let parent := nd.Parent
        let side ← RBNode.Side h node
        let h ← setChildAt h parent side none
        let (h, exit) ← RBTree.DeleteLoop (h.length + 1) h parent side
        let t1 : RBTree α := { heap := h, Root := t.Root }
        match exit with
        | .returned => pure t1
        | .caseD3 parent sibling closeNephew side =>
          RBTree.deleteD3 t1 parent sibling closeNephew side
        | .caseD4 parent sibling => RBTree.deleteD4 t1 parent sibling
        | .caseD5 parent sibling closeNephew side =>
          RBTree.deleteD5 t1 parent sibling closeNephew side
        | .caseD6 parent sibling distNephew side =>
          RBTree.deleteD6 t1 parent sibling distNephew side

/-- Addresses reachable through child slots from the addresses of `stack`, each listed
once; `seen` holds the addresses already listed. -/
def reachFrom {α : Type} (h : List (BSNode α)) : Nat → List Nat → List Nat → List Nat
  | 0, _, seen => seen
  | _ + 1, [], seen => seen
  | fuel + 1, a :: stack, seen =>
    if a ∈ seen then reachFrom h fuel stack seen
    else
      match h[a]? with
      | none => reachFrom h fuel stack seen
      | some n => reachFrom h fuel (n.ChildL.toList ++ n.ChildR.toList ++ stack) (seen ++ [a])

/-- The nodes reachable from `t.Root` through child slots, each listed once. -/
def BSTree.reachable {α : Type} (t : BSTree α) : List Nat :=
  reachFrom t.heap (3 * t.heap.length + 2) t.Root.toList []

/-! ## Harness: comparers, sequences of calls, and the notions the claims speak of -/

/-- The comparer induced by an order: `Left` when `value < existing`, `Right` otherwise. -/
def comparerOf {α : Type} [LT α] [DecidableRel (fun (a b : α) => a < b)] : CompareFunc α :=
  fun value existing => if value < existing then .Left else .Right

/-- Successive `Add` calls with one comparer, in the order of the list. -/
def BSTree.addAll {α : Type} (comparer : CompareFunc α) : BSTree α → List α → Run (BSTree α)
  | t, [] => pure t
  | t, v :: vs => do
    let (t1, _) ← t.Add v comparer
    BSTree.addAll comparer t1 vs

/-- The scenario `Add 50`, `Add 40`, `Split(node 50, Left, spliter)` with the spliter
`v ↦ (v - 1, v)`; node 50 is at address 0 and node 40 at address 1. -/
def splitScenario : Run (BSTree Nat × Ptr) := do
  let t ← BSTree.addAll comparerOf BSTree.empty [50, 40]
  t.Split (some 0) .Left (fun v => (v - 1, v))

/-- A store of nodes as a caller allocates them before `Insert` (`&RBNode{Value: v}`),
with an empty tree. -/
def RBTree.fresh {α : Type} (vals : List α) : RBTree α :=
  { heap := vals.map
      (fun v => { Color := .Red, Parent := none, ChildL := none, ChildR := none, Value := v }),
    Root := none }

/-- A call of `Insert` or of `Delete`. -/
inductive RBOp where
  | insert (node parent : Ptr) (side : NodeSide)
  | delete (node : Ptr)

/-- One call on a tree. -/
def RBTree.applyOp {α : Type} (t : RBTree α) : RBOp → Run (RBTree α)
  | .insert n p s => t.Insert n p s
  | .delete n => t.Delete n

/-- Successive calls on a tree, in the order of the list. -/
def RBTree.runOps {α : Type} : RBTree α → List RBOp → Run (RBTree α)
  | t, [] => pure t
  | t, op :: ops => do
    let t1 ← t.applyOp op
    RBTree.runOps t1 ops

/-- Addresses of coloured nodes reachable through child slots from the addresses of
`stack`, each listed once; `seen` holds the addresses already listed. -/
def rbReachFrom {α : Type} (h : List (RBNode α)) : Nat → List Nat → List Nat → List Nat
  | 0, _, seen => seen
  | _ + 1, [], seen => seen
  | fuel + 1, a :: stack, seen =>
    if a ∈ seen then rbReachFrom h fuel stack seen
    else
      match h[a]? with
      | none => rbReachFrom h fuel stack seen
      | some n => rbReachFrom h fuel (n.ChildL.toList ++ n.ChildR.toList ++ stack) (seen ++ [a])

/-- The nodes reachable from `t.Root` through child slots, each listed once. -/
def RBTree.reachable {α : Type} (t : RBTree α) : List Nat :=
  rbReachFrom t.heap (3 * t.heap.length + 2) t.Root.toList []

/-- The call is of the kind the specification speaks of: an `Insert` of an allocated node
that is not in the tree, as the root of the empty tree or at an empty child slot of a node
of the tree; a `Delete` of a node of the tree. -/
def RBTree.admits {α : Type} (t : RBTree α) : RBOp → Bool
  | .insert (some n) none _ => decide (n < t.heap.length) && decide (t.Root = none)
  | .insert (some n) (some p) side =>
    decide (n < t.heap.length) && decide (n ∉ t.reachable) && decide (p ∈ t.reachable)
      && decide ((t.heap[p]?).map (fun pn => pn.Children side) = some none)
  | .insert none _ _ => false
  | .delete (some n) => decide (n ∈ t.reachable)
  | .delete none => false

/-- Every call of the list is admitted by the tree it is made on, and every call but
possibly the last returns. -/
def RBTree.admitsAll {α : Type} : RBTree α → List RBOp → Bool
  | _, [] => true
  | t, [op] => t.admits op
  | t, op :: ops =>
    t.admits op &&
      match t.applyOp op with
      | .ok t1 => RBTree.admitsAll t1 ops
      | .error _ => false

/-- No red node below `p` has a red parent; `parentRed` tells whether the node above
`p` is red. -/
def redRedFree {α : Type} (h : List (RBNode α)) : Nat → Ptr → Bool → Bool
  | 0, _, _ => false
  | _ + 1, none, _ => true
  | fuel + 1, some a, parentRed =>
    match h[a]? with
    | none => false
    | some n =>
      !(parentRed && decide (n.Color = .Red))
        && redRedFree h fuel n.ChildL (decide (n.Color = .Red))
        && redRedFree h fuel n.ChildR (decide (n.Color = .Red))

/-- The number of black nodes on every path from `p` to an empty child slot, when that
number is the same on all of them. -/
def blackHeight {α : Type} (h : List (RBNode α)) : Nat → Ptr → Option Nat
  | 0, _ => none
  | _ + 1, none => some 0
  | fuel + 1, some a =>
    match h[a]? with
    | none => none
    | some n =>
      match blackHeight h fuel n.ChildL, blackHeight h fuel n.ChildR with
      | some x, some y => if x = y then some (x + if n.Color = .Black then 1 else 0) else none
      | _, _ => none

/-- The first red-black invariant of a tree: no red node has a red parent. -/
def RBTree.redRedFree {α : Type} (t : RBTree α) : Bool :=
  Genstructs.redRedFree t.heap (t.heap.length + 1) t.Root false

/-- The second red-black invariant of a tree: every path from the root to an empty child
slot holds the same number of black nodes. -/
def RBTree.blackUniform {α : Type} (t : RBTree α) : Bool :=
  (Genstructs.blackHeight t.heap (t.heap.length + 1) t.Root).isSome

/-- Eleven insertions, none of which rotates at the root, followed by the deletion of
the black leaf at address 5, whose sibling is red. -/
def redSiblingOps : List RBOp :=
  [.insert (some 0) none .Left, .insert (some 1) (some 0) .Left,
   .insert (some 2) (some 0) .Right, .insert (some 3) (some 1) .Left,
   .insert (some 4) (some 3) .Right, .insert (some 5) (some 2) .Left,
   .insert (some 6) (some 5) .Right, .insert (some 7) (some 2) .Right,
   .insert (some 8) (some 1) .Left, .insert (some 9) (some 7) .Right,
   .insert (some 10) (some 2) .Left, .delete (some 5)]

/-- The tree with a black root 10 at address 0 and its red right child 20 at address 1,
as the first two insertions of the scenario 10, 20, 30 leave it; address 2 holds the
node 30, not yet inserted. -/
def twoNodeTree : Run (RBTree Nat) := do
  let t ← (RBTree.fresh [10, 20, 30]).Insert (some 0) none .Left
  t.Insert (some 1) (some 0) .Right

/-! ## Well-formed trees

A store holds a well-formed tree when its nodes, followed from the root through the child
slots, form a finite binary tree without repeated node, each node's parent reference
pointing at the node in whose child slot it sits.  The finite binary tree is given as a
`Shape`. -/

/-- A finite binary tree of addresses, with the value held at each address. -/
inductive Shape (α : Type) where
  | nil
  | node (l : Shape α) (a : Nat) (v : α) (r : Shape α)

/-- The pointer to the top node of a shape, `nil` for the empty shape. -/
def Shape.root {α : Type} : Shape α → Ptr
  | .nil => none
  | .node _ a _ _ => some a

/-- The subtree on a side of the top node. -/
def Shape.child {α : Type} : Shape α → NodeSide → Shape α
  | .nil, _ => .nil
  | .node l _ _ _, .Left => l
  | .node _ _ _ r, .Right => r

/-- The addresses of a shape in in-order. -/
def Shape.addrs {α : Type} : Shape α → List Nat
  | .nil => []
  | .node l a _ r => l.addrs ++ a :: r.addrs

/-- The values of a shape in in-order. -/
def Shape.values {α : Type} : Shape α → List α
  | .nil => []
  | .node l _ v r => l.values ++ v :: r.values

/-- The number of nodes of a shape. -/
def Shape.size {α : Type} : Shape α → Nat
  | .nil => 0
  | .node l _ _ r => l.size + 1 + r.size

/-- The number of nodes on the longest path from the top node to a leaf. -/
def Shape.height {α : Type} : Shape α → Nat
  | .nil => 0
  | .node l _ _ r => max l.height r.height + 1

/-- The plain-node store `h` holds the shape below a node whose parent reference is
`par`: link consistency of every node of the shape. -/
def BSShaped {α : Type} (h : List (BSNode α)) : Ptr → Shape α → Prop
  | _, .nil => True
  | par, .node l a v r =>
    h[a]? = some { Parent := par, ChildL := l.root, ChildR := r.root, Value := v } ∧
      BSShaped h (some a) l ∧ BSShaped h (some a) r

/-- A plain tree is well formed with shape `s`. -/
def BSTree.HasShape {α : Type} (t : BSTree α) (s : Shape α) : Prop :=
  s.root = t.Root ∧ BSShaped t.heap none s ∧ s.addrs.Nodup

/-- The coloured-node store `h` holds the shape below a node whose parent reference is
`par`, whatever the colours. -/
def RBShaped {α : Type} (h : List (RBNode α)) : Ptr → Shape α → Prop
  | _, .nil => True
  | par, .node l a v r =>
    (∃ c, h[a]? = some { Color := c, Parent := par, ChildL := l.root, ChildR := r.root,
                         Value := v }) ∧
      RBShaped h (some a) l ∧ RBShaped h (some a) r

/-- A red-black tree is well formed with shape `s`. -/
def RBTree.HasShape {α : Type} (t : RBTree α) (s : Shape α) : Prop :=
  s.root = t.Root ∧ RBShaped t.heap none s ∧ s.addrs.Nodup

/-- The tree left by `Insert(n20, nil, _)`, `Insert(n10, n20, Left)`,
`Insert(n30, n20, Right)`, `Insert(n5, n10, Left)`: root 20 at address 0, its children 10
and 30 at addresses 1 and 2, and 5 at address 3 as the left child of 10. -/
def smallTree : RBTree Nat :=
  { heap := [{ Color := .Red, Parent := none, ChildL := some 1, ChildR := some 2, Value := 20 },
             { Color := .Black, Parent := some 0, ChildL := some 3, ChildR := none, Value := 10 },
             { Color := .Black, Parent := some 0, ChildL := none, ChildR := none, Value := 30 },
             { Color := .Red, Parent := some 1, ChildL := none, ChildR := none, Value := 5 }],
    Root := some 0 }

/-- The shape of `smallTree`. -/
def smallShape : Shape Nat :=
  .node (.node (.node .nil 3 5 .nil) 1 10 .nil) 0 20 (.node .nil 2 30 .nil)

/-- The fold that `BSNode.Traverse` computes on a well-formed subtree: the visitor is
applied to the record of each node of the shape in in-order, with the depth of the node;
`par` is the parent reference of the top node. -/
def Shape.walk {α σ : Type} (op : σ → BSNode α → Nat → σ) : Shape α → Ptr → Nat → σ → σ
  | .nil, _, _, acc => acc
  | .node l a v r, par, depth, acc =>
    let acc1 := l.walk op (some a) ((depth + 1) % U64) acc
    let acc2 := op acc1 { Parent := par, ChildL := l.root, ChildR := r.root, Value := v } depth
    r.walk op (some a) ((depth + 1) % U64) acc2

/-- The shape after the descent of `AddFrom` has hung a node with address `new` and value
`value` below it. -/
def Shape.ins {α : Type} (comparer : CompareFunc α) (value : α) (new : Nat) : Shape α → Shape α
  | .nil => .node .nil new value .nil
  | .node l a v r =>
    match comparer value v with
    | .Left => .node (l.ins comparer value new) a v r
    | .Right => .node l a v (r.ins comparer value new)

/-- The search-tree order of a shape for the comparer induced by `<`: below each node, the
values that went `Left` are on the left and those that went `Right` on the right. -/
def Shape.Ordered {α : Type} [LT α] : Shape α → Prop
  | .nil => True
  | .node l _ v r =>
    (∀ x ∈ l.values, x < v) ∧ (∀ x ∈ r.values, ¬ x < v) ∧ l.Ordered ∧ r.Ordered

/-- At every node of the shape the numbers of nodes of the left and of the right subtree
differ by at most one. -/
def Shape.SizeBalanced {α : Type} : Shape α → Prop
  | .nil => True
  | .node l _ _ r =>
    (l.size ≤ r.size + 1 ∧ r.size ≤ l.size + 1) ∧ l.SizeBalanced ∧ r.SizeBalanced

/-- The chain 1, 2, 3 as `Add 1`, `Add 2`, `Add 3` leave it. -/
def chainTree : BSTree Nat :=
  { heap := [{ Parent := none, ChildL := none, ChildR := some 1, Value := 1 },
             { Parent := some 0, ChildL := none, ChildR := some 2, Value := 2 },
             { Parent := some 1, ChildL := none, ChildR := none, Value := 3 }],
    Root := some 0, NodeCount := 3 }

/-- The shape of `chainTree`. -/
def chainShape : Shape Nat :=
  .node .nil 0 1 (.node .nil 1 2 (.node .nil 2 3 .nil))

/-- A red-black tree of nine nodes satisfying both invariants: black root 50 (address 0)
with red children 30 (address 1) and 70 (address 2); below 30 the black nodes 20 (address 3)
and 40 (address 4); below 20 the red leaves 10 and 25 (addresses 5, 6); below 70 the black
leaves 60 and 80 (addresses 7, 8). -/
def nineTree : RBTree Nat :=
  { heap := [{ Color := .Black, Parent := none, ChildL := some 1, ChildR := some 2, Value := 50 },
             { Color := .Red, Parent := some 0, ChildL := some 3, ChildR := some 4, Value := 30 },
             { Color := .Red, Parent := some 0, ChildL := some 7, ChildR := some 8, Value := 70 },
             { Color := .Black, Parent := some 1, ChildL := some 5, ChildR := some 6, Value := 20 },
             { Color := .Black, Parent := some 1, ChildL := none, ChildR := none, Value := 40 },
             { Color := .Red, Parent := some 3, ChildL := none, ChildR := none, Value := 10 },
             { Color := .Red, Parent := some 3, ChildL := none, ChildR := none, Value := 25 },
             { Color := .Black, Parent := some 2, ChildL := none, ChildR := none, Value := 60 },
             { Color := .Black, Parent := some 2, ChildL := none, ChildR := none, Value := 80 }],
    Root := some 0 }

/-- The shape of `nineTree`. -/
def nineShape : Shape Nat :=
  .node (.node (.node (.node .nil 5 10 .nil) 3 20 (.node .nil 6 25 .nil)) 1 30 (.node .nil 4 40 .nil))
    0 50 (.node (.node .nil 7 60 .nil) 2 70 (.node .nil 8 80 .nil))

/-- The tree the eleven insertions of `redSiblingOps` leave: the black leaf at address 5
is the left child of the black node at address 6, which is not the root; its sibling, at
address 7, is red; the sibling's left child, at address 2, is black and has the red left
child at address 10 and no right child. -/
def redSiblingTree : RBTree Nat :=
  { heap := [{ Color := .Red, Parent := none, ChildL := some 4, ChildR := some 6, Value := 0 },
             { Color := .Black, Parent := some 4, ChildL := some 8, ChildR := none, Value := 1 },
             { Color := .Black, Parent := some 7, ChildL := some 10, ChildR := none, Value := 2 },
             { Color := .Black, Parent := some 4, ChildL := none, ChildR := none, Value := 3 },
             { Color := .Black, Parent := some 0, ChildL := some 3, ChildR := some 1, Value := 4 },
             { Color := .Black, Parent := some 6, ChildL := none, ChildR := none, Value := 5 },
             { Color := .Black, Parent := some 0, ChildL := some 5, ChildR := some 7, Value := 6 },
             { Color := .Red, Parent := some 6, ChildL := some 2, ChildR := some 9, Value := 7 },
             { Color := .Red, Parent := some 1, ChildL := none, ChildR := none, Value := 8 },
             { Color := .Black, Parent := some 7, ChildL := none, ChildR := none, Value := 9 },
             { Color := .Red, Parent := some 2, ChildL := none, ChildR := none, Value := 10 }],
    Root := some 0 }

/-- The depths of the leaves of a shape in in-order, the top node being at depth `d`. -/
def Shape.leafDepths {α : Type} : Shape α → Nat → List Nat
  | .nil, _ => []
  | .node l _ _ r, d =>
    if l.root = none ∧ r.root = none then [d]
    else l.leafDepths (d + 1) ++ r.leafDepths (d + 1)

/-- The largest number of a list, 0 for the empty list. -/
def maxOf : List Nat → Nat
  | [] => 0
  | x :: xs => max x (maxOf xs)

/-- The smallest number of a list, 0 for the empty list. -/
def minOf : List Nat → Nat
  | [] => 0
  | [x] => x
  | x :: y :: ys => min x (minOf (y :: ys))

/-- The depth of the deepest leaf, the root being at depth 0. -/
def Shape.maxLeafDepth {α : Type} (s : Shape α) : Nat := maxOf (s.leafDepths 0)

/-- The depth of the shallowest leaf, the root being at depth 0. -/
def Shape.minLeafDepth {α : Type} (s : Shape α) : Nat := minOf (s.leafDepths 0)

/-- The visitor of `LeafImbalance`, on the pair `(lowest, highest)`. -/
def leafStep {α : Type} (acc : Nat × Nat) (node : BSNode α) (depth : Nat) : Nat × Nat :=
  if node.IsLeaf then
    let lowest := if depth > acc.1 then depth else acc.1
    let highest := if depth < acc.2 then depth else acc.2
    (lowest, highest)
  else acc

/-- The chain 1, 2, ..., 7 as the `Add` calls in ascending order leave it. -/
def chain7Tree : BSTree Nat :=
  { heap := [{ Parent := none, ChildL := none, ChildR := some 1, Value := 1 },
             { Parent := some 0, ChildL := none, ChildR := some 2, Value := 2 },
             { Parent := some 1, ChildL := none, ChildR := some 3, Value := 3 },
             { Parent := some 2, ChildL := none, ChildR := some 4, Value := 4 },
             { Parent := some 3, ChildL := none, ChildR := some 5, Value := 5 },
             { Parent := some 4, ChildL := none, ChildR := some 6, Value := 6 },
             { Parent := some 5, ChildL := none, ChildR := none, Value := 7 }],
    Root := some 0, NodeCount := 7 }

/-- The shape of `chain7Tree`. -/
def chain7Shape : Shape Nat :=
  .node .nil 0 1 (.node .nil 1 2 (.node .nil 2 3 (.node .nil 3 4 (.node .nil 4 5
    (.node .nil 5 6 (.node .nil 6 7 .nil))))))

/-- The shape of the tree `Balance` builds from `chain7Tree`: its nodes are allocated at
the addresses 7 to 13. -/
def balanced7Shape : Shape Nat :=
  .node (.node (.node .nil 9 1 .nil) 8 2 (.node .nil 10 3 .nil)) 7 4
    (.node (.node .nil 12 5 .nil) 11 6 (.node .nil 13 7 .nil))

/-- The matcher of a total order: a match when the value equals the existing one, otherwise
`Left` when the value is smaller and `Right` when it is greater. -/
def matcherOf {α : Type} [LinearOrder α] : MatchFunc α :=
  fun value existing => (decide (value = existing), if value < existing then .Left else .Right)

/-- The search-tree order that `Find` relies on: below each node no value on the left is
greater and no value on the right is smaller than the value of the node. -/
def Shape.SearchOrdered {α : Type} [LE α] : Shape α → Prop
  | .nil => True
  | .node l _ v r =>
    (∀ x ∈ l.values, x ≤ v) ∧ (∀ x ∈ r.values, v ≤ x) ∧ l.SearchOrdered ∧ r.SearchOrdered

/-- The store holds the values of the shape and its child links as far as the shape goes:
where the shape has no child the slot of the store is left free. -/
def FindShaped {α : Type} (h : List (BSNode α)) : Shape α → Prop
  | .nil => True
  | .node l a v r =>
    (∃ nd, h[a]? = some nd ∧ nd.Value = v ∧ (l ≠ .nil → nd.ChildL = l.root) ∧
        (r ≠ .nil → nd.ChildR = r.root)) ∧
      FindShaped h l ∧ FindShaped h r

/-- The value `lowVal` of `Split`. -/
def lowPart {α : Type} (spliter : SplitFunc α) (lowSide : NodeSide) (v : α) : α :=
  if lowSide = .Left then (spliter v).1 else (spliter v).2

/-- The value `highVal` of `Split`. -/
def highPart {α : Type} (spliter : SplitFunc α) (lowSide : NodeSide) (v : α) : α :=
  if lowSide = .Left then (spliter v).2 else (spliter v).1

/-- The shape a `Split` at the node `n` is meant to leave when `n` has no child on
`lowSide`: `n` holds `high` and has on `lowSide` a new leaf at address `new` holding `low`. -/
def Shape.splitAt {α : Type} (n : Nat) (lowSide : NodeSide) (low high : α) (new : Nat) :
    Shape α → Shape α
  | .nil => .nil
  | .node l a v r =>
    if a = n then
      match lowSide with
      | .Left => .node (.node .nil new low .nil) a high r
      | .Right => .node l a high (.node .nil new low .nil)
    else .node (l.splitAt n lowSide low high new) a v (r.splitAt n lowSide low high new)

/-- The tree made of the single node 50. -/
def single50 : BSTree Nat :=
  { heap := [{ Parent := none, ChildL := none, ChildR := none, Value := 50 }],
    Root := some 0, NodeCount := 1 }

/-- The shape after a rotation in direction `d` at its top node: the child on the side
opposite `d` comes to the top, the former top node becomes its child on side `d` and takes
over the child the pivot had on side `d`.  Without a pivot the shape is unchanged. -/
def Shape.rot {α : Type} : NodeSide → Shape α → Shape α
  | .Left, .node l a v (.node rl b w rr) => .node (.node l a v rl) b w rr
  | .Right, .node (.node ll b w lr) a v r => .node ll b w (.node lr a v r)
  | _, s => s

/-- The shape after a rotation in direction `d` at the node with address `target`. -/
def Shape.rotateAt {α : Type} (target : Nat) (d : NodeSide) : Shape α → Shape α
  | .nil => .nil
  | .node l a v r =>
    if a = target then (Shape.node l a v r).rot d
    else .node (l.rotateAt target d) a v (r.rotateAt target d)

/-! ## Theorems -/

variable {α : Type}

/-! ### Running code: reads and writes through pointers -/

@[simp] theorem ok_bind {β γ : Type} (a : β) (f : β → Run γ) :
    (Except.ok a >>= f : Run γ) = f a := rfl

@[simp] theorem error_bind {β γ : Type} (e : Fault) (f : β → Run γ) :
    (Except.error e >>= f : Run γ) = Except.error e := rfl

@[simp] theorem pure_eq_ok {β : Type} (a : β) : (pure a : Run β) = Except.ok a := rfl

theorem load_some {ν : Type} {h : List ν} {a : Nat} {n : ν} (e : h[a]? = some n) :
    load h (some a) = .ok n := by
  simp [load, e]

theorem store_some {ν : Type} {h : List ν} {a : Nat} {n : ν} (m : ν) (e : h[a]? = some n) :
    store h (some a) m = .ok (h.set a m) := by
  have : a < h.length := by
    by_contra hc
    rw [List.getElem?_eq_none (by omega)] at e
    cases e
  simp [store, this]

theorem setParent_some {h : List (RBNode α)} {a : Nat} {n : RBNode α} (q : Ptr)
    (e : h[a]? = some n) : setParent h (some a) q = .ok (h.set a { n with Parent := q }) := by
  simp [setParent, load_some e, store_some _ e]

theorem setChildAt_some {h : List (RBNode α)} {a : Nat} {n : RBNode α} (side : NodeSide) (q : Ptr)
    (e : h[a]? = some n) : setChildAt h (some a) side q = .ok (h.set a (n.setChild side q)) := by
  simp [setChildAt, load_some e, store_some _ e]

theorem side_some {h : List (RBNode α)} {a p : Nat} {n np : RBNode α}
    (e : h[a]? = some n) (hp : n.Parent = some p) (ep : h[p]? = some np) :
    RBNode.Side h (some a) = .ok (if np.ChildL = some a then .Left else .Right) := by
  simp only [RBNode.Side, RBNode.OnLeft, load_some e, hp, load_some ep, RBNode.Children, ok_bind, pure_eq_ok]
  by_cases hc : np.ChildL = some a <;> simp [hc]

theorem getElem?_set_some {ν : Type} {h : List ν} {a : Nat} {n : ν} (m : ν) (e : h[a]? = some n) :
    (h.set a m)[a]? = some m := by
  have : a < h.length := by
    by_contra hc
    rw [List.getElem?_eq_none (by omega)] at e
    cases e
  simp [List.getElem?_set, this]

theorem lt_of_getElem?_some {ν : Type} {h : List ν} {a : Nat} {n : ν} (e : h[a]? = some n) :
    a < h.length := by
  by_contra hc
  rw [List.getElem?_eq_none (by omega)] at e
  cases e

theorem getElem_of_some {ν : Type} {h : List ν} {a : Nat} {n : ν} (e : h[a]? = some n)
    (l : a < h.length) : h[a] = n := by
  have := List.getElem?_eq_getElem l
  rw [e] at this
  exact (Option.some.inj this).symm

/-! ### Shapes -/

theorem Shape.root_mem {s : Shape α} {a : Nat} (e : s.root = some a) : a ∈ s.addrs := by
  cases s with
  | nil => cases e
  | node l b v r => cases e; simp [Shape.addrs]

theorem Shape.child_subset (s : Shape α) (d : NodeSide) {a : Nat}
    (e : a ∈ (s.child d).addrs) : a ∈ s.addrs := by
  cases s with
  | nil => cases d <;> simp [Shape.child, Shape.addrs] at e
  | node l b v r => cases d <;> simp [Shape.child] at e <;> simp [Shape.addrs, e]

theorem Shape.child_nodup (s : Shape α) (d : NodeSide) (nd : s.addrs.Nodup) :
    (s.child d).addrs.Nodup := by
  cases s with
  | nil => cases d <;> simp [Shape.child, Shape.addrs]
  | node l b v r =>
    simp only [Shape.addrs, List.nodup_append, List.nodup_cons] at nd
    cases d
    · exact nd.1
    · exact nd.2.1.2

theorem Shape.root_not_mem_child (s : Shape α) (d : NodeSide) (nd : s.addrs.Nodup) {a : Nat}
    (e : s.root = some a) : a ∉ (s.child d).addrs := by
  cases s with
  | nil => cases e
  | node l b v r =>
    cases e
    simp only [Shape.addrs, List.nodup_append, List.nodup_cons] at nd
    cases d
    · intro hm
      exact nd.2.2 hm (List.mem_cons_self _ _)
    · exact nd.2.1.1

theorem Shape.child_disjoint (s : Shape α) (nd : s.addrs.Nodup) {a : Nat}
    (e1 : a ∈ (s.child .Left).addrs) (e2 : a ∈ (s.child .Right).addrs) : False := by
  cases s with
  | nil => simp [Shape.child, Shape.addrs] at e1
  | node l b v r =>
    simp only [Shape.addrs, List.nodup_append, List.nodup_cons] at nd
    exact nd.2.2 e1 (List.mem_cons_of_mem _ e2)

theorem RBShaped.child {h : List (RBNode α)} {par : Ptr} {s : Shape α} {a : Nat}
    (sh : RBShaped h par s) (e : s.root = some a) (d : NodeSide) :
    RBShaped h (some a) (s.child d) := by
  cases s with
  | nil => cases e
  | node l b v r =>
    cases e
    cases d
    · exact sh.2.1
    · exact sh.2.2

theorem RBShaped.at_root {h : List (RBNode α)} {par : Ptr} {s : Shape α} {a : Nat}
    (sh : RBShaped h par s) (e : s.root = some a) :
    ∃ n, h[a]? = some n ∧ n.Parent = par ∧ ∀ d, n.Children d = (s.child d).root := by
  cases s with
  | nil => cases e
  | node l b v r =>
    cases e
    obtain ⟨⟨c, hc⟩, _, _⟩ := sh
    refine ⟨_, hc, rfl, ?_⟩
    intro d
    cases d <;> rfl

theorem RBShaped.focus {h : List (RBNode α)} {a : Nat} :
    ∀ (s : Shape α) (par : Ptr), RBShaped h par s → s.addrs.Nodup → a ∈ s.addrs →
      s.root ≠ some a →
      ∃ (q : Shape α) (par' : Ptr) (p : Nat) (ps : NodeSide), RBShaped h par' q ∧ q.addrs.Nodup ∧
        q.root = some p ∧ (q.child ps).root = some a := by
  intro s
  induction s with
  | nil => intro par _ _ hm; simp [Shape.addrs] at hm
  | node l b v r ihl ihr =>
    intro par sh nd hm hr
    have hb : a ≠ b := fun e => hr (by rw [e]; rfl)
    simp only [Shape.addrs, List.mem_append, List.mem_cons] at hm
    rcases hm with hm | hm | hm
    · by_cases hl : l.root = some a
      · exact ⟨_, par, b, .Left, sh, nd, rfl, hl⟩
      · exact ihl (some b) sh.2.1 (Shape.child_nodup (.node l b v r) .Left nd) hm hl
    · exact absurd hm hb
    · by_cases hl : r.root = some a
      · exact ⟨_, par, b, .Right, sh, nd, rfl, hl⟩
      · exact ihr (some b) sh.2.2 (Shape.child_nodup (.node l b v r) .Right nd) hm hl

/-! ### Rotation -/

theorem rotate_spec (h : List (RBNode α)) (root : Ptr) (d ps : NodeSide) (p s v : Nat)
    (np ns nv : RBNode α)
    (hp : h[p]? = some np) (hs : h[s]? = some ns) (hv : h[v]? = some nv)
    (hsp : ns.Parent = some p) (hsv : ns.Children d.flip = some v)
    (hside : RBNode.Side h (some s) = .ok ps)
    (hc : ∀ c, nv.Children d = some c → ∃ nc, h[c]? = some nc ∧ c ≠ p ∧ c ≠ s ∧ c ≠ v)
    (hps' : p ≠ s) (hpv : p ≠ v) (hsv' : s ≠ v) :
    ∃ H, RBTree.Rotate ⟨h, root⟩ (some s) d = .ok (⟨H, root⟩, some v) ∧
      H[s]? = some { ns.setChild d.flip (nv.Children d) with Parent := some v } ∧
      H[v]? = some { nv.setChild d (some s) with Parent := some p } ∧
      H[p]? = some (np.setChild ps (some v)) ∧
      (∀ c nc, nv.Children d = some c → h[c]? = some nc →
        H[c]? = some { nc with Parent := some s }) ∧
      (∀ i, i ≠ s → i ≠ v → i ≠ p → nv.Children d ≠ some i → H[i]? = h[i]?) := by
  have ls := lt_of_getElem?_some hs
  have lv := lt_of_getElem?_some hv
  have lp := lt_of_getElem?_some hp
  have hs' := getElem_of_some hs ls
  have hv' := getElem_of_some hv lv
  have hp' := getElem_of_some hp lp
  have e1 := hps'.symm
  have e2 := hpv.symm
  have e3 := hsv'.symm
  cases hcc : nv.Children d with
  | none =>
    apply Exists.intro
    apply And.intro
    · simp [RBTree.Rotate, setChildAt, setParent, load, store, List.getElem?_set, hs, hv, hp,
        hsp, hsv, hside, hcc, hps', hpv, hsv', e1, e2, e3, ls, lv, lp]
      rfl
    · simp only [List.getElem?_set, List.length_set, hs, hv, hp, hps', hpv, hsv', e1, e2, e3,
        ls, lv, lp, hs', hv', hp', if_true, if_false, true_and, reduceCtorEq, false_implies,
        implies_true]
      intro i a b c
      simp [Ne.symm a, Ne.symm b, Ne.symm c]
  | some c =>
    obtain ⟨nc, hcn, hcp, hcs, hcv⟩ := hc c hcc
    have lc := lt_of_getElem?_some hcn
    have hc' := getElem_of_some hcn lc
    have e4 := hcp.symm
    have e5 := hcs.symm
    have e6 := hcv.symm
    apply Exists.intro
    apply And.intro
    · simp [RBTree.Rotate, setChildAt, setParent, load, store, List.getElem?_set, hs, hv, hp,
        hsp, hsv, hside, hcc, hps', hpv, hsv', e1, e2, e3, ls, lv, lp, hcn, hcp, hcs, hcv,
        e4, e5, e6, lc]
      rfl
    · simp only [List.getElem?_set, List.length_set, hs, hv, hp, hps', hpv, hsv', e1, e2, e3,
        ls, lv, lp, hs', hv', hp', hc', if_true, if_false, true_and, reduceCtorEq, false_implies,
        implies_true, hcn, hcp, hcs, hcv, e4, e5, e6, lc]
      refine ⟨?_, ?_⟩
      · intro c1 nc1 ec en
        cases Option.some.inj ec
        rw [hcn] at en
        cases Option.some.inj en
        simp [e4, e5, e6]
      · intro i a b c1 c2
        have c3 : c ≠ i := fun e => c2 (by rw [e])
        simp [Ne.symm a, Ne.symm b, Ne.symm c1, c3]

@[simp] theorem flip_flip (d : NodeSide) : d.flip.flip = d := by cases d <;> rfl

theorem flip_ne (d : NodeSide) : d.flip ≠ d := by cases d <;> decide

theorem rb_rec_children (ns : RBNode α) (d : NodeSide) (x v : Ptr) :
    RBNode.Children { ns.setChild d.flip x with Parent := v } d.flip = x := by
  cases d <;> rfl

theorem rb_rec_pivot (nv : RBNode α) (d : NodeSide) (s p : Ptr) :
    RBNode.Children { nv.setChild d s with Parent := p } d.flip.flip = s := by
  cases d <;> rfl

theorem rb_rec_old (ns : RBNode α) (d : NodeSide) (x v p : Ptr)
    (hsp : ns.Parent = p) (hsv : ns.Children d.flip = v) :
    ({ ({ ns.setChild d.flip x with Parent := v } : RBNode α).setChild d.flip v
        with Parent := p } : RBNode α) = ns := by
  cases d <;> cases ns <;> simp_all [RBNode.setChild, RBNode.Children, NodeSide.flip]

theorem rb_rec_new (nv : RBNode α) (d : NodeSide) (s p : Ptr) (hvp : nv.Parent = s) :
    ({ ({ nv.setChild d s with Parent := p } : RBNode α).setChild d.flip.flip (nv.Children d)
        with Parent := s } : RBNode α) = nv := by
  cases d <;> cases nv <;> simp_all [RBNode.setChild, RBNode.Children, NodeSide.flip]

theorem rb_rec_parent (np : RBNode α) (ps : NodeSide) (s v : Ptr) (hps : np.Children ps = s) :
    (np.setChild ps v).setChild ps s = np := by
  cases ps <;> cases np <;> simp_all [RBNode.setChild, RBNode.Children]

theorem rb_rec_swap (nc : RBNode α) (s v : Ptr) (hcp : nc.Parent = v) :
    ({ ({ nc with Parent := s } : RBNode α) with Parent := v } : RBNode α) = nc := by
  cases nc; simp_all

/-- Two opposite rotations around a pivot restore the store, from the link facts around the
rotated node alone. -/
theorem rotate_rotate_local (t : RBTree α) (d ps : NodeSide) (p s v : Nat)
    (np ns nv : RBNode α)
    (hp : t.heap[p]? = some np) (hs : t.heap[s]? = some ns) (hv : t.heap[v]? = some nv)
    (hsp : ns.Parent = some p) (hsv : ns.Children d.flip = some v) (hvp : nv.Parent = some s)
    (hps : np.Children ps = some s)
    (hpl : ps = .Right → np.ChildL ≠ some s ∧ np.ChildL ≠ some v)
    (hc : ∀ c, nv.Children d = some c →
      ∃ nc, t.heap[c]? = some nc ∧ nc.Parent = some v ∧ c ≠ p ∧ c ≠ s ∧ c ≠ v)
    (hps' : p ≠ s) (hpv : p ≠ v) (hsv' : s ≠ v) :
    ∃ t1, t.Rotate (some s) d = .ok (t1, some v) ∧ t1.Rotate (some v) d.flip = .ok (t, some s) := by
  obtain ⟨h, root⟩ := t
  simp only at hp hs hv hc
  have hside : RBNode.Side h (some s) = .ok ps := by
    rw [side_some hs hsp hp]
    cases ps
    · simp [RBNode.Children] at hps; simp [hps]
    · simp [(hpl rfl).1]
  obtain ⟨H, hrot, Hs, Hv, Hp, Hc, Hi⟩ := rotate_spec h root d ps p s v np ns nv hp hs hv hsp hsv
    hside (fun c e => by obtain ⟨nc, a, _, b⟩ := hc c e; exact ⟨nc, a, b⟩) hps' hpv hsv'
  have hside2 : RBNode.Side H (some v) = .ok ps := by
    rw [side_some Hv rfl Hp]
    cases ps
    · simp [RBNode.setChild]
    · simp [RBNode.setChild, (hpl rfl).2]
  have ey := rb_rec_children ns d (nv.Children d) (some v)
  obtain ⟨H2, hrot2, Gv, Gs, Gp, Gc, Gi⟩ := rotate_spec H root d.flip ps p v s
    (np.setChild ps (some v)) _ _ Hp Hv Hs rfl (rb_rec_pivot nv d (some s) (some p))
    hside2 (fun c e => by
      rw [ey] at e
      obtain ⟨nc, a, _, b1, b2, b3⟩ := hc c e
      exact ⟨_, Hc c nc e a, b1, b3, b2⟩) hpv hps' hsv'.symm
  refine ⟨⟨H, root⟩, hrot, ?_⟩
  rw [hrot2]
  rw [ey] at Gv Gc Gi
  have : H2 = h := by
    apply List.ext_getElem?
    intro i
    by_cases his : i = s
    · subst his
      rw [Gs, hs, rb_rec_old ns d _ _ _ hsp hsv]
    by_cases hiv : i = v
    · subst hiv
      rw [Gv, hv, rb_rec_new nv d _ _ hvp]
    by_cases hip : i = p
    · subst hip
      rw [Gp, hp, rb_rec_parent np ps _ _ hps]
    by_cases hic : nv.Children d = some i
    · obtain ⟨nc, a, b, _⟩ := hc i hic
      rw [Gc i _ hic (Hc i nc hic a), a]
      exact congrArg some (rb_rec_swap nc _ _ b)
    · rw [Gi i hiv his hip hic, Hi i his hiv hip hic]
  rw [this]

/-! ### Rotation in a well-formed tree -/

/-- In a well-formed red-black tree, for a node `s` that is not the root and has a child `v`
on the side opposite `d`, `Rotate(s, d)` returns `v`, and `Rotate(v, 1 - d)` then returns
`s` and leaves the store and the root reference exactly as they were. -/
theorem rotate_restores_of_pivot (t : RBTree α) (sh : Shape α) (wf : t.HasShape sh)
    (s v : Nat) (d : NodeSide) (hin : s ∈ sh.addrs) (hroot : t.Root ≠ some s)
    (hv : ∃ ns, t.heap[s]? = some ns ∧ ns.Children d.flip = some v) :
    ∃ t1, t.Rotate (some s) d = .ok (t1, some v) ∧
      t1.Rotate (some v) d.flip = .ok (t, some s) := by
  obtain ⟨hr, hsh, nd⟩ := wf
  obtain ⟨q, par, p, ps, qsh, qnd, qr, qs⟩ := RBShaped.focus sh none hsh nd hin (hr ▸ hroot)
  obtain ⟨np, hp, -, hpc⟩ := qsh.at_root qr
  have ssh := qsh.child qr ps
  have snd := q.child_nodup ps qnd
  obtain ⟨ns, hs, hsp, hsc⟩ := ssh.at_root qs
  obtain ⟨ns', hs', hsv⟩ := hv
  rw [hs] at hs'
  cases Option.some.inj hs'
  have vr : ((q.child ps).child d.flip).root = some v := by rw [← hsc, hsv]
  have vsh := ssh.child qs d.flip
  have vnd := (q.child ps).child_nodup d.flip snd
  obtain ⟨nv, hv, hvp, hvc⟩ := vsh.at_root vr
  have sq : s ∈ (q.child ps).addrs := Shape.root_mem qs
  have vs : v ∈ ((q.child ps).child d.flip).addrs := Shape.root_mem vr
  have vq : v ∈ (q.child ps).addrs := Shape.child_subset _ _ vs
  have hps : p ≠ s := fun e => q.root_not_mem_child ps qnd qr (e ▸ sq)
  have hpv : p ≠ v := fun e => q.root_not_mem_child ps qnd qr (e ▸ vq)
  have hsv' : s ≠ v := fun e => (q.child ps).root_not_mem_child d.flip snd qs (e ▸ vs)
  refine rotate_rotate_local t d ps p s v np ns nv hp hs hv hsp hsv hvp (by rw [hpc, qs]) ?_ ?_
    hps hpv hsv'
  · intro e
    subst e
    have key : ∀ x, x ∈ (q.child .Right).addrs → np.ChildL ≠ some x := by
      intro x hx e
      have e' : (q.child .Left).root = some x := by rw [← hpc]; exact e
      exact q.child_disjoint qnd (Shape.root_mem e') hx
    exact ⟨key s sq, key v vq⟩
  · intro c hc
    have cr : (((q.child ps).child d.flip).child d).root = some c := by rw [← hvc, hc]
    obtain ⟨nc, hcn, hcp, -⟩ := (vsh.child vr d).at_root cr
    have cv : c ∈ (((q.child ps).child d.flip).child d).addrs := Shape.root_mem cr
    have cs : c ∈ ((q.child ps).child d.flip).addrs := Shape.child_subset _ _ cv
    have cq : c ∈ (q.child ps).addrs := Shape.child_subset _ _ cs
    refine ⟨nc, hcn, hcp, ?_, ?_, ?_⟩
    · exact fun e => q.root_not_mem_child ps qnd qr (e ▸ cq)
    · exact fun e => (q.child ps).root_not_mem_child d.flip snd qs (e ▸ cs)
    · exact fun e => ((q.child ps).child d.flip).root_not_mem_child d vnd vr (e ▸ cv)

/-- Without a pivot, `Rotate` on a node that has a parent returns the node and leaves the
tree as it is. -/
theorem rotate_no_pivot (t : RBTree α) (d : NodeSide) (p s : Nat) (np ns : RBNode α)
    (hp : t.heap[p]? = some np) (hs : t.heap[s]? = some ns) (hsp : ns.Parent = some p)
    (hnone : ns.Children d.flip = none) : t.Rotate (some s) d = .ok (t, some s) := by
  simp [RBTree.Rotate, load_some hs, side_some hs hsp hp, hnone]

theorem smallTree_hasShape : smallTree.HasShape smallShape :=
  ⟨rfl, ⟨⟨_, rfl⟩, ⟨⟨_, rfl⟩, ⟨⟨_, rfl⟩, trivial, trivial⟩, trivial⟩, ⟨⟨_, rfl⟩, trivial, trivial⟩⟩,
    by decide⟩

theorem nineTree_hasShape : nineTree.HasShape nineShape :=
  ⟨rfl,
    ⟨⟨_, rfl⟩,
      ⟨⟨_, rfl⟩,
        ⟨⟨_, rfl⟩, ⟨⟨_, rfl⟩, trivial, trivial⟩, ⟨⟨_, rfl⟩, trivial, trivial⟩⟩,
        ⟨⟨_, rfl⟩, trivial, trivial⟩⟩,
      ⟨⟨_, rfl⟩, ⟨⟨_, rfl⟩, trivial, trivial⟩, ⟨⟨_, rfl⟩, trivial, trivial⟩⟩⟩,
    by decide⟩

/-! ### The shape after a rotation -/

theorem Shape.rot_values (d : NodeSide) (s : Shape α) : (s.rot d).values = s.values := by
  cases d with
  | Left =>
    cases s with
    | nil => rfl
    | node l a v r =>
      cases r with
      | nil => rfl
      | node rl b w rr => simp [Shape.rot, Shape.values]
  | Right =>
    cases s with
    | nil => rfl
    | node l a v r =>
      cases l with
      | nil => rfl
      | node ll b w lr => simp [Shape.rot, Shape.values]

theorem Shape.rot_addrs (d : NodeSide) (s : Shape α) : (s.rot d).addrs = s.addrs := by
  cases d with
  | Left =>
    cases s with
    | nil => rfl
    | node l a v r =>
      cases r with
      | nil => rfl
      | node rl b w rr => simp [Shape.rot, Shape.addrs]
  | Right =>
    cases s with
    | nil => rfl
    | node l a v r =>
      cases l with
      | nil => rfl
      | node ll b w lr => simp [Shape.rot, Shape.addrs]

theorem Shape.rotateAt_values (target : Nat) (d : NodeSide) (s : Shape α) :
    (s.rotateAt target d).values = s.values := by
  induction s with
  | nil => rfl
  | node l a v r ihl ihr =>
    simp only [Shape.rotateAt]
    by_cases h : a = target
    · rw [if_pos h, Shape.rot_values]
    · rw [if_neg h]; simp only [Shape.values, ihl, ihr]

theorem Shape.rotateAt_addrs (target : Nat) (d : NodeSide) (s : Shape α) :
    (s.rotateAt target d).addrs = s.addrs := by
  induction s with
  | nil => rfl
  | node l a v r ihl ihr =>
    simp only [Shape.rotateAt]
    by_cases h : a = target
    · rw [if_pos h, Shape.rot_addrs]
    · rw [if_neg h]; simp only [Shape.addrs, ihl, ihr]

theorem Shape.rotateAt_of_not_mem (target : Nat) (d : NodeSide) (s : Shape α)
    (h : target ∉ s.addrs) : s.rotateAt target d = s := by
  induction s with
  | nil => rfl
  | node l a v r ihl ihr =>
    simp only [Shape.addrs, List.mem_append, List.mem_cons, not_or] at h
    simp only [Shape.rotateAt]
    rw [if_neg (fun e => h.2.1 e.symm), ihl h.1, ihr h.2.2]

theorem Shape.rotateAt_root (target : Nat) (d : NodeSide) (s : Shape α)
    (h : s.root ≠ some target) : (s.rotateAt target d).root = s.root := by
  cases s with
  | nil => rfl
  | node l a v r =>
    simp only [Shape.rotateAt]
    rw [if_neg (fun e => h (by rw [← e]; rfl))]
    rfl

theorem Shape.rotateAt_of_root (target : Nat) (d : NodeSide) (s : Shape α)
    (h : s.root = some target) : s.rotateAt target d = s.rot d := by
  cases s with
  | nil => cases h
  | node l a v r =>
    cases h
    simp only [Shape.rotateAt, if_true]


theorem rbShaped_congr {h H : List (RBNode α)} :
    ∀ (s : Shape α) (par : Ptr), (∀ x ∈ s.addrs, H[x]? = h[x]?) → RBShaped h par s →
      RBShaped H par s := by
  intro s
  induction s with
  | nil => intro _ _ _; trivial
  | node l a v r ihl ihr =>
    intro par hh sh
    refine ⟨?_, ihl _ ?_ sh.2.1, ihr _ ?_ sh.2.2⟩
    · rw [hh a (by simp [Shape.addrs])]; exact sh.1
    · intro x hx; exact hh x (by simp [Shape.addrs, hx])
    · intro x hx; exact hh x (by simp [Shape.addrs, hx])

theorem rbShaped_reparent {h H : List (RBNode α)} (s : Shape α) (par par1 : Ptr)
    (nd : s.addrs.Nodup) (sh : RBShaped h par s)
    (htop : ∀ x nx, s.root = some x → h[x]? = some nx →
      H[x]? = some { nx with Parent := par1 })
    (hrest : ∀ i ∈ s.addrs, s.root ≠ some i → H[i]? = h[i]?) : RBShaped H par1 s := by
  cases s with
  | nil => trivial
  | node l a v r =>
    obtain ⟨⟨c, hc⟩, sl, sr⟩ := sh
    have hal : a ∉ l.addrs := Shape.root_not_mem_child (.node l a v r) .Left nd rfl
    have har : a ∉ r.addrs := Shape.root_not_mem_child (.node l a v r) .Right nd rfl
    refine ⟨⟨c, htop a _ rfl hc⟩, rbShaped_congr l _ ?_ sl, rbShaped_congr r _ ?_ sr⟩
    · intro x hx
      exact hrest x (by simp [Shape.addrs, hx]) (fun e => hal (by cases e; exact hx))
    · intro x hx
      exact hrest x (by simp [Shape.addrs, hx]) (fun e => har (by cases e; exact hx))

/-- The children of a node of a well-formed subtree lie in that subtree. -/
theorem rbShaped_child_mem {h : List (RBNode α)} {x y : Nat} {nx : RBNode α} {side : NodeSide}
    (hx : h[x]? = some nx) (hy : nx.Children side = some y) :
    ∀ (s : Shape α) (par : Ptr), RBShaped h par s → x ∈ s.addrs → y ∈ s.addrs := by
  intro s
  induction s with
  | nil => intro _ _ hm; simp [Shape.addrs] at hm
  | node l a v r ihl ihr =>
    intro par sh hm
    simp only [Shape.addrs, List.mem_append, List.mem_cons] at hm ⊢
    rcases hm with hm | hm | hm
    · exact Or.inl (ihl _ sh.2.1 hm)
    · subst hm
      obtain ⟨⟨c, hc⟩, -, -⟩ := sh
      rw [hx] at hc
      cases Option.some.inj hc
      cases side
      · exact Or.inl (Shape.root_mem hy)
      · exact Or.inr (Or.inr (Shape.root_mem hy))
    · exact Or.inr (Or.inr (ihr _ sh.2.2 hm))

/-- The store after a rotation at the top of a well-formed subtree carries the rotated
shape below the same parent. -/
theorem rot_shaped {h H : List (RBNode α)} (d : NodeSide) (p s v : Nat) (ns nv : RBNode α)
    (hs : h[s]? = some ns) (hv : h[v]? = some nv)
    (hsv : ns.Children d.flip = some v)
    (Hs : H[s]? = some { ns.setChild d.flip (nv.Children d) with Parent := some v })
    (Hv : H[v]? = some { nv.setChild d (some s) with Parent := some p })
    (Hc : ∀ c nc, nv.Children d = some c → h[c]? = some nc →
      H[c]? = some { nc with Parent := some s })
    (Hi : ∀ i, i ≠ s → i ≠ v → i ≠ p → nv.Children d ≠ some i → H[i]? = h[i]?)
    (T : Shape α) (par : Ptr) (sh : RBShaped h par T) (nd : T.addrs.Nodup)
    (hr : T.root = some s) (hp : p ∉ T.addrs) : RBShaped H (some p) (T.rot d) := by
  cases T with
  | nil => cases hr
  | node l a x r =>
    cases hr
    obtain ⟨⟨c, hc⟩, sl, sr⟩ := sh
    rw [hs] at hc
    cases Option.some.inj hc
    simp only [Shape.addrs, List.mem_append, List.mem_cons, not_or] at hp
    cases d with
    | Left =>
      cases r with
      | nil => cases hsv
      | node rl b w rr =>
        cases hsv
        obtain ⟨⟨c2, hc2⟩, srl, srr⟩ := sr
        rw [hv] at hc2
        cases Option.some.inj hc2
        simp only [Shape.addrs, List.mem_append, List.mem_cons, not_or] at hp
        simp only [Shape.addrs, List.nodup_append, List.nodup_cons, List.mem_append,
          List.mem_cons, not_or, List.Disjoint] at nd
        obtain ⟨ndl, ⟨⟨hsrl, hsv, hsrr⟩, ndrl, ⟨hvrr, ndrr⟩, drl⟩, dl⟩ := nd
        have fl : ∀ i ∈ l.addrs, H[i]? = h[i]? := by
          intro i hi
          refine Hi i ?_ ?_ ?_ ?_
          · intro e; exact dl hi (Or.inl e)
          · intro e; exact dl hi (Or.inr (Or.inr (Or.inl e)))
          · intro e; exact hp.1 (e ▸ hi)
          · intro e; exact dl hi (Or.inr (Or.inl (Shape.root_mem e)))
        have frr : ∀ i ∈ rr.addrs, H[i]? = h[i]? := by
          intro i hi
          refine Hi i ?_ ?_ ?_ ?_
          · intro e; exact hsrr (e ▸ hi)
          · intro e; exact hvrr (e ▸ hi)
          · intro e; exact hp.2.2.2.2 (e ▸ hi)
          · intro e; exact drl (Shape.root_mem e) (Or.inr hi)
        refine ⟨⟨_, Hv⟩, ⟨⟨_, Hs⟩, rbShaped_congr l _ fl sl, ?_⟩, rbShaped_congr rr _ frr srr⟩
        refine rbShaped_reparent rl _ _ ndrl srl ?_ ?_
        · intro y ny hy hny
          exact Hc y ny hy hny
        · intro i hi hne
          refine Hi i ?_ ?_ ?_ hne
          · intro e; exact hsrl (e ▸ hi)
          · intro e; exact drl hi (Or.inl e)
          · intro e; exact hp.2.2.1 (e ▸ hi)
    | Right =>
      cases l with
      | nil => cases hsv
      | node ll b w lr =>
        cases hsv
        obtain ⟨⟨c2, hc2⟩, sll, slr⟩ := sl
        rw [hv] at hc2
        cases Option.some.inj hc2
        simp only [Shape.addrs, List.mem_append, List.mem_cons, not_or] at hp
        simp only [Shape.addrs, List.nodup_append, List.nodup_cons, List.mem_append,
          List.mem_cons, not_or, List.Disjoint] at nd
        obtain ⟨⟨ndll, ⟨hvlr, ndlr⟩, dll⟩, ⟨hsr, ndr⟩, dr⟩ := nd
        have fll : ∀ i ∈ ll.addrs, H[i]? = h[i]? := by
          intro i hi
          refine Hi i ?_ ?_ ?_ ?_
          · intro e; exact dr (Or.inl hi) (Or.inl e)
          · intro e; exact dll hi (Or.inl e)
          · intro e; exact hp.1.1 (e ▸ hi)
          · intro e; exact dll hi (Or.inr (Shape.root_mem e))
        have fr : ∀ i ∈ r.addrs, H[i]? = h[i]? := by
          intro i hi
          refine Hi i ?_ ?_ ?_ ?_
          · intro e; exact hsr (e ▸ hi)
          · intro e; exact dr (Or.inr (Or.inl rfl)) (Or.inr (e ▸ hi))
          · intro e; exact hp.2.2 (e ▸ hi)
          · intro e; exact dr (Or.inr (Or.inr (Shape.root_mem e))) (Or.inr hi)
        refine ⟨⟨_, Hv⟩, rbShaped_congr ll _ fll sll, ⟨_, Hs⟩, ?_, rbShaped_congr r _ fr sr⟩
        refine rbShaped_reparent lr _ _ ndlr slr ?_ ?_
        · intro y ny hy hny
          exact Hc y ny hy hny
        · intro i hi hne
          refine Hi i ?_ ?_ ?_ hne
          · intro e; exact dr (Or.inr (Or.inr hi)) (Or.inl e)
          · intro e; exact hvlr (e ▸ hi)
          · intro e; exact hp.1.2.2 (e ▸ hi)

theorem rot_root {h : List (RBNode α)} (d : NodeSide) (s v : Nat) (ns : RBNode α)
    (hs : h[s]? = some ns) (hsv : ns.Children d.flip = some v)
    (T : Shape α) (par : Ptr) (sh : RBShaped h par T) (hr : T.root = some s) :
    (T.rot d).root = some v := by
  cases T with
  | nil => cases hr
  | node l a x r =>
    cases hr
    obtain ⟨⟨c, hc⟩, -, -⟩ := sh
    rw [hs] at hc
    cases Option.some.inj hc
    cases d with
    | Left =>
      cases r with
      | nil => cases hsv
      | node rl b w rr => exact hsv
    | Right =>
      cases l with
      | nil => cases hsv
      | node ll b w lr => exact hsv

/-- The store after `Rotate(s, d)`, described pointwise, carries the shape rotated at `s`
in every well-formed subtree that contains the parent of `s`. -/
theorem rotateAt_shaped {h H : List (RBNode α)} (d ps : NodeSide) (p s v : Nat)
    (np ns nv : RBNode α)
    (hp : h[p]? = some np) (hs : h[s]? = some ns) (hv : h[v]? = some nv)
    (hsp : ns.Parent = some p) (hsv : ns.Children d.flip = some v)
    (hps : np.Children ps = some s)
    (Hs : H[s]? = some { ns.setChild d.flip (nv.Children d) with Parent := some v })
    (Hv : H[v]? = some { nv.setChild d (some s) with Parent := some p })
    (Hp : H[p]? = some (np.setChild ps (some v)))
    (Hc : ∀ c nc, nv.Children d = some c → h[c]? = some nc →
      H[c]? = some { nc with Parent := some s })
    (Hi : ∀ i, i ≠ s → i ≠ v → i ≠ p → nv.Children d ≠ some i → H[i]? = h[i]?) :
    ∀ (T : Shape α) (par : Ptr), RBShaped h par T → T.addrs.Nodup → p ∈ T.addrs →
      RBShaped H par (T.rotateAt s d) := by
  have frame : ∀ (Q : Shape α) (par1 : Ptr), RBShaped h par1 Q → s ∈ Q.addrs →
      ∀ i, i ∉ Q.addrs → i ≠ p → H[i]? = h[i]? := by
    intro Q par1 shq hsq i hi hip
    have hvq : v ∈ Q.addrs := rbShaped_child_mem hs hsv Q par1 shq hsq
    refine Hi i ?_ ?_ hip ?_
    · intro e; exact hi (e ▸ hsq)
    · intro e; exact hi (e ▸ hvq)
    · intro e; exact hi (rbShaped_child_mem hv e Q par1 shq hvq)
  intro T
  induction T with
  | nil => intro _ _ _ hm; simp [Shape.addrs] at hm
  | node l a x r ihl ihr =>
    intro par sh nd hm
    have ndl : l.addrs.Nodup := Shape.child_nodup (.node l a x r) .Left nd
    have ndr : r.addrs.Nodup := Shape.child_nodup (.node l a x r) .Right nd
    have hal : a ∉ l.addrs := Shape.root_not_mem_child (.node l a x r) .Left nd rfl
    have har : a ∉ r.addrs := Shape.root_not_mem_child (.node l a x r) .Right nd rfl
    have dis : ∀ i, i ∈ l.addrs → i ∈ r.addrs → False :=
      fun i h1 h2 => Shape.child_disjoint (.node l a x r) nd h1 h2
    obtain ⟨⟨c, hc⟩, sl, sr⟩ := sh
    by_cases hap : a = p
    · subst hap
      rw [hp] at hc
      cases Option.some.inj hc
      cases ps with
      | Left =>
        have hsl : s ∈ l.addrs := Shape.root_mem hps
        have has : a ≠ s := fun e => hal (e ▸ hsl)
        simp only [Shape.rotateAt]
        rw [if_neg has, Shape.rotateAt_of_root _ _ l hps,
          Shape.rotateAt_of_not_mem _ _ r (fun e => dis s hsl e)]
        refine ⟨⟨c, ?_⟩, rot_shaped d a s v ns nv hs hv hsv Hs Hv Hc Hi l _ sl ndl hps hal,
          rbShaped_congr r _ ?_ sr⟩
        · rw [rot_root d s v ns hs hsv l _ sl hps]; exact Hp
        · intro i hi
          exact frame l _ sl hsl i (fun e => dis i e hi) (fun e => har (e ▸ hi))
      | Right =>
        have hsr : s ∈ r.addrs := Shape.root_mem hps
        have has : a ≠ s := fun e => har (e ▸ hsr)
        simp only [Shape.rotateAt]
        rw [if_neg has, Shape.rotateAt_of_root _ _ r hps,
          Shape.rotateAt_of_not_mem _ _ l (fun e => dis s e hsr)]
        refine ⟨⟨c, ?_⟩, rbShaped_congr l _ ?_ sl,
          rot_shaped d a s v ns nv hs hv hsv Hs Hv Hc Hi r _ sr ndr hps har⟩
        · rw [rot_root d s v ns hs hsv r _ sr hps]; exact Hp
        · intro i hi
          exact frame r _ sr hsr i (fun e => dis i hi e) (fun e => hal (e ▸ hi))
    · simp only [Shape.addrs, List.mem_append, List.mem_cons] at hm
      rcases hm with hm | hm | hm
      · have hsl : s ∈ l.addrs := rbShaped_child_mem hp hps l _ sl hm
        have has : a ≠ s := fun e => hal (e ▸ hsl)
        have hlr : l.root ≠ some s := by
          intro e
          obtain ⟨n, hn, hnp, -⟩ := sl.at_root e
          rw [hs] at hn
          cases Option.some.inj hn
          rw [hsp] at hnp
          exact hap (Option.some.inj hnp).symm
        simp only [Shape.rotateAt]
        rw [if_neg has, Shape.rotateAt_of_not_mem _ _ r (fun e => dis s hsl e)]
        refine ⟨⟨c, ?_⟩, ihl _ sl ndl hm, rbShaped_congr r _ ?_ sr⟩
        · rw [Shape.rotateAt_root _ _ l hlr, frame l _ sl hsl a hal hap]; exact hc
        · intro i hi
          exact frame l _ sl hsl i (fun e => dis i e hi) (fun e => dis p hm (e ▸ hi))
      · exact absurd hm.symm hap
      · have hsr : s ∈ r.addrs := rbShaped_child_mem hp hps r _ sr hm
        have has : a ≠ s := fun e => har (e ▸ hsr)
        have hrr : r.root ≠ some s := by
          intro e
          obtain ⟨n, hn, hnp, -⟩ := sr.at_root e
          rw [hs] at hn
          cases Option.some.inj hn
          rw [hsp] at hnp
          exact hap (Option.some.inj hnp).symm
        simp only [Shape.rotateAt]
        rw [if_neg has, Shape.rotateAt_of_not_mem _ _ l (fun e => dis s e hsr)]
        refine ⟨⟨c, ?_⟩, rbShaped_congr l _ ?_ sl, ihr _ sr ndr hm⟩
        · rw [Shape.rotateAt_root _ _ r hrr, frame r _ sr hsr a har hap]; exact hc
        · intro i hi
          exact frame r _ sr hsr i (fun e => dis i hi e) (fun e => dis p (e ▸ hi) hm)

/-- The parent of a node below the top of a well-formed subtree lies in that subtree. -/
theorem rbShaped_parent_mem {h : List (RBNode α)} {s p : Nat} {ns : RBNode α}
    (hs : h[s]? = some ns) (hsp : ns.Parent = some p) :
    ∀ (T : Shape α) (par : Ptr), RBShaped h par T → s ∈ T.addrs → T.root ≠ some s →
      p ∈ T.addrs := by
  intro T
  induction T with
  | nil => intro _ _ hm; simp [Shape.addrs] at hm
  | node l a x r ihl ihr =>
    intro par sh hm hr
    have key : ∀ (Q : Shape α), RBShaped h (some a) Q → Q.root = some s → p = a := by
      intro Q shq e
      obtain ⟨n, hn, hnp, -⟩ := shq.at_root e
      rw [hs] at hn
      cases Option.some.inj hn
      rw [hsp] at hnp
      exact Option.some.inj hnp
    simp only [Shape.addrs, List.mem_append, List.mem_cons] at hm ⊢
    rcases hm with hm | hm | hm
    · by_cases e : l.root = some s
      · exact Or.inr (Or.inl (key l sh.2.1 e))
      · exact Or.inl (ihl _ sh.2.1 hm e)
    · exact absurd (by rw [hm]; rfl) hr
    · by_cases e : r.root = some s
      · exact Or.inr (Or.inl (key r sh.2.2 e))
      · exact Or.inr (Or.inr (ihr _ sh.2.2 hm e))

theorem rb_setChild_color (n : RBNode α) (d : NodeSide) (x : Ptr) :
    (n.setChild d x).Color = n.Color := by
  cases d <;> rfl

theorem rb_setChild_same (n : RBNode α) (d : NodeSide) (x : Ptr) :
    (n.setChild d x).Children d = x := by
  cases d <;> rfl

theorem rb_setChild_other (n : RBNode α) (d : NodeSide) (x : Ptr) :
    (n.setChild d x).Children d.flip = n.Children d.flip := by
  cases d <;> rfl

/-! ### Plain trees: traversal of a well-formed tree -/

theorem BSShaped.congr {h H : List (BSNode α)} :
    ∀ (s : Shape α) (par : Ptr), (∀ x ∈ s.addrs, H[x]? = h[x]?) → BSShaped h par s →
      BSShaped H par s := by
  intro s
  induction s with
  | nil => intro _ _ _; trivial
  | node l a v r ihl ihr =>
    intro par hh sh
    refine ⟨?_, ihl _ ?_ sh.2.1, ihr _ ?_ sh.2.2⟩
    · rw [hh a (by simp [Shape.addrs])]; exact sh.1
    · intro x hx; exact hh x (by simp [Shape.addrs, hx])
    · intro x hx; exact hh x (by simp [Shape.addrs, hx])

theorem BSShaped.addr_lt {h : List (BSNode α)} :
    ∀ (s : Shape α) (par : Ptr), BSShaped h par s → ∀ x ∈ s.addrs, x < h.length := by
  intro s
  induction s with
  | nil => intro _ _ x hx; simp [Shape.addrs] at hx
  | node l a v r ihl ihr =>
    intro par sh x hx
    simp only [Shape.addrs, List.mem_append, List.mem_cons] at hx
    rcases hx with hx | hx | hx
    · exact ihl _ sh.2.1 x hx
    · rw [hx]; exact lt_of_getElem?_some sh.1
    · exact ihr _ sh.2.2 x hx

theorem Shape.length_addrs (s : Shape α) : s.addrs.length = s.size := by
  induction s with
  | nil => rfl
  | node l a v r ihl ihr => simp [Shape.addrs, Shape.size, ihl, ihr]; omega

theorem Shape.length_values (s : Shape α) : s.values.length = s.size := by
  induction s with
  | nil => rfl
  | node l a v r ihl ihr => simp [Shape.values, Shape.size, ihl, ihr]; omega

theorem Shape.height_le_size (s : Shape α) : s.height ≤ s.size := by
  induction s with
  | nil => simp [Shape.height]
  | node l a v r ihl ihr => simp only [Shape.height, Shape.size]; omega

theorem length_le_of_nodup_lt {l : List Nat} {n : Nat} (nd : l.Nodup) (hl : ∀ x ∈ l, x < n) :
    l.length ≤ n := by
  have h1 : l.toFinset ⊆ Finset.range n := by
    intro x hx
    rw [List.mem_toFinset] at hx
    exact Finset.mem_range.mpr (hl x hx)
  have h2 := Finset.card_le_card h1
  rwa [List.toFinset_card_of_nodup nd, Finset.card_range] at h2

theorem BSShaped.height_le {h : List (BSNode α)} {s : Shape α} {par : Ptr}
    (sh : BSShaped h par s) (nd : s.addrs.Nodup) : s.height ≤ h.length :=
  calc s.height ≤ s.size := s.height_le_size
    _ = s.addrs.length := s.length_addrs.symm
    _ ≤ h.length := length_le_of_nodup_lt nd (BSShaped.addr_lt s par sh)

theorem Shape.root_eq_none {s : Shape α} (e : s.root = none) : s = .nil := by
  cases s with
  | nil => rfl
  | node l a v r => cases e

theorem traverse_spec {σ : Type} {h : List (BSNode α)} (op : σ → BSNode α → Nat → σ) :
    ∀ (s : Shape α) (par : Ptr) (a : Nat) (fuel depth : Nat) (acc : σ),
      BSShaped h par s → s.root = some a → s.height ≤ fuel →
      BSNode.Traverse h fuel (some a) depth op acc = .ok (s.walk op par depth acc) := by
  intro s
  induction s with
  | nil => intro _ _ _ _ _ _ e; cases e
  | node l b v r ihl ihr =>
    intro par a fuel depth acc sh e hf
    cases e
    cases fuel with
    | zero => simp [Shape.height] at hf
    | succ fuel =>
      simp only [Shape.height] at hf
      have hl : l.height ≤ fuel := by omega
      have hr : r.height ≤ fuel := by omega
      have EL : ∀ (d : Nat) (x : σ), l.root ≠ none →
          BSNode.Traverse h fuel l.root d op x = .ok (l.walk op (some b) d x) := by
        intro d x hne
        cases hlr : l.root with
        | none => exact absurd hlr hne
        | some c => exact ihl (some b) c fuel d x sh.2.1 hlr hl
      have ER : ∀ (d : Nat) (x : σ), r.root ≠ none →
          BSNode.Traverse h fuel r.root d op x = .ok (r.walk op (some b) d x) := by
        intro d x hne
        cases hrr : r.root with
        | none => exact absurd hrr hne
        | some c => exact ihr (some b) c fuel d x sh.2.2 hrr hr
      have NL : ∀ (d : Nat) (x : σ), l.root = none → l.walk op (some b) d x = x := by
        intro d x e; rw [Shape.root_eq_none e]; rfl
      have NR : ∀ (d : Nat) (x : σ), r.root = none → r.walk op (some b) d x = x := by
        intro d x e; rw [Shape.root_eq_none e]; rfl
      simp only [BSNode.Traverse, load_some sh.1, ok_bind, BSNode.Children, Shape.walk]
      by_cases hl0 : l.root = none <;> by_cases hr0 : r.root = none
      · rw [if_neg (not_not.mpr hl0), NL _ _ hl0, NR _ _ hr0, pure_eq_ok, ok_bind,
          if_neg (not_not.mpr hr0), pure_eq_ok]
      · rw [if_neg (not_not.mpr hl0), NL _ _ hl0, pure_eq_ok, ok_bind, if_pos hr0, ER _ _ hr0]
      · rw [if_pos hl0, EL _ _ hl0, ok_bind, NR _ _ hr0, if_neg (not_not.mpr hr0), pure_eq_ok]
      · rw [if_pos hl0, EL _ _ hl0, ok_bind, if_pos hr0, ER _ _ hr0]

theorem walk_flatten (s : Shape α) :
    ∀ (par : Ptr) (depth : Nat) (acc : List α),
      s.walk (fun ordered node _ => ordered ++ [node.Value]) par depth acc = acc ++ s.values := by
  induction s with
  | nil => intro _ _ acc; simp [Shape.walk, Shape.values]
  | node l a v r ihl ihr =>
    intro par depth acc
    simp [Shape.walk, Shape.values, ihl, ihr]

theorem flatten_spec (t : BSTree α) (s : Shape α) (wf : t.HasShape s) :
    t.Flatten = .ok s.values := by
  obtain ⟨hr, sh, nd⟩ := wf
  unfold BSTree.Flatten BSTree.Traverse
  cases hroot : t.Root with
  | none =>
    rw [hroot] at hr
    rw [Shape.root_eq_none hr]
    rfl
  | some a =>
    rw [hroot] at hr
    rw [if_neg (by simp)]
    rw [traverse_spec _ s none a _ 0 [] sh hr (by have := sh.height_le nd; omega)]
    rw [walk_flatten]
    rfl

/-! ### Plain trees: `Add` on a well-formed tree -/

theorem Shape.ins_root_of_root (cmp : CompareFunc α) (value : α) (new : Nat) (s : Shape α)
    {a : Nat} (e : s.root = some a) : (s.ins cmp value new).root = some a := by
  cases s with
  | nil => cases e
  | node l b v r =>
    cases e
    simp only [Shape.ins]
    cases cmp value v <;> rfl

theorem Shape.ins_addrs_perm (cmp : CompareFunc α) (value : α) (new : Nat) (s : Shape α) :
    (s.ins cmp value new).addrs.Perm (new :: s.addrs) := by
  induction s with
  | nil => simp [Shape.ins, Shape.addrs]
  | node l b v r ihl ihr =>
    simp only [Shape.ins]
    cases cmp value v
    · simp only [Shape.addrs]
      exact (ihl.append_right _).trans (by simp)
    · simp only [Shape.addrs]
      have : (b :: (r.ins cmp value new).addrs).Perm (new :: b :: r.addrs) :=
        (List.Perm.cons b ihr).trans (List.Perm.swap _ _ _)
      exact (List.Perm.append_left _ this).trans (by simp)

theorem Shape.ins_values_perm (cmp : CompareFunc α) (value : α) (new : Nat) (s : Shape α) :
    (s.ins cmp value new).values.Perm (value :: s.values) := by
  induction s with
  | nil => simp [Shape.ins, Shape.values]
  | node l b v r ihl ihr =>
    simp only [Shape.ins]
    cases cmp value v
    · simp only [Shape.values]
      exact (ihl.append_right _).trans (by simp)
    · simp only [Shape.values]
      have : (v :: (r.ins cmp value new).values).Perm (value :: v :: r.values) :=
        (List.Perm.cons v ihr).trans (List.Perm.swap _ _ _)
      exact (List.Perm.append_left _ this).trans (by simp)

theorem getElem?_set_append_ne {ν : Type} (h : List ν) (e m : ν) (p x : Nat)
    (hx : x < h.length) (hne : x ≠ p) : ((h ++ [e]).set p m)[x]? = h[x]? := by
  rw [List.getElem?_set_ne (Ne.symm hne), List.getElem?_append_left hx]

theorem getElem?_set_append_new {ν : Type} (h : List ν) (e m : ν) (p : Nat)
    (hp : p < h.length) : ((h ++ [e]).set p m)[h.length]? = some e := by
  rw [List.getElem?_set_ne (by omega), List.getElem?_append_right (le_refl _)]
  simp

theorem getElem?_set_append_self {ν : Type} (h : List ν) (e m : ν) (p : Nat)
    (hp : p < h.length) : ((h ++ [e]).set p m)[p]? = some m := by
  rw [List.getElem?_set_self (by simp; omega)]

/-- The descent of `AddFrom` through a well-formed subtree ends at a node of the subtree
with an empty slot, and hanging the new node there gives the shape `Shape.ins`. -/
theorem addFromLoop_spec {h : List (BSNode α)} (value : α) (cmp : CompareFunc α) :
    ∀ (s : Shape α) (par : Ptr) (a : Nat) (v : α) (fuel : Nat),
      BSShaped h par s → s.addrs.Nodup → s.root = some a →
      (∃ n, h[a]? = some n ∧ n.Value = v) → s.height ≤ fuel →
      ∃ p sd pn, BSTree.AddFromLoop h value cmp fuel (some a) (cmp value v) = .ok (some p, sd) ∧
        h[p]? = some pn ∧ p ∈ s.addrs ∧
        BSShaped ((h ++ [({ Parent := some p, ChildL := none, ChildR := none, Value := value } : BSNode α)]).set
          p (pn.setChild sd (some h.length))) par (s.ins cmp value h.length) := by
  intro s
  induction s with
  | nil => intro _ _ _ _ _ _ e; cases e
  | node l b w r ihl ihr =>
    intro par a v fuel sh nd e hv hf
    cases e
    obtain ⟨n, hn, hnv⟩ := hv
    rw [sh.1] at hn
    cases Option.some.inj hn
    simp only at hnv
    subst hnv
    have lb := lt_of_getElem?_some sh.1
    have hlt := BSShaped.addr_lt _ _ sh
    simp only [Shape.addrs, List.nodup_append, List.nodup_cons] at nd
    obtain ⟨ndl, ⟨hbr, ndr⟩, hdisj⟩ := nd
    have hbl : b ∉ l.addrs := fun hm => hdisj hm (List.mem_cons_self _ _)
    cases fuel with
    | zero => simp [Shape.height] at hf
    | succ fuel =>
      simp only [Shape.height] at hf
      have hl : l.height ≤ fuel := by omega
      have hr : r.height ≤ fuel := by omega
      simp only [BSTree.AddFromLoop, load_some sh.1, ok_bind, Shape.ins]
      cases hside : cmp value w with
      | Left =>
        simp only [BSNode.Children]
        cases hlr : l.root with
        | none =>
          have := Shape.root_eq_none hlr
          subst this
          refine ⟨b, .Left, _, by simp, sh.1, by simp [Shape.addrs], ?_⟩
          refine ⟨?_, ⟨?_, trivial, trivial⟩, ?_⟩
          · rw [getElem?_set_append_self _ _ _ _ lb]; rfl
          · rw [getElem?_set_append_new _ _ _ _ lb]; rfl
          · refine BSShaped.congr r _ ?_ sh.2.2
            intro x hx
            exact getElem?_set_append_ne _ _ _ _ _ (hlt x (by simp [Shape.addrs, hx]))
              (fun e => hbr (e ▸ hx))
        | some c =>
          obtain ⟨cn, hcn, -⟩ : ∃ cn, h[c]? = some cn ∧ True := by
            cases l with
            | nil => cases hlr
            | node ll c' cv lr => cases hlr; exact ⟨_, sh.2.1.1, trivial⟩
          obtain ⟨p, sd, pn, hloop, hp, hpm, hsh⟩ :=
            ihl (some b) c cn.Value fuel sh.2.1 ndl hlr ⟨cn, hcn, rfl⟩ hl
          have lp := lt_of_getElem?_some hp
          have hpb : p ≠ b := fun e => hbl (e ▸ hpm)
          refine ⟨p, sd, pn, ?_, hp, by simp [Shape.addrs, hpm], ?_⟩
          · simp [load_some hcn, hloop]
          refine ⟨?_, hsh, ?_⟩
          · rw [getElem?_set_append_ne _ _ _ _ _ lb (Ne.symm hpb), sh.1,
              Shape.ins_root_of_root cmp value _ l hlr, hlr]
          · refine BSShaped.congr r _ ?_ sh.2.2
            intro x hx
            exact getElem?_set_append_ne _ _ _ _ _ (hlt x (by simp [Shape.addrs, hx]))
              (fun e => hdisj hpm (List.mem_cons_of_mem _ (e ▸ hx)))
      | Right =>
        simp only [BSNode.Children]
        cases hrr : r.root with
        | none =>
          have := Shape.root_eq_none hrr
          subst this
          refine ⟨b, .Right, _, by simp, sh.1, by simp [Shape.addrs], ?_⟩
          refine ⟨?_, ?_, ⟨?_, trivial, trivial⟩⟩
          · rw [getElem?_set_append_self _ _ _ _ lb]; rfl
          · refine BSShaped.congr l _ ?_ sh.2.1
            intro x hx
            exact getElem?_set_append_ne _ _ _ _ _ (hlt x (by simp [Shape.addrs, hx]))
              (fun e => hbl (e ▸ hx))
          · rw [getElem?_set_append_new _ _ _ _ lb]; rfl
        | some c =>
          obtain ⟨cn, hcn, -⟩ : ∃ cn, h[c]? = some cn ∧ True := by
            cases r with
            | nil => cases hrr
            | node rl c' cv rr => cases hrr; exact ⟨_, sh.2.2.1, trivial⟩
          obtain ⟨p, sd, pn, hloop, hp, hpm, hsh⟩ :=
            ihr (some b) c cn.Value fuel sh.2.2 ndr hrr ⟨cn, hcn, rfl⟩ hr
          have lp := lt_of_getElem?_some hp
          have hpb : p ≠ b := fun e => hbr (e ▸ hpm)
          refine ⟨p, sd, pn, ?_, hp, by simp [Shape.addrs, hpm], ?_⟩
          · simp [load_some hcn, hloop]
          refine ⟨?_, ?_, hsh⟩
          · rw [getElem?_set_append_ne _ _ _ _ _ lb (Ne.symm hpb), sh.1,
              Shape.ins_root_of_root cmp value _ r hrr, hrr]
          · refine BSShaped.congr l _ ?_ sh.2.1
            intro x hx
            exact getElem?_set_append_ne _ _ _ _ _ (hlt x (by simp [Shape.addrs, hx]))
              (fun e => hdisj (e ▸ hx) (List.mem_cons_of_mem _ hpm))

theorem Shape.ins_nodup (cmp : CompareFunc α) (value : α) (new : Nat) (s : Shape α)
    (nd : s.addrs.Nodup) (hnew : new ∉ s.addrs) : (s.ins cmp value new).addrs.Nodup :=
  (List.Perm.nodup_iff (Shape.ins_addrs_perm cmp value new s)).mpr (List.nodup_cons.mpr ⟨hnew, nd⟩)

/-- `Add` on a well-formed tree returns, and the tree it leaves is well formed with the
shape `Shape.ins`; the new node has the address of the next allocation. -/
theorem add_spec (t : BSTree α) (s : Shape α) (wf : t.HasShape s) (value : α)
    (cmp : CompareFunc α) :
    ∃ t1, t.Add value cmp = .ok (t1, some t.heap.length) ∧
      t1.HasShape (s.ins cmp value t.heap.length) ∧
      t1.NodeCount = (t.NodeCount + 1) % U64 := by
  obtain ⟨hr, sh, nd⟩ := wf
  have hlt := BSShaped.addr_lt _ _ sh
  have hnew : t.heap.length ∉ s.addrs := fun hm => lt_irrefl _ (hlt _ hm)
  cases hroot : t.Root with
  | none =>
    rw [hroot] at hr
    have := Shape.root_eq_none hr
    subst this
    refine ⟨_, by simp [BSTree.Add, hroot]; rfl, ⟨rfl, ⟨?_, trivial, trivial⟩, by simp [Shape.ins, Shape.addrs]⟩, rfl⟩
    show (t.heap ++ [_])[t.heap.length]? = _
    rw [List.getElem?_append_right (le_refl _)]
    simp
    rfl
  | some a =>
    rw [hroot] at hr
    cases s with
    | nil => cases hr
    | node l b v r =>
      cases hr
      obtain ⟨p, sd, pn, hloop, hp, hpm, hsh⟩ :=
        addFromLoop_spec value cmp (.node l a v r) none a v (t.heap.length + 1) sh nd rfl
          ⟨_, sh.1, rfl⟩ (by have := sh.height_le nd; omega)
      have lp := lt_of_getElem?_some hp
      have hp1 : ∀ e : BSNode α, (t.heap ++ [e])[p]? = some pn := by
        intro e
        rw [List.getElem?_append_left lp, hp]
      refine ⟨⟨(t.heap ++ [BSNode.mk (some p) none none value]).set p
          (pn.setChild sd (some t.heap.length)),
        t.Root, (t.NodeCount + 1) % U64⟩, ?_, ⟨?_, hsh, Shape.ins_nodup cmp value _ _ nd hnew⟩, rfl⟩
      · simp only [BSTree.Add, hroot, BSTree.AddFrom, reduceCtorEq, if_false, load_some sh.1,
          ok_bind, hloop, load_some (hp1 _), store_some _ (hp1 _), pure_eq_ok]
      · rw [hroot]; exact Shape.ins_root_of_root cmp value _ _ rfl

/-! ### Plain trees: the search-tree order under `Add` -/

theorem Shape.mem_ins_values (cmp : CompareFunc α) (value : α) (new : Nat) (s : Shape α) (x : α) :
    x ∈ (s.ins cmp value new).values ↔ x = value ∨ x ∈ s.values := by
  rw [(Shape.ins_values_perm cmp value new s).mem_iff, List.mem_cons]

theorem Shape.ins_ordered [Preorder α] [DecidableRel (fun (a b : α) => a < b)] (value : α)
    (new : Nat) (s : Shape α) (o : s.Ordered) : (s.ins comparerOf value new).Ordered := by
  induction s with
  | nil => simp [Shape.ins, Shape.Ordered, Shape.values]
  | node l a v r ihl ihr =>
    obtain ⟨ol, or, hl, hr⟩ := o
    simp only [Shape.ins, comparerOf]
    by_cases hlt : value < v
    · rw [if_pos hlt]
      refine ⟨?_, or, ihl hl, hr⟩
      intro x hx
      rcases (Shape.mem_ins_values _ _ _ _ _).mp hx with e | e
      · rw [e]; exact hlt
      · exact ol x e
    · rw [if_neg hlt]
      refine ⟨ol, ?_, hl, ihr hr⟩
      intro x hx
      rcases (Shape.mem_ins_values _ _ _ _ _).mp hx with e | e
      · rw [e]; exact hlt
      · exact or x e

theorem Shape.sorted_values [Preorder α] [IsTotal α (fun (a b : α) => a ≤ b)] (s : Shape α)
    (o : s.Ordered) : s.values.Sorted (fun (a b : α) => a ≤ b) := by
  induction s with
  | nil => simp [Shape.values]
  | node l a v r ihl ihr =>
    obtain ⟨ol, or, hl, hr⟩ := o
    have hge : ∀ y ∈ r.values, v ≤ y := by
      intro y hy
      rcases IsTotal.total (r := fun (a b : α) => a ≤ b) v y with h | h
      · exact h
      · by_contra hc
        exact or y hy (lt_of_le_not_le h hc)
    simp only [Shape.values, List.Sorted, List.pairwise_append, List.pairwise_cons]
    refine ⟨ihl hl, ⟨hge, ihr hr⟩, ?_⟩
    intro x hx y hy
    rcases List.mem_cons.mp hy with e | e
    · rw [e]; exact le_of_lt (ol x hx)
    · exact le_trans (le_of_lt (ol x hx)) (hge y e)

theorem addAll_spec [Preorder α] [DecidableRel (fun (a b : α) => a < b)] (vs : List α) :
    ∀ (t : BSTree α) (s : Shape α), t.HasShape s → s.Ordered →
      ∃ t1 s1, BSTree.addAll comparerOf t vs = .ok t1 ∧ t1.HasShape s1 ∧ s1.Ordered ∧
        s1.values.Perm (s.values ++ vs) := by
  induction vs with
  | nil =>
    intro t s wf o
    exact ⟨t, s, rfl, wf, o, by simp⟩
  | cons v vs ih =>
    intro t s wf o
    obtain ⟨t1, hadd, wf1, -⟩ := add_spec t s wf v comparerOf
    obtain ⟨t2, s2, hrun, wf2, o2, hperm⟩ := ih t1 _ wf1 (Shape.ins_ordered v _ s o)
    refine ⟨t2, s2, ?_, wf2, o2, ?_⟩
    · simp only [BSTree.addAll, hadd, ok_bind, hrun]
    · refine hperm.trans ?_
      refine ((Shape.ins_values_perm comparerOf v _ s).append_right vs).trans ?_
      exact List.perm_middle.symm

/-! ### Plain trees: `halfSplit` and `Balance` -/

theorem clog_succ_half (n : Nat) (hn : 1 ≤ n) :
    Nat.clog 2 (n + 1) = Nat.clog 2 (n / 2 + 1) + 1 := by
  rw [Nat.clog_of_two_le (by decide) (by omega)]
  congr 2
  omega

theorem list_split_at {l : List α} {mid : Nat} {v : α} (e : l[mid]? = some v) :
    l.take mid ++ v :: l.drop (mid + 1) = l := by
  have hl := lt_of_getElem?_some e
  have hv := getElem_of_some e hl
  rw [← hv, ← List.drop_eq_getElem_cons hl, List.take_append_drop]

theorem halfSplit_spec :
    ∀ (fuel : Nat) (l : List α) (h : List (BSNode α)) (par : Ptr), l.length < fuel →
      ∃ H s, BSTree.halfSplit fuel h par l = .ok (H, s.root) ∧ BSShaped H par s ∧
        s.values = l ∧ s.addrs.Nodup ∧ (∀ a ∈ s.addrs, h.length ≤ a) ∧
        (∀ i, i < h.length → H[i]? = h[i]?) ∧ h.length ≤ H.length ∧
        s.SizeBalanced ∧ s.height = Nat.clog 2 (l.length + 1) := by
  intro fuel
  induction fuel with
  | zero => intro l _ _ hl; omega
  | succ fuel ih =>
    intro l h par hl
    by_cases hnil : l.length = 0
    · have : l = [] := List.length_eq_zero.mp hnil
      subst this
      refine ⟨h, .nil, by simp [BSTree.halfSplit, Shape.root], trivial, rfl, List.nodup_nil,
        by simp [Shape.addrs], fun _ _ => rfl, le_refl _, trivial, by simp [Shape.height]⟩
    · have hmid : l.length / 2 < l.length := by omega
      obtain ⟨v, hv⟩ : ∃ v, l[l.length / 2]? = some v :=
        ⟨l[l.length / 2], List.getElem?_eq_getElem hmid⟩
      obtain ⟨H2, sl, hrun1, sh1, val1, nd1, lo1, fr1, len1, bal1, ht1⟩ :=
        ih (l.take (l.length / 2)) (h ++ [BSNode.mk par none none v]) (some h.length)
          (by rw [List.length_take]; omega)
      have ha2 : H2[h.length]? = some (BSNode.mk par none none v) := by
        rw [fr1 h.length (by simp)]
        simp
      have hst : BSTree.halfSplit (fuel + 1) h par l =
          (do
            let h3 ← store H2 (some h.length) ((BSNode.mk par none none v).setChild .Left sl.root)
            if l.length / 2 + 1 ≥ l.length then pure (h3, some h.length)
            else do
              let (h4, rChild) ← BSTree.halfSplit fuel h3 (some h.length) (l.drop (l.length / 2 + 1))
              let nd ← load h4 (some h.length)
              let h5 ← store h4 (some h.length) (nd.setChild .Right rChild)
              pure (h5, some h.length)) := by
        rw [BSTree.halfSplit]
        simp only [hnil, if_false, hv, hrun1, ok_bind, load_some ha2]
      rw [hst, store_some _ ha2, ok_bind]
      have la2 := lt_of_getElem?_some ha2
      have hup1 := BSShaped.addr_lt _ _ sh1
      have hsl : sl.size = l.length / 2 := by
        rw [← Shape.length_values, val1, List.length_take]; omega
      -- the left subtree is untouched by the write at the new node
      have sh3 : BSShaped (H2.set h.length ((BSNode.mk par none none v).setChild .Left sl.root))
          (some h.length) sl := by
        refine BSShaped.congr sl _ ?_ sh1
        intro x hx
        have := lo1 x hx
        simp only [List.length_append, List.length_singleton] at this
        exact List.getElem?_set_ne (by omega)
      by_cases hlast : l.length / 2 + 1 ≥ l.length
      · rw [if_pos hlast]
        have hdrop : l.drop (l.length / 2 + 1) = [] := List.drop_eq_nil_of_le hlast
        refine ⟨_, .node sl h.length v .nil, rfl, ⟨?_, sh3, trivial⟩, ?_, ?_, ?_, ?_, ?_, ?_, ?_⟩
        · rw [List.getElem?_set_self la2]; rfl
        · rw [Shape.values, val1, Shape.values, ← hdrop]; exact list_split_at hv
        · simp only [Shape.addrs, List.nodup_append, List.nodup_cons]
          refine ⟨nd1, ⟨by simp, List.nodup_nil⟩, ?_⟩
          intro x hx hx2
          have := lo1 x hx
          simp only [List.length_append, List.length_singleton] at this
          simp at hx2
          omega
        · intro x hx
          simp only [Shape.addrs, List.mem_append, List.mem_cons, List.not_mem_nil, or_false] at hx
          rcases hx with hx | hx
          · have := lo1 x hx
            simp only [List.length_append, List.length_singleton] at this
            omega
          · omega
        · intro i hi
          rw [List.getElem?_set_ne (by omega), fr1 i (by simp; omega),
            List.getElem?_append_left hi]
        · rw [List.length_set]; omega
        · refine ⟨?_, bal1, trivial⟩
          simp only [Shape.size]
          omega
        · simp only [Shape.height, ht1, List.length_take]
          rw [clog_succ_half l.length (by omega), Nat.min_eq_left (by omega)]
          simp
      · rw [if_neg hlast]
        obtain ⟨H4, sr, hrun2, sh2, val2, nd2, lo2, fr2, len2, bal2, ht2⟩ :=
          ih (l.drop (l.length / 2 + 1))
            (H2.set h.length ((BSNode.mk par none none v).setChild .Left sl.root)) (some h.length)
            (by rw [List.length_drop]; omega)
        rw [List.length_set] at lo2 fr2 len2
        have hsr : sr.size = l.length - (l.length / 2 + 1) := by
          rw [← Shape.length_values, val2, List.length_drop]
        have ha4 : H4[h.length]? =
            some ((BSNode.mk par none none v).setChild .Left sl.root) := by
          rw [fr2 h.length la2, List.getElem?_set_self la2]
        have la4 := lt_of_getElem?_some ha4
        rw [hrun2, ok_bind]
        simp only [load_some ha4, store_some _ ha4, ok_bind, pure_eq_ok]
        refine ⟨_, .node sl h.length v sr, rfl, ⟨?_, ?_, ?_⟩, ?_, ?_, ?_, ?_, ?_, ?_, ?_⟩
        · rw [List.getElem?_set_self la4]; rfl
        · refine BSShaped.congr sl _ ?_ sh3
          intro x hx
          have h1 := lo1 x hx
          have h2 := hup1 x hx
          simp only [List.length_append, List.length_singleton] at h1
          rw [List.getElem?_set_ne (by omega), fr2 x h2]
        · refine BSShaped.congr sr _ ?_ sh2
          intro x hx
          have h1 := lo2 x hx
          exact List.getElem?_set_ne (by omega)
        · rw [Shape.values, val1, val2]; exact list_split_at hv
        · simp only [Shape.addrs, List.nodup_append, List.nodup_cons]
          refine ⟨nd1, ⟨?_, nd2⟩, ?_⟩
          · intro hx
            have := lo2 _ hx
            omega
          · intro x hx hx2
            have h1 := lo1 x hx
            have h2 := hup1 x hx
            simp only [List.length_append, List.length_singleton] at h1
            rcases List.mem_cons.mp hx2 with e | e
            · omega
            · have := lo2 x e
              omega
        · intro x hx
          simp only [Shape.addrs, List.mem_append, List.mem_cons] at hx
          rcases hx with hx | hx | hx
          · have := lo1 x hx
            simp only [List.length_append, List.length_singleton] at this
            omega
          · omega
          · have := lo2 x hx
            omega
        · intro i hi
          rw [List.getElem?_set_ne (by omega), fr2 i (by omega), List.getElem?_set_ne (by omega),
            fr1 i (by simp; omega), List.getElem?_append_left hi]
        · rw [List.length_set]; omega
        · refine ⟨?_, bal1, bal2⟩
          omega
        · simp only [Shape.height, ht1, ht2, List.length_take, List.length_drop]
          rw [clog_succ_half l.length (by omega), Nat.min_eq_left (by omega)]
          have : Nat.clog 2 (l.length - (l.length / 2 + 1) + 1) ≤ Nat.clog 2 (l.length / 2 + 1) :=
            Nat.clog_mono_right 2 (by omega)
          simp [this]

/-- `Balance` on a well-formed tree returns a well-formed tree over the same values in the
same order, built by `halfSplit`. -/
theorem balance_spec (t : BSTree α) (s : Shape α) (wf : t.HasShape s) :
    ∃ t1 s1, t.Balance = .ok t1 ∧ t1.HasShape s1 ∧ s1.values = s.values ∧
      t1.NodeCount = t.NodeCount ∧ s1.SizeBalanced ∧
      s1.height = Nat.clog 2 (s.size + 1) := by
  obtain ⟨H, s1, hrun, sh, hval, nd, -, -, -, bal, ht⟩ :=
    halfSplit_spec (s.values.length + 1) s.values t.heap none (Nat.lt_succ_self _)
  refine ⟨⟨H, s1.root, t.NodeCount⟩, s1, ?_, ⟨rfl, sh, nd⟩, hval, rfl, bal, ?_⟩
  · simp only [BSTree.Balance, flatten_spec t s wf, ok_bind, hrun, pure_eq_ok]
  · rw [ht, Shape.length_values]

/-- The shape of a well-formed subtree is determined by the store and the pointer to its
top node. -/
theorem bsShaped_unique {h : List (BSNode α)} :
    ∀ (s s1 : Shape α) (par par1 : Ptr), BSShaped h par s → BSShaped h par1 s1 →
      s.root = s1.root → s = s1 := by
  intro s
  induction s with
  | nil => intro s1 _ _ _ _ e; exact (Shape.root_eq_none e.symm).symm
  | node l a v r ihl ihr =>
    intro s1 par par1 sh sh1 e
    cases s1 with
    | nil => cases e
    | node l1 a1 v1 r1 =>
      cases e
      have e1 := sh.1.symm.trans sh1.1
      simp only [Option.some.injEq, BSNode.mk.injEq] at e1
      obtain ⟨-, el, er, ev⟩ := e1
      rw [ihl l1 _ _ sh.2.1 sh1.2.1 el, ihr r1 _ _ sh.2.2 sh1.2.2 er, ev]

theorem hasShape_unique {t : BSTree α} {s s1 : Shape α} (wf : t.HasShape s)
    (wf1 : t.HasShape s1) : s = s1 :=
  bsShaped_unique s s1 none none wf.2.1 wf1.2.1 (wf.1.trans wf1.1.symm)

theorem chainTree_hasShape : chainTree.HasShape chainShape :=
  ⟨rfl, ⟨rfl, trivial, ⟨rfl, trivial, ⟨rfl, trivial, trivial⟩⟩⟩, by decide⟩

/-! ### Plain trees: `Prev` and `Next` on a well-formed tree -/

theorem bs_side_some {h : List (BSNode α)} {a p : Nat} {n np : BSNode α}
    (e : h[a]? = some n) (hp : n.Parent = some p) (ep : h[p]? = some np) :
    BSNode.Side h (some a) = .ok (if np.ChildL = some a then .Left else .Right) := by
  simp only [BSNode.Side, load_some e, hp, load_some ep, BSNode.Children, ok_bind]
  by_cases hc : np.ChildL = some a <;> simp [hc]

theorem firstAncestor_mono {h : List (BSNode α)} (aSide : NodeSide) :
    ∀ (fuel : Nat) (node parent res : Ptr),
      BSNode.FirstAncestorOnSideLoop h aSide fuel node parent = .ok res →
      ∀ k, BSNode.FirstAncestorOnSideLoop h aSide (fuel + k) node parent = .ok res := by
  intro fuel
  induction fuel with
  | zero => intro _ _ _ e; simp [BSNode.FirstAncestorOnSideLoop] at e
  | succ fuel ih =>
    intro node parent res e k
    rw [show fuel + 1 + k = (fuel + k) + 1 by omega]
    cases parent with
    | none => simpa [BSNode.FirstAncestorOnSideLoop] using e
    | some p =>
      simp only [BSNode.FirstAncestorOnSideLoop] at e ⊢
      cases hs : BSNode.Side h node with
      | error f => rw [hs] at e; simp at e
      | ok sd =>
        rw [hs] at e
        simp only [ok_bind] at e ⊢
        by_cases hsd : sd = aSide
        · simpa [hsd] using e
        · simp only [hsd, if_false] at e ⊢
          cases hl : load h (some p) with
          | error f => rw [hl] at e; simp at e
          | ok nd =>
            rw [hl] at e
            simp only [ok_bind] at e ⊢
            exact ih _ _ _ e k

theorem firstAncestor_le {h : List (BSNode α)} {aSide : NodeSide} {fuel fuel1 : Nat}
    {node parent res : Ptr}
    (e : BSNode.FirstAncestorOnSideLoop h aSide fuel node parent = .ok res) (hle : fuel ≤ fuel1) :
    BSNode.FirstAncestorOnSideLoop h aSide fuel1 node parent = .ok res := by
  have := firstAncestor_mono aSide fuel node parent res e (fuel1 - fuel)
  rwa [show fuel + (fuel1 - fuel) = fuel1 by omega] at this

theorem Shape.addrs_ends {s : Shape α} {a : Nat} (e : s.root = some a) :
    0 < s.size ∧ (∃ x, s.addrs[0]? = some x) ∧ ∃ y, s.addrs[s.size - 1]? = some y := by
  have hpos : 0 < s.size := by
    cases s with
    | nil => cases e
    | node l b v r => simp [Shape.size]
  refine ⟨hpos, ?_⟩
  rw [← Shape.length_addrs] at hpos ⊢
  exact ⟨⟨_, List.getElem?_eq_getElem hpos⟩, _, List.getElem?_eq_getElem (by omega)⟩

/-- Descending along left children from the top of a well-formed subtree ends at its first
node in in-order. -/
theorem belowLoop_left {h : List (BSNode α)} :
    ∀ (s : Shape α) (par : Ptr) (a : Nat) (fuel : Nat), BSShaped h par s → s.root = some a →
      s.height ≤ fuel → BSNode.belowLoop h .Left fuel (some a) = .ok s.addrs[0]? := by
  intro s
  induction s with
  | nil => intro _ _ _ _ e; cases e
  | node l b v r ihl _ =>
    intro par a fuel sh e hf
    cases e
    cases fuel with
    | zero => simp [Shape.height] at hf
    | succ fuel =>
      simp only [Shape.height] at hf
      simp only [BSNode.belowLoop, load_some sh.1, ok_bind, BSNode.Children]
      cases hlr : l.root with
      | none =>
        rw [Shape.root_eq_none hlr]
        simp [Shape.addrs]
      | some c =>
        rw [if_pos (by simp), ihl (some b) c fuel sh.2.1 hlr (by omega)]
        obtain ⟨hpos, -, -⟩ := Shape.addrs_ends hlr
        simp only [Shape.addrs]
        rw [List.getElem?_append_left (by rw [Shape.length_addrs]; exact hpos)]

/-- Descending along right children from the top of a well-formed subtree ends at its last
node in in-order. -/
theorem belowLoop_right {h : List (BSNode α)} :
    ∀ (s : Shape α) (par : Ptr) (a : Nat) (fuel : Nat), BSShaped h par s → s.root = some a →
      s.height ≤ fuel → BSNode.belowLoop h .Right fuel (some a) = .ok s.addrs[s.size - 1]? := by
  intro s
  induction s with
  | nil => intro _ _ _ _ e; cases e
  | node l b v r _ ihr =>
    intro par a fuel sh e hf
    cases e
    cases fuel with
    | zero => simp [Shape.height] at hf
    | succ fuel =>
      simp only [Shape.height] at hf
      simp only [BSNode.belowLoop, load_some sh.1, ok_bind, BSNode.Children]
      cases hrr : r.root with
      | none =>
        rw [Shape.root_eq_none hrr]
        simp only [Shape.addrs, Shape.size]
        rw [List.getElem?_append_right (by rw [Shape.length_addrs]; omega)]
        simp [Shape.length_addrs]
      | some c =>
        rw [if_pos (by simp), ihr (some b) c fuel sh.2.2 hrr (by omega)]
        obtain ⟨hpos, -, -⟩ := Shape.addrs_ends hrr
        simp only [Shape.addrs, Shape.size]
        rw [List.getElem?_append_right (by rw [Shape.length_addrs]; omega)]
        rw [show l.size + 1 + r.size - 1 - l.addrs.length = (r.size - 1) + 1 by
          rw [Shape.length_addrs]; omega]
        simp

theorem Shape.addrs_node_get (l r : Shape α) (a : Nat) (v : α) (k : Nat) :
    (Shape.node l a v r).addrs[k]? =
      if k < l.size then l.addrs[k]? else if k = l.size then some a
      else r.addrs[k - l.size - 1]? := by
  simp only [Shape.addrs]
  by_cases h1 : k < l.size
  · rw [if_pos h1, List.getElem?_append_left (by rw [Shape.length_addrs]; exact h1)]
  · rw [if_neg h1, List.getElem?_append_right (by rw [Shape.length_addrs]; omega),
      Shape.length_addrs]
    by_cases h2 : k = l.size
    · rw [if_pos h2, h2]; simp
    · rw [if_neg h2]
      rw [show k - l.size = (k - l.size - 1) + 1 by omega]
      simp

theorem Shape.addrs_get_lt {s : Shape α} {k n : Nat} (e : s.addrs[k]? = some n) : k < s.size := by
  rw [← Shape.length_addrs]; exact lt_of_getElem?_some e

theorem bsShaped_at_root {h : List (BSNode α)} {par : Ptr} {s : Shape α} {a : Nat}
    (sh : BSShaped h par s) (e : s.root = some a) :
    ∃ n, h[a]? = some n ∧ n.Parent = par := by
  cases s with
  | nil => cases e
  | node l b v r => cases e; exact ⟨_, sh.1, rfl⟩

/-- The successor of a node of a well-formed subtree `q`, as `Next` computes it: the climb
from a node without right child ends at the next node of `q` in in-order, or goes on above
`q` as it does from the top of `q` when the node is the last one; the descent from a right
child ends at the next node of `q`. -/
theorem next_in {h : List (BSNode α)} :
    ∀ (q : Shape α) (par : Ptr) (a : Nat), BSShaped h par q → q.addrs.Nodup → q.root = some a →
      ∀ (F : Nat) (up : Ptr), BSNode.FirstAncestorOnSideLoop h .Left F (some a) par = .ok up →
      ∀ (i n : Nat) (nn : BSNode α), q.addrs[i]? = some n → h[n]? = some nn →
        (nn.ChildR = none →
          BSNode.FirstAncestorOnSideLoop h .Left (F + q.height) (some n) nn.Parent =
            .ok (if i + 1 < q.size then q.addrs[i + 1]? else up)) ∧
        (nn.ChildR ≠ none → ∃ y, q.addrs[i + 1]? = some y ∧
          ∀ fuel, q.height ≤ fuel → BSNode.belowLoop h .Left fuel nn.ChildR = .ok (some y)) := by
  intro q
  induction q with
  | nil => intro _ _ _ _ e; cases e
  | node l a v r ihl ihr =>
    intro par a0 sh nd e F up hup i n nn hi hn
    cases e
    have ndl := Shape.child_nodup (.node l a v r) .Left nd
    have ndr := Shape.child_nodup (.node l a v r) .Right nd
    rw [Shape.addrs_node_get] at hi
    simp only [Shape.height, Shape.size]
    by_cases h1 : i < l.size
    · rw [if_pos h1] at hi
      obtain ⟨c, hlr⟩ : ∃ c, l.root = some c := by
        cases l with
        | nil => simp [Shape.size] at h1
        | node ll c cv lr => exact ⟨c, rfl⟩
      obtain ⟨cn, hcn, hcp⟩ := bsShaped_at_root sh.2.1 hlr
      have hcont : BSNode.FirstAncestorOnSideLoop h .Left 1 (some c) (some a) = .ok (some a) := by
        simp [BSNode.FirstAncestorOnSideLoop, bs_side_some hcn hcp sh.1, hlr]
      obtain ⟨p1, p2⟩ := ihl (some a) c sh.2.1 ndl hlr 1 (some a) hcont i n nn hi hn
      refine ⟨fun hc => ?_, fun hc => ?_⟩
      · have hle : 1 + l.height ≤ F + (max l.height r.height + 1) := by omega
        rw [firstAncestor_le (p1 hc) hle, if_pos (show i + 1 < l.size + 1 + r.size by omega),
          Shape.addrs_node_get]
        by_cases h2 : i + 1 < l.size
        · rw [if_pos h2, if_pos h2]
        · rw [if_neg h2, if_neg h2, if_pos (by omega)]
      · obtain ⟨y, hy, hb⟩ := p2 hc
        refine ⟨y, ?_, fun fuel hf => hb fuel (by omega)⟩
        rw [Shape.addrs_node_get, if_pos (Shape.addrs_get_lt hy), hy]
    · rw [if_neg h1] at hi
      by_cases h2 : i = l.size
      · rw [if_pos h2] at hi
        cases Option.some.inj hi
        rw [sh.1] at hn
        cases Option.some.inj hn
        refine ⟨fun hc => ?_, fun hc => ?_⟩
        · have hr0 : r.size = 0 := by rw [Shape.root_eq_none hc]; rfl
          have hle : F ≤ F + (max l.height r.height + 1) := by omega
          rw [firstAncestor_le hup hle, if_neg (by omega)]
        · obtain ⟨c, hrr⟩ : ∃ c, r.root = some c := Option.ne_none_iff_exists'.mp hc
          obtain ⟨hpos, ⟨y, hy⟩, -⟩ := Shape.addrs_ends hrr
          refine ⟨y, ?_, fun fuel hf => ?_⟩
          · rw [Shape.addrs_node_get, if_neg (by omega), if_neg (by omega), ← hy]
            congr 1
            omega
          · show BSNode.belowLoop h .Left fuel r.root = _
            rw [hrr, belowLoop_left r (some a) c fuel sh.2.2 hrr (by omega), hy]
      · rw [if_neg h2] at hi
        obtain ⟨c, hrr⟩ : ∃ c, r.root = some c := by
          cases r with
          | nil => simp [Shape.addrs] at hi
          | node rl c cv rr => exact ⟨c, rfl⟩
        obtain ⟨cn, hcn, hcp⟩ := bsShaped_at_root sh.2.2 hrr
        have hlc : l.root ≠ some c := fun e =>
          Shape.child_disjoint (.node l a v r) nd (Shape.root_mem e) (Shape.root_mem hrr)
        have hcont : BSNode.FirstAncestorOnSideLoop h .Left (F + 1) (some c) (some a) = .ok up := by
          simp [BSNode.FirstAncestorOnSideLoop, bs_side_some hcn hcp sh.1, hlc, load_some sh.1, hup]
        obtain ⟨p1, p2⟩ := ihr (some a) c sh.2.2 ndr hrr (F + 1) up hcont _ n nn hi hn
        have hj := Shape.addrs_get_lt hi
        have hidx : i + 1 - l.size - 1 = i - l.size - 1 + 1 := by omega
        refine ⟨fun hc => ?_, fun hc => ?_⟩
        · have hle : F + 1 + r.height ≤ F + (max l.height r.height + 1) := by omega
          rw [firstAncestor_le (p1 hc) hle, Shape.addrs_node_get,
            if_neg (show ¬ i + 1 < l.size by omega), if_neg (show ¬ i + 1 = l.size by omega), hidx]
          by_cases h3 : i - l.size - 1 + 1 < r.size
          · rw [if_pos h3, if_pos (by omega)]
          · rw [if_neg h3, if_neg (by omega)]
        · obtain ⟨y, hy, hb⟩ := p2 hc
          refine ⟨y, ?_, fun fuel hf => hb fuel (by omega)⟩
          rw [Shape.addrs_node_get, if_neg (by omega), if_neg (by omega), hidx, hy]

/-- The predecessor of a node of a well-formed subtree `q`, as `Prev` computes it: the
mirror image of `next_in`. -/
theorem prev_in {h : List (BSNode α)} :
    ∀ (q : Shape α) (par : Ptr) (a : Nat), BSShaped h par q → q.addrs.Nodup → q.root = some a →
      ∀ (F : Nat) (up : Ptr), BSNode.FirstAncestorOnSideLoop h .Right F (some a) par = .ok up →
      ∀ (i n : Nat) (nn : BSNode α), q.addrs[i]? = some n → h[n]? = some nn →
        (nn.ChildL = none →
          BSNode.FirstAncestorOnSideLoop h .Right (F + q.height) (some n) nn.Parent =
            .ok (if 0 < i then q.addrs[i - 1]? else up)) ∧
        (nn.ChildL ≠ none → ∃ y, 0 < i ∧ q.addrs[i - 1]? = some y ∧
          ∀ fuel, q.height ≤ fuel → BSNode.belowLoop h .Right fuel nn.ChildL = .ok (some y)) := by
  intro q
  induction q with
  | nil => intro _ _ _ _ e; cases e
  | node l a v r ihl ihr =>
    intro par a0 sh nd e F up hup i n nn hi hn
    cases e
    have ndl := Shape.child_nodup (.node l a v r) .Left nd
    have ndr := Shape.child_nodup (.node l a v r) .Right nd
    rw [Shape.addrs_node_get] at hi
    simp only [Shape.height, Shape.size]
    by_cases h1 : i < l.size
    · rw [if_pos h1] at hi
      obtain ⟨c, hlr⟩ : ∃ c, l.root = some c := by
        cases l with
        | nil => simp [Shape.size] at h1
        | node ll c cv lr => exact ⟨c, rfl⟩
      obtain ⟨cn, hcn, hcp⟩ := bsShaped_at_root sh.2.1 hlr
      have hcont : BSNode.FirstAncestorOnSideLoop h .Right (F + 1) (some c) (some a) = .ok up := by
        simp [BSNode.FirstAncestorOnSideLoop, bs_side_some hcn hcp sh.1, hlr, load_some sh.1, hup]
      obtain ⟨p1, p2⟩ := ihl (some a) c sh.2.1 ndl hlr (F + 1) up hcont i n nn hi hn
      refine ⟨fun hc => ?_, fun hc => ?_⟩
      · have hle : F + 1 + l.height ≤ F + (max l.height r.height + 1) := by omega
        rw [firstAncestor_le (p1 hc) hle]
        by_cases h2 : 0 < i
        · rw [if_pos h2, if_pos h2, Shape.addrs_node_get, if_pos (by omega)]
        · rw [if_neg h2, if_neg h2]
      · obtain ⟨y, hpos, hy, hb⟩ := p2 hc
        refine ⟨y, hpos, ?_, fun fuel hf => hb fuel (by omega)⟩
        rw [Shape.addrs_node_get, if_pos (by omega), hy]
    · rw [if_neg h1] at hi
      by_cases h2 : i = l.size
      · rw [if_pos h2] at hi
        cases Option.some.inj hi
        rw [sh.1] at hn
        cases Option.some.inj hn
        refine ⟨fun hc => ?_, fun hc => ?_⟩
        · have hl0 : l.size = 0 := by rw [Shape.root_eq_none hc]; rfl
          have hle : F ≤ F + (max l.height r.height + 1) := by omega
          rw [firstAncestor_le hup hle, if_neg (by omega)]
        · obtain ⟨c, hlr⟩ : ∃ c, l.root = some c := Option.ne_none_iff_exists'.mp hc
          obtain ⟨hpos, -, ⟨y, hy⟩⟩ := Shape.addrs_ends hlr
          refine ⟨y, by omega, ?_, fun fuel hf => ?_⟩
          · rw [Shape.addrs_node_get, if_pos (by omega), h2, hy]
          · show BSNode.belowLoop h .Right fuel l.root = _
            rw [hlr, belowLoop_right l (some a) c fuel sh.2.1 hlr (by omega), hy]
      · rw [if_neg h2] at hi
        obtain ⟨c, hrr⟩ : ∃ c, r.root = some c := by
          cases r with
          | nil => simp [Shape.addrs] at hi
          | node rl c cv rr => exact ⟨c, rfl⟩
        obtain ⟨cn, hcn, hcp⟩ := bsShaped_at_root sh.2.2 hrr
        have hlc : l.root ≠ some c := fun e =>
          Shape.child_disjoint (.node l a v r) nd (Shape.root_mem e) (Shape.root_mem hrr)
        have hcont : BSNode.FirstAncestorOnSideLoop h .Right 1 (some c) (some a) =
            .ok (some a) := by
          simp [BSNode.FirstAncestorOnSideLoop, bs_side_some hcn hcp sh.1, hlc]
        obtain ⟨p1, p2⟩ := ihr (some a) c sh.2.2 ndr hrr 1 (some a) hcont _ n nn hi hn
        have hj := Shape.addrs_get_lt hi
        refine ⟨fun hc => ?_, fun hc => ?_⟩
        · have hle : 1 + r.height ≤ F + (max l.height r.height + 1) := by omega
          rw [firstAncestor_le (p1 hc) hle, if_pos (show 0 < i by omega), Shape.addrs_node_get,
            if_neg (show ¬ i - 1 < l.size by omega)]
          by_cases h3 : 0 < i - l.size - 1
          · rw [if_pos h3, if_neg (show ¬ i - 1 = l.size by omega)]
            congr 2
            omega
          · rw [if_neg h3, if_pos (show i - 1 = l.size by omega)]
        · obtain ⟨y, hpos, hy, hb⟩ := p2 hc
          refine ⟨y, by omega, ?_, fun fuel hf => hb fuel (by omega)⟩
          rw [Shape.addrs_node_get, if_neg (show ¬ i - 1 < l.size by omega),
            if_neg (show ¬ i - 1 = l.size by omega), ← hy]
          congr 1
          omega

theorem bsShaped_lookup {h : List (BSNode α)} {par : Ptr} {s : Shape α} (sh : BSShaped h par s)
    {i n : Nat} (hi : s.addrs[i]? = some n) : ∃ nn, h[n]? = some nn := by
  have := BSShaped.addr_lt s par sh n (List.getElem?_mem hi)
  exact ⟨_, List.getElem?_eq_getElem this⟩

theorem shape_root_of_get {s : Shape α} {i n : Nat} (hi : s.addrs[i]? = some n) :
    ∃ a, s.root = some a := by
  cases s with
  | nil => simp [Shape.addrs] at hi
  | node l a v r => exact ⟨a, rfl⟩

/-- `Next` on the node at position `i` of the in-order sequence of a well-formed tree returns
the node at position `i + 1`, or `nil` when there is none. -/
theorem next_spec (t : BSTree α) (s : Shape α) (wf : t.HasShape s) (i n : Nat)
    (hi : s.addrs[i]? = some n) : BSNode.Next t.heap (some n) = .ok s.addrs[i + 1]? := by
  obtain ⟨-, sh, nd⟩ := wf
  obtain ⟨a, hr⟩ := shape_root_of_get hi
  obtain ⟨nn, hn⟩ := bsShaped_lookup sh hi
  have hup : BSNode.FirstAncestorOnSideLoop t.heap .Left 1 (some a) none = .ok none := rfl
  obtain ⟨p1, p2⟩ := next_in s none a sh nd hr 1 none hup i n nn hi hn
  have hht := sh.height_le nd
  simp only [BSNode.Next, load_some hn, ok_bind, BSNode.Children]
  by_cases hc : nn.ChildR = none
  · rw [if_pos hc]
    simp only [BSNode.FirstAncestorOnSide, load_some hn, ok_bind, reduceCtorEq, if_false]
    rw [firstAncestor_le (p1 hc) (by omega)]
    by_cases h2 : i + 1 < s.size
    · rw [if_pos h2]
    · rw [if_neg h2, List.getElem?_eq_none (by rw [Shape.length_addrs]; omega)]
  · rw [if_neg hc]
    obtain ⟨y, hy, hb⟩ := p2 hc
    rw [hy]
    exact hb _ (by omega)

/-- `Prev` on the node at position `i` of the in-order sequence of a well-formed tree returns
the node at position `i - 1`, or `nil` when `i = 0`. -/
theorem prev_spec (t : BSTree α) (s : Shape α) (wf : t.HasShape s) (i n : Nat)
    (hi : s.addrs[i]? = some n) :
    BSNode.Prev t.heap (some n) = .ok (if 0 < i then s.addrs[i - 1]? else none) := by
  obtain ⟨-, sh, nd⟩ := wf
  obtain ⟨a, hr⟩ := shape_root_of_get hi
  obtain ⟨nn, hn⟩ := bsShaped_lookup sh hi
  have hup : BSNode.FirstAncestorOnSideLoop t.heap .Right 1 (some a) none = .ok none := rfl
  obtain ⟨p1, p2⟩ := prev_in s none a sh nd hr 1 none hup i n nn hi hn
  have hht := sh.height_le nd
  simp only [BSNode.Prev, load_some hn, ok_bind, BSNode.Children]
  by_cases hc : nn.ChildL = none
  · rw [if_pos hc]
    simp only [BSNode.FirstAncestorOnSide, load_some hn, ok_bind, if_true]
    rw [firstAncestor_le (p1 hc) (by omega)]
  · rw [if_neg hc]
    obtain ⟨y, hpos, hy, hb⟩ := p2 hc
    rw [if_pos hpos, hy]
    exact hb _ (by omega)

/-! ### Plain trees: `LeafImbalance` -/

theorem leafImbalance_eq_leafStep (t : BSTree α) :
    t.LeafImbalance =
      (t.Traverse leafStep (0, U64 - 1) >>= fun r => pure ((r.1 + U64 - r.2) % U64)) := rfl

/-- Folding the comparisons of `LeafImbalance` over a list of depths leaves the largest and
the smallest of them, together with the starting values. -/
theorem foldl_leaf_depths (L : List Nat) :
    ∀ lo hi : Nat,
      L.foldl (fun (acc : Nat × Nat) d =>
          (if d > acc.1 then d else acc.1, if d < acc.2 then d else acc.2)) (lo, hi) =
        (max lo (maxOf L), if L = [] then hi else min hi (minOf L)) := by
  induction L with
  | nil => intro lo hi; simp [maxOf]
  | cons x xs ih =>
    intro lo hi
    rw [List.foldl_cons, ih]
    cases xs with
    | nil =>
      simp only [maxOf, minOf, if_true, reduceCtorEq, if_false]
      refine Prod.ext ?_ ?_
      · simp only; split_ifs <;> omega
      · simp only; split_ifs <;> omega
    | cons y ys =>
      simp only [maxOf, minOf, reduceCtorEq, if_false]
      refine Prod.ext ?_ ?_
      · simp only; split_ifs <;> omega
      · simp only; split_ifs <;> omega

theorem leafDepths_ne_nil (s : Shape α) : ∀ d, s ≠ .nil → s.leafDepths d ≠ [] := by
  induction s with
  | nil => intro _ h; exact absurd rfl h
  | node l a v r ihl ihr =>
    intro d _
    simp only [Shape.leafDepths]
    by_cases hc : l.root = none ∧ r.root = none
    · rw [if_pos hc]; simp
    · rw [if_neg hc]
      intro he
      rw [List.append_eq_nil] at he
      by_cases hl : l.root = none
      · have hr : r ≠ .nil := fun e => hc ⟨hl, by rw [e]; rfl⟩
        exact ihr (d + 1) hr he.2
      · have hl' : l ≠ .nil := fun e => hl (by rw [e]; rfl)
        exact ihl (d + 1) hl' he.1

theorem leafDepths_bounds (s : Shape α) :
    ∀ d x, x ∈ s.leafDepths d → d ≤ x ∧ x + 1 ≤ d + s.height := by
  induction s with
  | nil => intro d x hx; simp [Shape.leafDepths] at hx
  | node l a v r ihl ihr =>
    intro d x hx
    simp only [Shape.leafDepths] at hx
    simp only [Shape.height]
    by_cases hc : l.root = none ∧ r.root = none
    · rw [if_pos hc] at hx
      simp at hx
      omega
    · rw [if_neg hc, List.mem_append] at hx
      rcases hx with hx | hx
      · have := ihl (d + 1) x hx; omega
      · have := ihr (d + 1) x hx; omega

/-- On a well-formed subtree whose depths stay below `2^64`, the traversal of `LeafImbalance`
folds its comparisons over the depths of the leaves. -/
theorem walk_leafStep (s : Shape α) :
    ∀ (par : Ptr) (d : Nat) (acc : Nat × Nat), d + s.height ≤ U64 →
      s.walk leafStep par d acc =
        (s.leafDepths d).foldl (fun (acc : Nat × Nat) d =>
          (if d > acc.1 then d else acc.1, if d < acc.2 then d else acc.2)) acc := by
  induction s with
  | nil => intro _ _ _ _; rfl
  | node l a v r ihl ihr =>
    intro par d acc hd
    simp only [Shape.height] at hd
    simp only [Shape.walk, Shape.leafDepths]
    by_cases hc : l.root = none ∧ r.root = none
    · rw [if_pos hc, Shape.root_eq_none hc.1, Shape.root_eq_none hc.2]
      simp [Shape.walk, leafStep, BSNode.IsLeaf, BSNode.Children, Shape.root]
    · rw [if_neg hc]
      have hpos : 1 ≤ max l.height r.height := by
        by_cases hl : l.root = none
        · have hr : r.root ≠ none := fun e => hc ⟨hl, e⟩
          cases r with
          | nil => exact absurd rfl hr
          | node _ _ _ _ => simp [Shape.height]
        · cases l with
          | nil => exact absurd rfl hl
          | node _ _ _ _ => simp [Shape.height]
      have hmod : (d + 1) % U64 = d + 1 := Nat.mod_eq_of_lt (by omega)
      rw [hmod, ihl _ _ _ (by omega), List.foldl_append]
      have hstep : ∀ acc1 : Nat × Nat,
          leafStep acc1 ({ Parent := par, ChildL := l.root, ChildR := r.root, Value := v } :
            BSNode α) d = acc1 := by
        intro acc1
        have : ¬ (r.root = none ∧ l.root = none) := fun e => hc ⟨e.2, e.1⟩
        simp [leafStep, BSNode.IsLeaf, BSNode.Children, this]
      rw [hstep, ihr _ _ _ (by omega)]

theorem maxOf_le (L : List Nat) (B : Nat) (hb : ∀ x ∈ L, x ≤ B) : maxOf L ≤ B := by
  induction L with
  | nil => simp [maxOf]
  | cons x xs ih =>
    simp only [maxOf]
    have h1 := hb x (List.mem_cons_self _ _)
    have h2 := ih (fun y hy => hb y (List.mem_cons_of_mem _ hy))
    omega

theorem le_minOf (L : List Nat) (B : Nat) (hne : L ≠ []) (hb : ∀ x ∈ L, B ≤ x) :
    B ≤ minOf L := by
  induction L with
  | nil => exact absurd rfl hne
  | cons x xs ih =>
    have h1 := hb x (List.mem_cons_self _ _)
    cases xs with
    | nil => simpa [minOf] using h1
    | cons y ys =>
      simp only [minOf]
      have h2 := ih (by simp) (fun z hz => hb z (List.mem_cons_of_mem _ hz))
      omega

theorem minOf_le_maxOf (L : List Nat) : minOf L ≤ maxOf L := by
  cases L with
  | nil => simp [minOf, maxOf]
  | cons x xs =>
    cases xs with
    | nil => simp [minOf, maxOf]
    | cons y ys => simp only [minOf, maxOf]; omega

/-- `LeafImbalance` on a non-empty well-formed tree of fewer than `2^64` nodes. -/
theorem leafImbalance_spec (t : BSTree α) (s : Shape α) (wf : t.HasShape s) (hne : s ≠ .nil)
    (hsz : s.size < U64) :
    t.LeafImbalance = .ok (s.maxLeafDepth - s.minLeafDepth) ∧
      s.minLeafDepth ≤ s.maxLeafDepth := by
  obtain ⟨hr, sh, nd⟩ := wf
  obtain ⟨a, ha⟩ : ∃ a, s.root = some a := by
    cases s with
    | nil => exact absurd rfl hne
    | node l a v r => exact ⟨a, rfl⟩
  have hroot : t.Root = some a := by rw [← hr, ha]
  have hht := s.height_le_size
  have hmm := minOf_le_maxOf (s.leafDepths 0)
  have hmax : maxOf (s.leafDepths 0) + 1 ≤ U64 := by
    have := maxOf_le (s.leafDepths 0) (s.height - 1) (fun x hx => by
      have := leafDepths_bounds s 0 x hx; omega)
    have hpos : 0 < s.height := by
      cases s with
      | nil => exact absurd rfl hne
      | node l a v r => simp [Shape.height]
    omega
  refine ⟨?_, hmm⟩
  rw [leafImbalance_eq_leafStep]
  simp only [BSTree.Traverse, hroot, reduceCtorEq, if_false]
  rw [traverse_spec leafStep s none a _ 0 _ sh ha (by have := sh.height_le nd; omega),
    ok_bind, walk_leafStep s none 0 _ (by omega), foldl_leaf_depths,
    if_neg (leafDepths_ne_nil s 0 hne)]
  simp only [pure_eq_ok, Shape.maxLeafDepth, Shape.minLeafDepth]
  congr 1
  have h1 : max 0 (maxOf (s.leafDepths 0)) = maxOf (s.leafDepths 0) := by omega
  have h2 : min (U64 - 1) (minOf (s.leafDepths 0)) = minOf (s.leafDepths 0) := by omega
  rw [h1, h2]
  have h3 : maxOf (s.leafDepths 0) + U64 - minOf (s.leafDepths 0) =
      (maxOf (s.leafDepths 0) - minOf (s.leafDepths 0)) + U64 := by omega
  rw [h3, Nat.add_mod_right]
  exact Nat.mod_eq_of_lt (by omega)

theorem clog_le_log_succ (m : Nat) : Nat.clog 2 m ≤ Nat.log 2 m + 1 :=
  (Nat.le_pow_iff_clog_le (by decide)).mp (le_of_lt (Nat.lt_pow_succ_log_self (by decide) m))

theorem log_succ_le_of_half (n a : Nat) (hn : 1 ≤ n) (ha : (n + 1) / 2 ≤ a + 1) :
    Nat.log 2 (n + 1) ≤ Nat.log 2 (a + 1) + 1 := by
  rw [Nat.log_of_one_lt_of_le (by decide) (by omega)]
  exact Nat.succ_le_succ (Nat.log_mono_right ha)

/-- In a shape whose subtree sizes differ by at most one at every node, no leaf is
shallower than `⌊log₂ (n + 1)⌋ - 1`. -/
theorem leafDepths_ge_log (s : Shape α) :
    s.SizeBalanced → ∀ d x, x ∈ s.leafDepths d → d + Nat.log 2 (s.size + 1) ≤ x + 1 := by
  induction s with
  | nil => intro _ d x hx; simp [Shape.leafDepths] at hx
  | node l a v r ihl ihr =>
    intro bal d x hx
    obtain ⟨⟨h1, h2⟩, bl, br⟩ := bal
    simp only [Shape.leafDepths] at hx
    simp only [Shape.size]
    by_cases hc : l.root = none ∧ r.root = none
    · rw [if_pos hc] at hx
      rw [Shape.root_eq_none hc.1, Shape.root_eq_none hc.2]
      simp only [List.mem_singleton] at hx
      have : Nat.log 2 (Shape.size (Shape.nil : Shape α) + 1 + Shape.size (Shape.nil : Shape α) + 1)
          = 1 := by
        simp only [Shape.size]
        exact Nat.log_eq_of_pow_le_of_lt_pow (by decide) (by decide)
      omega
    · rw [if_neg hc, List.mem_append] at hx
      rcases hx with hx | hx
      · have h3 := ihl bl (d + 1) x hx
        have h4 := log_succ_le_of_half (l.size + 1 + r.size) l.size (by omega) (by omega)
        omega
      · have h3 := ihr br (d + 1) x hx
        have h4 := log_succ_le_of_half (l.size + 1 + r.size) r.size (by omega) (by omega)
        omega

theorem chain7Tree_hasShape : chain7Tree.HasShape chain7Shape :=
  ⟨rfl, ⟨rfl, trivial, ⟨rfl, trivial, ⟨rfl, trivial, ⟨rfl, trivial, ⟨rfl, trivial,
    ⟨rfl, trivial, ⟨rfl, trivial, trivial⟩⟩⟩⟩⟩⟩⟩, by decide⟩

/-! ### Plain trees: `Find` -/

theorem bsShaped_findShaped {h : List (BSNode α)} :
    ∀ (s : Shape α) (par : Ptr), BSShaped h par s → FindShaped h s := by
  intro s
  induction s with
  | nil => intro _ _; trivial
  | node l a v r ihl ihr =>
    intro par sh
    exact ⟨⟨_, sh.1, rfl, fun _ => rfl, fun _ => rfl⟩, ihl _ sh.2.1, ihr _ sh.2.2⟩

theorem Shape.root_ne_none_of_mem {s : Shape α} {x : α} (hx : x ∈ s.values) :
    s ≠ .nil ∧ ∃ c, s.root = some c := by
  cases s with
  | nil => simp [Shape.values] at hx
  | node l a v r => exact ⟨fun e => Shape.noConfusion e, a, rfl⟩

/-- `Find` reaches a node holding the value when the value is in a search-ordered subtree. -/
theorem findLoop_found [LinearOrder α] {h : List (BSNode α)} (x : α) :
    ∀ (s : Shape α), FindShaped h s → s.SearchOrdered → x ∈ s.values →
      ∀ (a : Nat) (fuel : Nat), s.root = some a → s.height ≤ fuel →
      ∃ m nd, BSTree.FindLoop h x matcherOf fuel (some a) = .ok (some m) ∧
        h[m]? = some nd ∧ nd.Value = x := by
  intro s
  induction s with
  | nil => intro _ _ hx; simp [Shape.values] at hx
  | node l b v r ihl ihr =>
    intro fs so hx a fuel e hf
    cases e
    obtain ⟨⟨nd, hnd, hval, hcl, hcr⟩, fl, fr⟩ := fs
    obtain ⟨ol, or, sl, sr⟩ := so
    cases fuel with
    | zero => simp [Shape.height] at hf
    | succ fuel =>
      simp only [Shape.height] at hf
      simp only [BSTree.FindLoop, load_some hnd, ok_bind, matcherOf, hval]
      by_cases hxv : x = v
      · refine ⟨b, nd, by simp [hxv], hnd, by rw [hval, hxv]⟩
      · simp only [hxv, decide_False, Bool.false_eq_true, if_false]
        simp only [Shape.values, List.mem_append, List.mem_cons] at hx
        by_cases hlt : x < v
        · have hxl : x ∈ l.values := by
            rcases hx with hx | hx | hx
            · exact hx
            · exact absurd hx hxv
            · exact absurd (or x hx) (not_le.mpr hlt)
          obtain ⟨hne, c, hc⟩ := Shape.root_ne_none_of_mem hxl
          obtain ⟨m, nm, hrun, hm, hmv⟩ := ihl fl sl hxl c fuel hc (by omega)
          refine ⟨m, nm, ?_, hm, hmv⟩
          simp only [hlt, if_true, BSNode.Children, hcl hne, hc, reduceCtorEq, if_false, hrun]
        · have hxr : x ∈ r.values := by
            rcases hx with hx | hx | hx
            · exact absurd (lt_of_le_of_ne (ol x hx) hxv) hlt
            · exact absurd hx hxv
            · exact hx
          obtain ⟨hne, c, hc⟩ := Shape.root_ne_none_of_mem hxr
          obtain ⟨m, nm, hrun, hm, hmv⟩ := ihr fr sr hxr c fuel hc (by omega)
          refine ⟨m, nm, ?_, hm, hmv⟩
          simp only [hlt, if_false, BSNode.Children, hcr hne, hc, reduceCtorEq, hrun]

/-- `Find` returns `nil` when the value is not in a well-formed subtree. -/
theorem findLoop_absent [LinearOrder α] {h : List (BSNode α)} (x : α) :
    ∀ (s : Shape α) (par : Ptr), BSShaped h par s → x ∉ s.values →
      ∀ (a : Nat) (fuel : Nat), s.root = some a → s.height ≤ fuel →
      BSTree.FindLoop h x matcherOf fuel (some a) = .ok none := by
  intro s
  induction s with
  | nil => intro _ _ _ _ _ e; cases e
  | node l b v r ihl ihr =>
    intro par sh hx a fuel e hf
    cases e
    simp only [Shape.values, List.mem_append, List.mem_cons, not_or] at hx
    obtain ⟨hxl, hxv, hxr⟩ := hx
    cases fuel with
    | zero => simp [Shape.height] at hf
    | succ fuel =>
      simp only [Shape.height] at hf
      simp only [BSTree.FindLoop, load_some sh.1, ok_bind, matcherOf, hxv, decide_False,
        Bool.false_eq_true, if_false]
      by_cases hlt : x < v
      · simp only [hlt, if_true, BSNode.Children]
        cases hlr : l.root with
        | none => simp
        | some c =>
          simp only [reduceCtorEq, if_false]
          exact ihl (some b) sh.2.1 hxl c fuel hlr (by omega)
      · simp only [hlt, if_false, BSNode.Children]
        cases hrr : r.root with
        | none => simp
        | some c =>
          simp only [reduceCtorEq, if_false]
          exact ihr (some b) sh.2.2 hxr c fuel hrr (by omega)

theorem Shape.ordered_searchOrdered [LinearOrder α] (s : Shape α) (o : s.Ordered) :
    s.SearchOrdered := by
  induction s with
  | nil => trivial
  | node l a v r ihl ihr =>
    obtain ⟨ol, or, hl, hr⟩ := o
    exact ⟨fun x hx => le_of_lt (ol x hx), fun x hx => not_lt.mp (or x hx), ihl hl, ihr hr⟩

/-! ### Plain trees: `Split` at a node without low-side child -/

theorem bs_children_setChild (n : BSNode α) (d : NodeSide) (x : Ptr) :
    (n.setChild d x).Children d = x := by cases d <;> rfl

/-- What `Split` leaves in the store when called on an allocated node: the node holds the
high part and has the new node in its low-side slot; the new node holds the low part and
is its own low-side child and its own parent; nothing else changes. -/
theorem split_spec (t : BSTree α) (n : Nat) (nd : BSNode α) (hnd : t.heap[n]? = some nd)
    (lowSide : NodeSide) (spliter : SplitFunc α) :
    ∃ H, t.Split (some n) lowSide spliter =
        .ok (⟨H, t.Root, (t.NodeCount + 1) % U64⟩, some n) ∧
      H[n]? = some (({ nd with Value := highPart spliter lowSide nd.Value } : BSNode α).setChild
        lowSide (some t.heap.length)) ∧
      H[t.heap.length]? = some { (BSNode.mk (some n) none none
          (lowPart spliter lowSide nd.Value)).setChild lowSide (some t.heap.length)
          with Parent := some t.heap.length } ∧
      (∀ i, i ≠ n → i < t.heap.length → H[i]? = t.heap[i]?) ∧
      H.length = t.heap.length + 1 := by
  have ln := lt_of_getElem?_some hnd
  have hlv : (if lowSide = NodeSide.Left then ((spliter nd.Value).1, (spliter nd.Value).2)
      else ((spliter nd.Value).2, (spliter nd.Value).1)) =
      (lowPart spliter lowSide nd.Value, highPart spliter lowSide nd.Value) := by
    cases lowSide <;> simp [lowPart, highPart]
  -- the successive stores
  have e1 : (t.heap.set n { nd with Value := highPart spliter lowSide nd.Value })[n]? =
      some { nd with Value := highPart spliter lowSide nd.Value } :=
    List.getElem?_set_self ln
  have l1 : (t.heap.set n { nd with Value := highPart spliter lowSide nd.Value }).length =
      t.heap.length := List.length_set _ _ _
  have e2 : ∀ e : BSNode α,
      (t.heap.set n { nd with Value := highPart spliter lowSide nd.Value } ++ [e])[n]? =
        some { nd with Value := highPart spliter lowSide nd.Value } := by
    intro e
    rw [List.getElem?_append_left (by rw [l1]; exact ln), e1]
  have e3 : ∀ (e m : BSNode α),
      ((t.heap.set n { nd with Value := highPart spliter lowSide nd.Value } ++ [e]).set n
        m)[n]? = some m := by
    intro e m
    exact List.getElem?_set_self (by rw [List.length_append, l1]; omega)
  have e4 : ∀ (e m : BSNode α),
      ((t.heap.set n { nd with Value := highPart spliter lowSide nd.Value } ++ [e]).set n
        m)[t.heap.length]? = some e := by
    intro e m
    rw [List.getElem?_set_ne (by omega), List.getElem?_append_right (by rw [l1]), l1]
    simp
  have e5 : ∀ (e m k : BSNode α),
      (((t.heap.set n { nd with Value := highPart spliter lowSide nd.Value } ++ [e]).set n
        m).set t.heap.length k)[t.heap.length]? = some k := by
    intro e m k
    exact List.getElem?_set_self (by rw [List.length_set, List.length_append, l1]; simp)
  apply Exists.intro
  refine ⟨?_, ?_, ?_, ?_, ?_⟩
  · simp only [BSTree.Split, load_some hnd, ok_bind, hlv, store_some _ hnd, l1,
      load_some (e2 _), store_some _ (e2 _), load_some (e3 _ _), load_some (e4 _ _),
      store_some _ (e4 _ _), bs_children_setChild, load_some (e5 _ _ _),
      store_some _ (e5 _ _ _), pure_eq_ok]
    rfl
  · rw [List.getElem?_set_ne (by omega), List.getElem?_set_ne (by omega), e3]
  · exact List.getElem?_set_self (by
      rw [List.length_set, List.length_set, List.length_append, l1]; simp)
  · intro i hi hlt
    rw [List.getElem?_set_ne (by omega), List.getElem?_set_ne (by omega),
      List.getElem?_set_ne (Ne.symm hi), List.getElem?_append_left (by rw [l1]; exact hlt),
      List.getElem?_set_ne (Ne.symm hi)]
  · rw [List.length_set, List.length_set, List.length_set, List.length_append, l1]
    simp

theorem Shape.splitAt_root (n : Nat) (lowSide : NodeSide) (low high : α) (new : Nat)
    (s : Shape α) : (s.splitAt n lowSide low high new).root = s.root := by
  cases s with
  | nil => rfl
  | node l a v r =>
    simp only [Shape.splitAt]
    by_cases h : a = n
    · rw [if_pos h]; cases lowSide <;> rfl
    · rw [if_neg h]; rfl

theorem Shape.splitAt_height (n : Nat) (lowSide : NodeSide) (low high : α) (new : Nat)
    (s : Shape α) : (s.splitAt n lowSide low high new).height ≤ s.height + 1 := by
  induction s with
  | nil => simp [Shape.splitAt, Shape.height]
  | node l a v r ihl ihr =>
    simp only [Shape.splitAt]
    by_cases h : a = n
    · rw [if_pos h]; cases lowSide <;> simp only [Shape.height] <;> omega
    · rw [if_neg h]; simp only [Shape.height]; omega

theorem Shape.splitAt_values (n : Nat) (lowSide : NodeSide) (low high : α) (new : Nat)
    (s : Shape α) (hn : n ∈ s.addrs) :
    low ∈ (s.splitAt n lowSide low high new).values ∧
      high ∈ (s.splitAt n lowSide low high new).values := by
  induction s with
  | nil => simp [Shape.addrs] at hn
  | node l a v r ihl ihr =>
    simp only [Shape.splitAt]
    by_cases h : a = n
    · rw [if_pos h]; cases lowSide <;> simp [Shape.values]
    · rw [if_neg h]
      simp only [Shape.addrs, List.mem_append, List.mem_cons] at hn
      simp only [Shape.values, List.mem_append, List.mem_cons]
      rcases hn with hn | hn | hn
      · exact ⟨Or.inl (ihl hn).1, Or.inl (ihl hn).2⟩
      · exact absurd hn.symm h
      · exact ⟨Or.inr (Or.inr (ihr hn).1), Or.inr (Or.inr (ihr hn).2)⟩

/-- After a `Split` at a node without low-side child, the store holds the values and the
child links of the shape `Shape.splitAt`. -/
theorem splitAt_findShaped {h H : List (BSNode α)} (n : Nat) (lowSide : NodeSide)
    (low high : α) (nd sub : BSNode α) (hnd : h[n]? = some nd)
    (hlow : nd.Children lowSide = none)
    (Hn : H[n]? = some (({ nd with Value := high } : BSNode α).setChild lowSide (some h.length)))
    (Hs : H[h.length]? = some sub) (hsub : sub.Value = low)
    (Hi : ∀ i, i ≠ n → i < h.length → H[i]? = h[i]?) :
    ∀ (q : Shape α) (par : Ptr), BSShaped h par q → q.addrs.Nodup →
      FindShaped H (q.splitAt n lowSide low high h.length) := by
  intro q
  induction q with
  | nil => intro _ _ _; trivial
  | node l a v r ihl ihr =>
    intro par sh nodup
    have hlt := BSShaped.addr_lt _ _ sh
    have ndl := Shape.child_nodup (.node l a v r) .Left nodup
    have ndr := Shape.child_nodup (.node l a v r) .Right nodup
    have hal : a ∉ l.addrs := Shape.root_not_mem_child (.node l a v r) .Left nodup rfl
    have har : a ∉ r.addrs := Shape.root_not_mem_child (.node l a v r) .Right nodup rfl
    have keep : ∀ (q : Shape α), (∀ x ∈ q.addrs, x ∈ (Shape.node l a v r).addrs) →
        a ∉ q.addrs → a = n → BSShaped h (some a) q → FindShaped H q := by
      intro q hsub' hq han shq
      refine bsShaped_findShaped q (some a) (BSShaped.congr q _ ?_ shq)
      intro x hx
      exact Hi x (fun e => hq (by rw [han, ← e]; exact hx)) (hlt x (hsub' x hx))
    simp only [Shape.splitAt]
    by_cases han : a = n
    · rw [if_pos han]
      have hrec : nd = { Parent := par, ChildL := l.root, ChildR := r.root, Value := v } := by
        have := sh.1
        rw [han, hnd] at this
        exact Option.some.inj this
      cases lowSide with
      | Left =>
        have hl : l.root = none := by rw [hrec] at hlow; exact hlow
        refine ⟨⟨_, han ▸ Hn, rfl, fun _ => rfl, fun _ => by rw [hrec]; rfl⟩,
          ⟨⟨sub, Hs, hsub, fun e => absurd rfl e, fun e => absurd rfl e⟩, trivial, trivial⟩,
          keep r (fun x hx => by simp [Shape.addrs, hx]) har han sh.2.2⟩
      | Right =>
        have hr : r.root = none := by rw [hrec] at hlow; exact hlow
        refine ⟨⟨_, han ▸ Hn, rfl, fun _ => by rw [hrec]; rfl, fun _ => rfl⟩,
          keep l (fun x hx => by simp [Shape.addrs, hx]) hal han sh.2.1,
          ⟨⟨sub, Hs, hsub, fun e => absurd rfl e, fun e => absurd rfl e⟩, trivial, trivial⟩⟩
    · rw [if_neg han]
      refine ⟨⟨_, (Hi a han (hlt a (by simp [Shape.addrs]))).trans sh.1, rfl, fun _ => ?_,
        fun _ => ?_⟩, ihl _ sh.2.1 ndl, ihr _ sh.2.2 ndr⟩
      · rw [Shape.splitAt_root]
      · rw [Shape.splitAt_root]

/-! ### The claims -/

/-- C1: for every finite sequence `vs` of values and the comparer induced by a total
preorder (`Left` when `value < existing`, `Right` otherwise), the `Add` calls on the empty
tree all return, `Flatten` returns, and the returned sequence is a rearrangement of `vs`
that is sorted non-decreasingly. -/
theorem add_all_flatten_sorted [Preorder α] [DecidableRel (fun (a b : α) => a < b)]
    [IsTotal α (fun (a b : α) => a ≤ b)] (vs : List α) :
    ∃ t out, BSTree.addAll comparerOf BSTree.empty vs = .ok t ∧ t.Flatten = .ok out ∧
      out.Perm vs ∧ out.Sorted (fun (a b : α) => a ≤ b) := by
  obtain ⟨t, s, hrun, wf, o, hperm⟩ :=
    addAll_spec vs (BSTree.empty : BSTree α) .nil ⟨rfl, trivial, List.nodup_nil⟩ trivial
  exact ⟨t, s.values, hrun, flatten_spec t s wf, by simpa [Shape.values] using hperm,
    s.sorted_values o⟩

/-- C1 on the values 5, 2, 8, 2, 1 over the natural numbers. -/
theorem add_all_flatten_sorted_witness :
    ∃ t out, BSTree.addAll comparerOf BSTree.empty [5, 2, 8, 2, 1] = .ok t ∧
      t.Flatten = .ok out ∧ out.Perm [5, 2, 8, 2, 1] ∧ out.Sorted (fun (a b : Nat) => a ≤ b) :=
  add_all_flatten_sorted [5, 2, 8, 2, 1]

/-- C2 (code defect): after `Add 50`, `Add 40`, `Split(node 50, Left, spliter)` the call
returns with `NodeCount = 3`, while only two nodes (node 50 at address 0 and the new node
at address 2) are reachable from `Root` through child slots: the former low child, node
40, has been dropped from the tree. -/
theorem split_node_count_exceeds_reachable :
    ∃ t p, splitScenario = .ok (t, p) ∧ t.NodeCount = 3 ∧ t.reachable = [0, 2] ∧
      t.reachable.length = 2 := by
  refine ⟨_, _, rfl, ?_, ?_, ?_⟩ <;> decide

/-- C3: for every well-formed plain tree whose `NodeCount` is its number of nodes, `Flatten`
returns, `Balance` returns, and `Flatten` on the tree after `Balance` returns the very
sequence it returned before, `NodeCount` being unchanged and equal to the length of that
sequence (the capacity `Flatten` asks of `make`). -/
theorem balance_keeps_flatten (t : BSTree α) (s : Shape α) (wf : t.HasShape s)
    (hcount : t.NodeCount = s.size) :
    ∃ out t1, t.Flatten = .ok out ∧ t.Balance = .ok t1 ∧ t1.Flatten = .ok out ∧
      t1.NodeCount = t.NodeCount ∧ out.length = t.NodeCount := by
  obtain ⟨t1, s1, hrun, wf1, hval, hc1, -, -⟩ := balance_spec t s wf
  exact ⟨s.values, t1, flatten_spec t s wf, hrun, hval ▸ flatten_spec t1 s1 wf1, hc1,
    by rw [Shape.length_values, hcount]⟩

/-- C3 on the chain 1, 2, 3. -/
theorem balance_keeps_flatten_witness :
    chainTree.HasShape chainShape ∧ chainTree.NodeCount = chainShape.size ∧
      ∃ out t1, chainTree.Flatten = .ok out ∧ chainTree.Balance = .ok t1 ∧
        t1.Flatten = .ok out ∧ t1.NodeCount = chainTree.NodeCount ∧
        out.length = chainTree.NodeCount :=
  ⟨chainTree_hasShape, by decide,
    balance_keeps_flatten chainTree chainShape chainTree_hasShape (by decide)⟩

/-- C4: for every well-formed plain tree with `n` nodes and `NodeCount = n`, `Balance`
returns a well-formed tree with `n` nodes and `NodeCount = n` whose height (nodes on the
longest path from the root to a leaf, 0 for the empty tree) is `⌈log₂ (n + 1)⌉`, and in
which at every node the numbers of nodes of the left and right subtrees differ by at most
one. -/
theorem balance_height_and_sizes (t : BSTree α) (s : Shape α) (wf : t.HasShape s)
    (hcount : t.NodeCount = s.size) :
    ∃ t1 s1, t.Balance = .ok t1 ∧ t1.HasShape s1 ∧ s1.size = s.size ∧
      t1.NodeCount = s1.size ∧
      s1.height = Nat.clog 2 (s.size + 1) ∧ s1.SizeBalanced := by
  obtain ⟨t1, s1, hrun, wf1, hval, hc1, bal, ht⟩ := balance_spec t s wf
  have hsize : s1.size = s.size := by
    rw [← Shape.length_values, hval, Shape.length_values]
  exact ⟨t1, s1, hrun, wf1, hsize, by rw [hc1, hcount, hsize], ht, bal⟩

/-- C4 on the chain 1, 2, 3. -/
theorem balance_height_and_sizes_witness :
    chainTree.HasShape chainShape ∧ chainTree.NodeCount = chainShape.size ∧
      ∃ t1 s1, chainTree.Balance = .ok t1 ∧ t1.HasShape s1 ∧ s1.size = chainShape.size ∧
        t1.NodeCount = s1.size ∧
        s1.height = Nat.clog 2 (chainShape.size + 1) ∧ s1.SizeBalanced :=
  ⟨chainTree_hasShape, by decide,
    balance_height_and_sizes chainTree chainShape chainTree_hasShape (by decide)⟩

/-- C5 (code defect): a sequence of eleven `Insert` calls and one `Delete` call, each
`Insert` attaching a node not yet in the tree at an empty slot of a node of the tree and the
`Delete` given a node of the tree, runs to completion from the empty tree and leaves a tree
in which a red node has a red parent (node 10 below node 2, both red), although the tree
before the `Delete` satisfied both invariants. -/
theorem insert_delete_leaves_red_red :
    (RBTree.fresh (List.range 11)).admitsAll redSiblingOps = true ∧
    (∃ t, (RBTree.fresh (List.range 11)).runOps redSiblingOps.dropLast = .ok t ∧
        t.redRedFree = true ∧ t.blackUniform = true) ∧
    (∃ t, (RBTree.fresh (List.range 11)).runOps redSiblingOps = .ok t ∧
        t.redRedFree = false ∧
        (t.heap[6]?).map (fun n => (n.Color, n.ChildR)) = some (.Black, some 2) ∧
        (t.heap[2]?).map (fun n => (n.Color, n.ChildL)) = some (.Red, some 10) ∧
        (t.heap[10]?).map (fun n => n.Color) = some .Red) := by
  refine ⟨?_, ⟨_, rfl, ?_, ?_⟩, ⟨_, rfl, ?_, ?_, ?_, ?_⟩⟩ <;> decide

/-- C6 (code defect): in the scenario 10, 20, 30 the first two insertions return, leaving
node 10 black at the root with node 20 as its red right child, and the third insertion,
`Insert(n30, n20, Right)`, ends in a nil dereference: it calls `Rotate` on the root, which
asks for the side of a node without parent. -/
theorem insert_10_20_30_nil_dereference :
    (∃ t, twoNodeTree = .ok t ∧ t.Root = some 0 ∧
        t.heap[0]? = some { Color := .Black, Parent := none, ChildL := none, ChildR := some 1,
                            Value := 10 } ∧
        t.heap[1]? = some { Color := .Red, Parent := some 0, ChildL := none, ChildR := none,
                            Value := 20 } ∧
        t.Insert (some 2) (some 1) .Right = .error .nilDeref) := by
  refine ⟨_, rfl, ?_, ?_, ?_, ?_⟩ <;> decide

/-- C7: in a well-formed plain tree, for every node that is neither the first nor the last
of the in-order sequence, `Prev` and `Next` return nodes, `Next(Prev(node))` is the node
itself and `Prev(Next(node))` is the node itself (as addresses). -/
theorem next_prev_identity (t : BSTree α) (s : Shape α) (wf : t.HasShape s) (n : Nat)
    (hn : n ∈ s.addrs) (hfirst : s.addrs.head? ≠ some n) (hlast : s.addrs.getLast? ≠ some n) :
    ∃ p q, BSNode.Prev t.heap (some n) = .ok (some p) ∧
      BSNode.Next t.heap (some p) = .ok (some n) ∧
      BSNode.Next t.heap (some n) = .ok (some q) ∧
      BSNode.Prev t.heap (some q) = .ok (some n) := by
  obtain ⟨i, hi⟩ := List.getElem?_of_mem hn
  have hlt := lt_of_getElem?_some hi
  have h0 : 0 < i := by
    rcases Nat.eq_zero_or_pos i with e | e
    · exact absurd (by rw [List.head?_eq_getElem?, ← e, hi]) hfirst
    · exact e
  have h1 : i + 1 < s.addrs.length := by
    by_contra hc
    have e : s.addrs.length - 1 = i := by omega
    exact hlast (by rw [List.getLast?_eq_getElem?, e, hi])
  obtain ⟨p, hp⟩ : ∃ p, s.addrs[i - 1]? = some p := ⟨_, List.getElem?_eq_getElem (by omega)⟩
  obtain ⟨q, hq⟩ : ∃ q, s.addrs[i + 1]? = some q := ⟨_, List.getElem?_eq_getElem h1⟩
  refine ⟨p, q, ?_, ?_, ?_, ?_⟩
  · rw [prev_spec t s wf i n hi, if_pos h0, hp]
  · rw [next_spec t s wf (i - 1) p hp, show i - 1 + 1 = i by omega, hi]
  · rw [next_spec t s wf i n hi, hq]
  · rw [prev_spec t s wf (i + 1) q hq, if_pos (by omega), show i + 1 - 1 = i by omega, hi]

/-- C7 on the middle node of the chain 1, 2, 3. -/
theorem next_prev_identity_witness :
    chainTree.HasShape chainShape ∧
      ∃ p q, BSNode.Prev chainTree.heap (some 1) = .ok (some p) ∧
        BSNode.Next chainTree.heap (some p) = .ok (some 1) ∧
        BSNode.Next chainTree.heap (some 1) = .ok (some q) ∧
        BSNode.Prev chainTree.heap (some q) = .ok (some 1) :=
  ⟨chainTree_hasShape,
    next_prev_identity chainTree chainShape chainTree_hasShape 1 (by decide) (by decide)
      (by decide)⟩

/-- C8 (amended): in a well-formed red-black tree, for a node `s` that is not the root and
that has a child on the side opposite `d` or no child on side `d`, `Rotate(s, d)` returns
a node `r`, which is the child on the side opposite `d` when there is one and `s` itself
otherwise (the tree then being untouched by the first call), and `Rotate(r, 1 - d)` then
returns `s` and leaves the store and the root reference exactly as they were before the
first call. -/
theorem rotate_then_opposite_restores (t : RBTree α) (sh : Shape α) (wf : t.HasShape sh)
    (s : Nat) (d : NodeSide) (hin : s ∈ sh.addrs) (hroot : t.Root ≠ some s) (ns : RBNode α)
    (hs : t.heap[s]? = some ns)
    (hch : ns.Children d.flip ≠ none ∨ ns.Children d = none) :
    ∃ t1 r, t.Rotate (some s) d = .ok (t1, r) ∧ t1.Rotate r d.flip = .ok (t, some s) ∧
      (ns.Children d.flip ≠ none → r = ns.Children d.flip) ∧
      (ns.Children d.flip = none → r = some s ∧ t1 = t) := by
  cases hv : ns.Children d.flip with
  | some v =>
    obtain ⟨t1, h1, h2⟩ := rotate_restores_of_pivot t sh wf s v d hin hroot ⟨ns, hs, hv⟩
    exact ⟨t1, some v, h1, h2, fun _ => rfl, fun e => Option.noConfusion e⟩
  | none =>
    have hd : ns.Children d = none := by
      rcases hch with h | h
      · exact absurd hv h
      · exact h
    obtain ⟨hr, hsh, nd⟩ := wf
    obtain ⟨q, par, p, ps, qsh, qnd, qr, qs⟩ := RBShaped.focus sh none hsh nd hin (hr ▸ hroot)
    obtain ⟨np, hp, -, -⟩ := qsh.at_root qr
    obtain ⟨ns1, hs1, hsp, -⟩ := (qsh.child qr ps).at_root qs
    rw [hs] at hs1
    cases Option.some.inj hs1
    refine ⟨t, some s, rotate_no_pivot t d p s np ns hp hs hsp hv,
      rotate_no_pivot t d.flip p s np ns hp hs hsp (by rw [flip_flip]; exact hd),
      fun h => absurd rfl h, fun _ => ⟨rfl, rfl⟩⟩

/-- C8, an instance of the amended statement: in `smallTree`, rotating node 10 to the right
and then node 5 to the left restores the tree. -/
theorem rotate_then_opposite_restores_witness :
    smallTree.HasShape smallShape ∧
      ∃ t1 r, smallTree.Rotate (some 1) .Right = .ok (t1, r) ∧
        t1.Rotate r .Left = .ok (smallTree, some 1) ∧
        ((some 3 : Ptr) ≠ none → r = some 3) ∧
        ((some 3 : Ptr) = none → r = some 1 ∧ t1 = smallTree) :=
  ⟨smallTree_hasShape,
    rotate_then_opposite_restores smallTree smallShape smallTree_hasShape 1 .Right (by decide)
      (by decide) _ rfl (Or.inl (by decide))⟩

/-- C8 as stated fails: `smallTree` is what four insertions leave, it is well formed, and
node 10 (address 1) is in it, with its only child on the left.  `Rotate(n10, Left)` finds no
pivot and returns `n10` with the tree unchanged; `Rotate(n10, Right)` then rotates, so the
tree after the two calls differs from the tree before them (node 5 has become the parent of
node 10). -/
theorem rotate_then_opposite_changes_tree :
    (RBTree.fresh [20, 10, 30, 5]).runOps
        [.insert (some 0) none .Left, .insert (some 1) (some 0) .Left,
         .insert (some 2) (some 0) .Right, .insert (some 3) (some 1) .Left] = .ok smallTree ∧
      smallTree.HasShape smallShape ∧ 1 ∈ smallShape.addrs ∧
      smallTree.Rotate (some 1) .Left = .ok (smallTree, some 1) ∧
      ∃ t2 r2, smallTree.Rotate (some 1) .Right = .ok (t2, r2) ∧ t2 ≠ smallTree ∧
        (t2.heap[1]?).map (fun n => n.Parent) = some (some 3) :=
  ⟨by decide,
    smallTree_hasShape,
    by decide, by decide, _, _, rfl, by decide, by decide⟩

/-- C9 (code defect): on the tree made of a black root and its red right child,
`Rotate(root, Left)`, whose pivot is that child, ends in a nil dereference instead of
returning the child, and so does `Rotate(root, Right)`. -/
theorem rotate_at_root_nil_dereference :
    ∃ t, twoNodeTree = .ok t ∧ t.Root = some 0 ∧
      (t.heap[0]?).map (fun n => n.Children .Right) = some (some 1) ∧
      t.Rotate (some 0) .Left = .error .nilDeref ∧
      t.Rotate (some 0) .Right = .error .nilDeref := by
  refine ⟨_, rfl, ?_, ?_, ?_, ?_⟩ <;> decide

/-- C10 (code defect): in the scenario `Add 50`, `Add 40`, `Split(node 50, Left, spliter)`
the new node (address 2, value 49) is the left child of node 50, but its own left child and
its parent reference are the new node itself; node 40 (address 1), the left child of node
50 before the call, keeps node 50 as parent reference and is no longer reachable from the
root. -/
theorem split_drops_low_subtree :
    ∃ t p, splitScenario = .ok (t, p) ∧ p = some 0 ∧
      t.heap[0]? = some { Parent := none, ChildL := some 2, ChildR := none, Value := 50 } ∧
      t.heap[2]? = some { Parent := some 2, ChildL := some 2, ChildR := none, Value := 49 } ∧
      t.heap[1]? = some { Parent := some 0, ChildL := none, ChildR := none, Value := 40 } ∧
      1 ∉ t.reachable := by
  refine ⟨_, _, rfl, ?_, ?_, ?_, ?_, ?_⟩ <;> decide

/-- C11: in a well-formed plain tree, for a node `n` without child on `lowSide`, and a
spliter whose parts keep the tree search-ordered for the order of the matcher (the high part
in place of the value of `n`, the low part on its low side), `Split(n, lowSide, spliter)`
returns; afterwards node `n` holds the high part, its `lowSide` child is a newly allocated
node holding the low part, `NodeCount` is one more than before (it was below `2^64 - 1`),
and `Find` with the matcher of the order returns a node holding the low part and a node
holding the high part. -/
theorem split_then_find [LinearOrder α] (t : BSTree α) (s : Shape α) (wf : t.HasShape s)
    (n : Nat) (hn : n ∈ s.addrs) (nd : BSNode α) (hnd : t.heap[n]? = some nd)
    (lowSide : NodeSide) (hlow : nd.Children lowSide = none) (spliter : SplitFunc α)
    (hcount : t.NodeCount + 1 < U64)
    (hord : (s.splitAt n lowSide (lowPart spliter lowSide nd.Value)
      (highPart spliter lowSide nd.Value) t.heap.length).SearchOrdered) :
    ∃ t1 nd1 sub, t.Split (some n) lowSide spliter = .ok (t1, some n) ∧
      t1.heap[n]? = some nd1 ∧ nd1.Value = highPart spliter lowSide nd.Value ∧
      nd1.Children lowSide = some t.heap.length ∧
      t.heap[t.heap.length]? = none ∧ t1.heap[t.heap.length]? = some sub ∧
      sub.Value = lowPart spliter lowSide nd.Value ∧
      t1.NodeCount = t.NodeCount + 1 ∧
      (∃ m nm, t1.Find (lowPart spliter lowSide nd.Value) matcherOf = .ok (some m) ∧
        t1.heap[m]? = some nm ∧ nm.Value = lowPart spliter lowSide nd.Value) ∧
      (∃ m nm, t1.Find (highPart spliter lowSide nd.Value) matcherOf = .ok (some m) ∧
        t1.heap[m]? = some nm ∧ nm.Value = highPart spliter lowSide nd.Value) := by
  obtain ⟨H, hrun, Hn, Hs, Hi, Hlen⟩ := split_spec t n nd hnd lowSide spliter
  obtain ⟨hr, sh, nodup⟩ := wf
  have hsubv : ({ (BSNode.mk (some n) none none (lowPart spliter lowSide nd.Value)).setChild
      lowSide (some t.heap.length) with Parent := some t.heap.length } : BSNode α).Value =
      lowPart spliter lowSide nd.Value := by cases lowSide <;> rfl
  have fs := splitAt_findShaped n lowSide (lowPart spliter lowSide nd.Value)
    (highPart spliter lowSide nd.Value) nd _ hnd hlow Hn Hs hsubv Hi s none sh nodup
  obtain ⟨hlowm, hhighm⟩ := Shape.splitAt_values n lowSide (lowPart spliter lowSide nd.Value)
    (highPart spliter lowSide nd.Value) t.heap.length s hn
  obtain ⟨a, ha⟩ : ∃ a, s.root = some a := by
    cases s with
    | nil => simp [Shape.addrs] at hn
    | node l a v r => exact ⟨a, rfl⟩
  have hroot : (s.splitAt n lowSide (lowPart spliter lowSide nd.Value)
      (highPart spliter lowSide nd.Value) t.heap.length).root = some a := by
    rw [Shape.splitAt_root, ha]
  have hht : (s.splitAt n lowSide (lowPart spliter lowSide nd.Value)
      (highPart spliter lowSide nd.Value) t.heap.length).height ≤ H.length + 1 := by
    have h1 := Shape.splitAt_height n lowSide (lowPart spliter lowSide nd.Value)
      (highPart spliter lowSide nd.Value) t.heap.length s
    have h2 := sh.height_le nodup
    omega
  have hfind : ∀ x, x ∈ (s.splitAt n lowSide (lowPart spliter lowSide nd.Value)
      (highPart spliter lowSide nd.Value) t.heap.length).values →
      ∃ m nm, (BSTree.mk H t.Root ((t.NodeCount + 1) % U64)).Find x matcherOf = .ok (some m) ∧
        H[m]? = some nm ∧ nm.Value = x := by
    intro x hx
    obtain ⟨m, nm, hf, hm, hv⟩ := findLoop_found x _ fs hord hx a (H.length + 1) hroot hht
    refine ⟨m, nm, ?_, hm, hv⟩
    simp only [BSTree.Find, ← hr, ha, reduceCtorEq, if_false, hf]
  refine ⟨⟨H, t.Root, (t.NodeCount + 1) % U64⟩, _, _, hrun, Hn, ?_, ?_, ?_, Hs, hsubv, ?_,
    hfind _ hlowm, hfind _ hhighm⟩
  · cases lowSide <;> rfl
  · exact bs_children_setChild _ _ _
  · exact List.getElem?_eq_none (le_refl _)
  · exact Nat.mod_eq_of_lt hcount

/-- C11 on the scenario of the specification: the tree made of the single node 50, the
spliter yielding (49, 50), `lowSide = Left`. -/
theorem split_then_find_witness :
    ∃ t1 nd1 sub, single50.Split (some 0) .Left (fun v => (v - 1, v)) = .ok (t1, some 0) ∧
      t1.heap[0]? = some nd1 ∧ nd1.Value = 50 ∧ nd1.Children .Left = some 1 ∧
      single50.heap[1]? = none ∧ t1.heap[1]? = some sub ∧ sub.Value = 49 ∧
      t1.NodeCount = 2 ∧
      (∃ m nm, t1.Find 49 matcherOf = .ok (some m) ∧ t1.heap[m]? = some nm ∧ nm.Value = 49) ∧
      (∃ m nm, t1.Find 50 matcherOf = .ok (some m) ∧ t1.heap[m]? = some nm ∧ nm.Value = 50) :=
  split_then_find single50 (.node .nil 0 50 .nil) ⟨rfl, ⟨rfl, trivial, trivial⟩, by decide⟩ 0
    (by decide) _ rfl .Left rfl (fun v => (v - 1, v)) (by decide)
    ⟨by decide, by decide, ⟨by decide, by decide, trivial, trivial⟩, trivial⟩

/-- C12 (code defect): in `nineTree`, a well-formed tree, the nodes 20 (address 3, black,
parent 30, children 10 and 25) and 70 (address 2, red, parent 50, children 60 and 80) are
distinct, not adjacent, and each has a parent and two children.  `n20.SwapWith(n70)`
returns; node 20 has taken the colour, parent and children of node 70, the former parents'
slots and the former children's parent references point at the other node, and the values
are unchanged; but node 70 has kept its own colour, parent and children instead of taking
those of node 20. -/
theorem swapWith_other_keeps_own_fields :
    nineTree.HasShape nineShape ∧
      ∃ h, RBNode.SwapWith nineTree.heap (some 3) (some 2) = .ok h ∧
        h[3]? = some { Color := .Red, Parent := some 0, ChildL := some 7, ChildR := some 8,
                       Value := 20 } ∧
        h[2]? = some { Color := .Red, Parent := some 0, ChildL := some 7, ChildR := some 8,
                       Value := 70 } ∧
        h[2]? ≠ some { Color := .Black, Parent := some 1, ChildL := some 5, ChildR := some 6,
                       Value := 70 } ∧
        (h[1]?).map (fun n => n.ChildL) = some (some 2) ∧
        (h[0]?).map (fun n => n.ChildR) = some (some 3) ∧
        (h[5]?).map (fun n => n.Parent) = some (some 2) ∧
        (h[6]?).map (fun n => n.Parent) = some (some 2) ∧
        (h[7]?).map (fun n => n.Parent) = some (some 3) ∧
        (h[8]?).map (fun n => n.Parent) = some (some 3) := by
  refine ⟨nineTree_hasShape, _, rfl, ?_, ?_, ?_, ?_, ?_, ?_, ?_, ?_, ?_⟩ <;> decide

/-- C13 (code defect): `nineTree` satisfies both red-black invariants, and `Delete` of any
of its nodes with two children ends in a nil dereference: of node 30 (address 1) and of node
20 (address 3), because `SwapWith` writes through the left child slot of the in-order
successor, which is empty; of the root 50 (address 0), because `SwapWith` asks for the side
of a node without parent. -/
theorem delete_two_children_nil_dereference :
    nineTree.redRedFree = true ∧ nineTree.blackUniform = true ∧
      nineTree.InOrderSuccessor (some 1) = .ok (some 4) ∧
      (nineTree.heap[4]?).map (fun n => n.ChildL) = some none ∧
      nineTree.Delete (some 1) = .error .nilDeref ∧
      nineTree.Delete (some 3) = .error .nilDeref ∧
      nineTree.Delete (some 0) = .error .nilDeref := by
  refine ⟨?_, ?_, ?_, ?_, ?_, ?_, ?_⟩ <;> decide

/-- C14 (code defect): `smallTree` satisfies both red-black invariants and its node 10
(address 1) is black with exactly one child, the red node 5 on the left.  `Delete(n10)` ends
in a nil dereference: `SwapWith` writes through the right child slot of node 10, which is
empty.  So does `Delete` of the black root of `twoNodeTree`, whose only child is on the
right. -/
theorem delete_one_child_nil_dereference :
    smallTree.redRedFree = true ∧ smallTree.blackUniform = true ∧
      smallTree.heap[1]? = some { Color := .Black, Parent := some 0, ChildL := some 3,
                                  ChildR := none, Value := 10 } ∧
      (smallTree.heap[3]?).map (fun n => n.Color) = some .Red ∧
      smallTree.Delete (some 1) = .error .nilDeref ∧
      (twoNodeTree >>= fun t => t.Delete (some 0)) = .error .nilDeref := by
  refine ⟨?_, ?_, ?_, ?_, ?_, ?_⟩ <;> decide

/-- C15 (code defect): in `chainTree`, a well-formed tree, node 2 (address 1) is not the
root, has no left child and has the right child 3.  `Remove(n2, Right)`, whose low side is
the left one, ends in a nil dereference: the first assignment writes the parent reference
of the absent low-side child. -/
theorem remove_without_low_child_nil_dereference :
    chainTree.HasShape chainShape ∧
      chainTree.heap[1]? = some { Parent := some 0, ChildL := none, ChildR := some 2,
                                  Value := 2 } ∧
      chainTree.Remove (some 1) .Right = .error .nilDeref := by
  refine ⟨chainTree_hasShape, ?_, ?_⟩ <;> decide

/-- C16: for every sequence `vs` of values added to the empty tree with the comparer of a
total order, and the matcher of that order, `Find(v)` returns a node holding `v` when `v`
was added and returns `nil` when it was not (in particular on the empty tree). -/
theorem find_after_adds [LinearOrder α] (vs : List α) (v : α) :
    ∃ t, BSTree.addAll comparerOf BSTree.empty vs = .ok t ∧
      (v ∈ vs → ∃ m nd, t.Find v matcherOf = .ok (some m) ∧ t.heap[m]? = some nd ∧
        nd.Value = v) ∧
      (v ∉ vs → t.Find v matcherOf = .ok none) := by
  obtain ⟨t, s, hrun, wf, o, hperm⟩ :=
    addAll_spec vs (BSTree.empty : BSTree α) .nil ⟨rfl, trivial, List.nodup_nil⟩ trivial
  have hmem : v ∈ s.values ↔ v ∈ vs := by
    rw [hperm.mem_iff]; simp [Shape.values]
  obtain ⟨hr, sh, nd⟩ := wf
  have hht := sh.height_le nd
  refine ⟨t, hrun, fun hv => ?_, fun hv => ?_⟩
  · have hvs := hmem.mpr hv
    obtain ⟨-, c, hc⟩ := Shape.root_ne_none_of_mem hvs
    obtain ⟨m, nm, hfind, hm, hmv⟩ := findLoop_found v s (bsShaped_findShaped s none sh)
      (s.ordered_searchOrdered o) hvs c (t.heap.length + 1) hc (by omega)
    refine ⟨m, nm, ?_, hm, hmv⟩
    simp only [BSTree.Find, ← hr, hc, reduceCtorEq, if_false, hfind]
  · have hvs : v ∉ s.values := fun e => hv (hmem.mp e)
    cases hroot : s.root with
    | none => simp [BSTree.Find, ← hr, hroot]
    | some c =>
      simp only [BSTree.Find, ← hr, hroot, reduceCtorEq, if_false]
      exact findLoop_absent v s none sh hvs c _ hroot (by omega)

/-- C16 on the values 5, 2, 8 over the natural numbers: 8 is found, 7 is not, and nothing is
found in the empty tree. -/
theorem find_after_adds_witness :
    (∃ t, BSTree.addAll comparerOf BSTree.empty [5, 2, 8] = .ok t ∧
      (8 ∈ [5, 2, 8] → ∃ m nd, t.Find 8 matcherOf = .ok (some m) ∧ t.heap[m]? = some nd ∧
        nd.Value = 8) ∧
      (8 ∉ [5, 2, 8] → t.Find 8 matcherOf = .ok none)) ∧
    (BSTree.addAll comparerOf BSTree.empty [5, 2, 8] >>= fun t => t.Find 7 matcherOf) =
      .ok none ∧
    (BSTree.empty : BSTree Nat).Find 7 matcherOf = .ok none :=
  ⟨find_after_adds [5, 2, 8] 8, by decide, by decide⟩

/-- C17: for every well-formed plain tree with at least one node whose `NodeCount` is its
number of nodes (fewer than `2^64`, as a `uint64` node count implies), `Balance` returns a
well-formed tree over the same values in the same order, and `LeafImbalance` on the rebuilt
tree returns the depth of its deepest leaf minus the depth of its shallowest leaf, which is
at most 1. -/
theorem leafImbalance_after_balance (t : BSTree α) (s : Shape α) (wf : t.HasShape s)
    (hcount : t.NodeCount = s.size) (hpos : 0 < s.size) (hsz : s.size < U64) :
    ∃ t1 s1 k, t.Balance = .ok t1 ∧ t1.HasShape s1 ∧ s1.values = s.values ∧
      t1.NodeCount = s1.size ∧ t1.LeafImbalance = .ok k ∧
      k = s1.maxLeafDepth - s1.minLeafDepth ∧ s1.minLeafDepth ≤ s1.maxLeafDepth ∧
      k ≤ 1 := by
  obtain ⟨t1, s1, hrun, wf1, hval, hc1, bal, ht⟩ := balance_spec t s wf
  have hsize : s1.size = s.size := by
    rw [← Shape.length_values, hval, Shape.length_values]
  have hne : s1 ≠ .nil := by
    intro e
    rw [e] at hsize
    simp [Shape.size] at hsize
    omega
  obtain ⟨hli, hle⟩ := leafImbalance_spec t1 s1 wf1 hne (by omega)
  refine ⟨t1, s1, _, hrun, wf1, hval, by rw [hc1, hcount, hsize], hli, rfl, hle, ?_⟩
  have hmax : s1.maxLeafDepth + 1 ≤ Nat.clog 2 (s.size + 1) := by
    have := maxOf_le (s1.leafDepths 0) (s1.height - 1) (fun x hx => by
      have := leafDepths_bounds s1 0 x hx; omega)
    have hh : 0 < s1.height := by
      cases s1 with
      | nil => exact absurd rfl hne
      | node l a v r => simp [Shape.height]
    simp only [Shape.maxLeafDepth]
    omega
  have hmin : Nat.log 2 (s.size + 1) ≤ s1.minLeafDepth + 1 := by
    have := le_minOf (s1.leafDepths 0) (Nat.log 2 (s.size + 1) - 1) (leafDepths_ne_nil s1 0 hne)
      (fun x hx => by
        have := leafDepths_ge_log s1 bal 0 x hx
        rw [hsize] at this
        omega)
    simp only [Shape.minLeafDepth]
    omega
  have := clog_le_log_succ (s.size + 1)
  omega

/-- C17 on the scenario of the specification: the values 1 to 7 added in ascending order
give the chain `chain7Tree`; `Balance` then builds a tree with root value 4 and height 3 on
which `LeafImbalance` returns 0. -/
theorem leafImbalance_after_balance_witness :
    BSTree.addAll comparerOf BSTree.empty [1, 2, 3, 4, 5, 6, 7] = .ok chain7Tree ∧
      chain7Tree.HasShape chain7Shape ∧ chain7Tree.NodeCount = chain7Shape.size ∧
      (∃ t1 s1 k, chain7Tree.Balance = .ok t1 ∧ t1.HasShape s1 ∧
        s1.values = chain7Shape.values ∧ t1.NodeCount = s1.size ∧
        t1.LeafImbalance = .ok k ∧ k = s1.maxLeafDepth - s1.minLeafDepth ∧
        s1.minLeafDepth ≤ s1.maxLeafDepth ∧ k ≤ 1) ∧
      (∃ t1, chain7Tree.Balance = .ok t1 ∧ t1.HasShape balanced7Shape ∧
        balanced7Shape.height = 3 ∧ t1.Root = some 7 ∧
        (t1.heap[7]?).map (fun n => n.Value) = some 4 ∧ t1.LeafImbalance = .ok 0) :=
  ⟨by decide, chain7Tree_hasShape, by decide,
    leafImbalance_after_balance chain7Tree chain7Shape chain7Tree_hasShape (by decide)
      (by decide) (by decide),
    _, rfl,
    ⟨rfl, ⟨rfl, ⟨rfl, ⟨rfl, trivial, trivial⟩, ⟨rfl, trivial, trivial⟩⟩,
      ⟨rfl, ⟨rfl, trivial, trivial⟩, ⟨rfl, trivial, trivial⟩⟩⟩, by decide⟩,
    by decide, by decide, by decide, by decide⟩

/-- C18 (code defect): `redSiblingTree` is what the eleven insertions leave and satisfies both
invariants; the black childless node 5 has the non-root parent 6 and the red sibling 7, whose
child on the side of node 5, node 2, has a red child (node 10) on that side and no child on
the far side.  `Delete(n5)` returns, but the near-nephew case has not been applied: no rotation has been
made at node 2, which has been coloured red above its red child 10, and the resulting tree
has a red node with a red child. -/
theorem delete_red_sibling_skips_near_nephew :
    (RBTree.fresh (List.range 11)).runOps redSiblingOps.dropLast = .ok redSiblingTree ∧
      redSiblingTree.redRedFree = true ∧ redSiblingTree.blackUniform = true ∧
      (redSiblingTree.heap[5]?).map (fun n => (n.Color, n.Parent, n.ChildL, n.ChildR)) =
        some (.Black, some 6, none, none) ∧
      (redSiblingTree.heap[6]?).map (fun n => (n.Parent, n.ChildL, n.ChildR)) =
        some (some 0, some 5, some 7) ∧
      (redSiblingTree.heap[7]?).map (fun n => (n.Color, n.ChildL)) = some (.Red, some 2) ∧
      (redSiblingTree.heap[2]?).map (fun n => (n.Color, n.ChildL, n.ChildR)) =
        some (.Black, some 10, none) ∧
      (redSiblingTree.heap[10]?).map (fun n => n.Color) = some .Red ∧
      ∃ t, redSiblingTree.Delete (some 5) = .ok t ∧ t.redRedFree = false ∧
        (t.heap[2]?).map (fun n => (n.Color, n.Parent, n.ChildL, n.ChildR)) =
          some (.Red, some 6, some 10, none) ∧
        (t.heap[10]?).map (fun n => (n.Color, n.Parent)) = some (.Red, some 2) := by
  refine ⟨?_, ?_, ?_, ?_, ?_, ?_, ?_, ?_, _, rfl, ?_, ?_, ?_⟩ <;> decide

/-- C19:in a well-formed red-black tree, for a node `s` that is not the root and has a
child `v` on the side opposite `d`, `Rotate(s, d)` returns `v`; the tree after the call is
well formed with the shape rotated at `s`, whose in-order sequence of values is the one
before the call; every node keeps its color; and the parent of `s` holds `v` in the slot
where it held `s`, its other slot unchanged. -/
theorem rotate_keeps_order (t : RBTree α) (sh : Shape α) (wf : t.HasShape sh)
    (s v : Nat) (d : NodeSide) (hin : s ∈ sh.addrs) (hroot : t.Root ≠ some s)
    (hv : ∃ ns, t.heap[s]? = some ns ∧ ns.Children d.flip = some v) :
    ∃ t1 : RBTree α, t.Rotate (some s) d = .ok (t1, some v) ∧
      t1.HasShape (sh.rotateAt s d) ∧
      (sh.rotateAt s d).values = sh.values ∧
      (∀ i : Nat, (t1.heap[i]?).map RBNode.Color = (t.heap[i]?).map RBNode.Color) ∧
      ∃ (p : Nat) (ps : NodeSide) (np np1 : RBNode α),
        t.heap[p]? = some np ∧ np.Children ps = some s ∧
        t1.heap[p]? = some np1 ∧ np1.Children ps = some v ∧
        np1.Children ps.flip = np.Children ps.flip := by
  obtain ⟨hr, hsh, nd⟩ := wf
  obtain ⟨q, par, p, ps, qsh, qnd, qr, qs⟩ := RBShaped.focus sh none hsh nd hin (hr ▸ hroot)
  obtain ⟨np, hp, -, hpc⟩ := qsh.at_root qr
  have ssh := qsh.child qr ps
  have snd := q.child_nodup ps qnd
  obtain ⟨ns, hs, hsp, hsc⟩ := ssh.at_root qs
  obtain ⟨ns', hs', hsv⟩ := hv
  rw [hs] at hs'
  cases Option.some.inj hs'
  have vr : ((q.child ps).child d.flip).root = some v := by rw [← hsc, hsv]
  have vsh := ssh.child qs d.flip
  have vnd := (q.child ps).child_nodup d.flip snd
  obtain ⟨nv, hv, hvp, hvc⟩ := vsh.at_root vr
  have sq : s ∈ (q.child ps).addrs := Shape.root_mem qs
  have vs : v ∈ ((q.child ps).child d.flip).addrs := Shape.root_mem vr
  have vq : v ∈ (q.child ps).addrs := Shape.child_subset _ _ vs
  have hps : p ≠ s := fun e => q.root_not_mem_child ps qnd qr (e ▸ sq)
  have hpv : p ≠ v := fun e => q.root_not_mem_child ps qnd qr (e ▸ vq)
  have hsv' : s ≠ v := fun e => (q.child ps).root_not_mem_child d.flip snd qs (e ▸ vs)
  have hpch : np.Children ps = some s := by rw [hpc, qs]
  have hswap : ∀ c, nv.Children d = some c →
      ∃ nc, t.heap[c]? = some nc ∧ c ≠ p ∧ c ≠ s ∧ c ≠ v := by
    intro c hc
    have cr : (((q.child ps).child d.flip).child d).root = some c := by rw [← hvc, hc]
    obtain ⟨nc, hcn, -, -⟩ := (vsh.child vr d).at_root cr
    have cv : c ∈ (((q.child ps).child d.flip).child d).addrs := Shape.root_mem cr
    have cs : c ∈ ((q.child ps).child d.flip).addrs := Shape.child_subset _ _ cv
    have cq : c ∈ (q.child ps).addrs := Shape.child_subset _ _ cs
    refine ⟨nc, hcn, ?_, ?_, ?_⟩
    · exact fun e => q.root_not_mem_child ps qnd qr (e ▸ cq)
    · exact fun e => (q.child ps).root_not_mem_child d.flip snd qs (e ▸ cs)
    · exact fun e => ((q.child ps).child d.flip).root_not_mem_child d vnd vr (e ▸ cv)
  have hside : RBNode.Side t.heap (some s) = .ok ps := by
    rw [side_some hs hsp hp]
    cases ps with
    | Left =>
      have he : np.ChildL = some s := hpch
      rw [if_pos he]
    | Right =>
      have hne : np.ChildL ≠ some s := by
        intro e
        have e1 : (q.child .Left).root = some s := by rw [← hpc]; exact e
        exact q.child_disjoint qnd (Shape.root_mem e1) sq
      rw [if_neg hne]
  obtain ⟨H, hrun, Hs, Hv, Hp, Hc, Hi⟩ := rotate_spec t.heap t.Root d ps p s v np ns nv hp hs hv
    hsp hsv hside hswap hps hpv hsv'
  have hpin : p ∈ sh.addrs := rbShaped_parent_mem hs hsp sh none hsh hin (hr ▸ hroot)
  refine ⟨⟨H, t.Root⟩, hrun, ⟨?_, ?_, ?_⟩, Shape.rotateAt_values s d sh, ?_, ?_⟩
  · rw [Shape.rotateAt_root s d sh (hr ▸ hroot)]; exact hr
  · exact rotateAt_shaped d ps p s v np ns nv hp hs hv hsp hsv hpch Hs Hv Hp Hc Hi sh none hsh
      nd hpin
  · rw [Shape.rotateAt_addrs]; exact nd
  · intro i
    show (H[i]?).map RBNode.Color = (t.heap[i]?).map RBNode.Color
    by_cases e1 : i = s
    · subst e1; rw [Hs, hs]; simp [rb_setChild_color]
    by_cases e2 : i = v
    · subst e2; rw [Hv, hv]; simp [rb_setChild_color]
    by_cases e3 : i = p
    · subst e3; rw [Hp, hp]; simp [rb_setChild_color]
    by_cases e4 : nv.Children d = some i
    · obtain ⟨nc, hcn, -, -, -⟩ := hswap i e4
      rw [Hc i nc e4 hcn, hcn]; rfl
    · rw [Hi i e1 e2 e3 e4]
  · exact ⟨p, ps, np, _, hp, hpch, Hp, rb_setChild_same _ _ _, rb_setChild_other _ _ _⟩

/-- C19, an instance: in `nineTree`, `Rotate` to the right at node 30 (address 1), whose left
child is node 20 (address 3) with the right child 25, returns node 20 and leaves a
well-formed tree with the same in-order values and colors, node 20 in the left slot of the
root. -/
theorem rotate_keeps_order_witness :
    nineTree.HasShape nineShape ∧ 1 ∈ nineShape.addrs ∧ nineTree.Root ≠ some 1 ∧
      (∃ ns, nineTree.heap[1]? = some ns ∧ ns.Children NodeSide.Right.flip = some 3) ∧
      ∃ t1 : RBTree Nat, nineTree.Rotate (some 1) .Right = .ok (t1, some 3) ∧
        t1.HasShape (nineShape.rotateAt 1 .Right) ∧
        (nineShape.rotateAt 1 .Right).values = nineShape.values ∧
        (∀ i : Nat, (t1.heap[i]?).map RBNode.Color = (nineTree.heap[i]?).map RBNode.Color) ∧
        ∃ (p : Nat) (ps : NodeSide) (np np1 : RBNode Nat),
          nineTree.heap[p]? = some np ∧ np.Children ps = some 1 ∧
          t1.heap[p]? = some np1 ∧ np1.Children ps = some 3 ∧
          np1.Children ps.flip = np.Children ps.flip :=
  ⟨nineTree_hasShape, by decide, by decide, ⟨_, rfl, rfl⟩,
    rotate_keeps_order nineTree nineShape nineTree_hasShape 1 3 .Right (by decide) (by decide)
      ⟨_, rfl, rfl⟩⟩

/-- C20: on a tree whose `Root` is absent `LeafImbalance` returns 1, the wrap-around of
`0 - (2^64 - 1)`; on every non-empty well-formed tree (of fewer than `2^64` nodes, as a
`uint64` node count implies) it returns the depth of the deepest leaf minus the depth of the
shallowest leaf, which is not negative. -/
theorem leafImbalance_empty_and_nonempty :
    (∀ t : BSTree α, t.Root = none → t.LeafImbalance = .ok 1) ∧
    (∀ (t : BSTree α) (s : Shape α), t.HasShape s → s ≠ .nil → s.size < U64 →
      t.LeafImbalance = .ok (s.maxLeafDepth - s.minLeafDepth) ∧
        s.minLeafDepth ≤ s.maxLeafDepth) := by
  refine ⟨?_, fun t s wf hne hsz => leafImbalance_spec t s wf hne hsz⟩
  intro t hroot
  rw [leafImbalance_eq_leafStep]
  simp only [BSTree.Traverse, hroot, if_true, pure_eq_ok, ok_bind]
  rfl

/-- C20 on the empty tree and on the chain 1, 2, 3, whose only leaf is at depth 2. -/
theorem leafImbalance_empty_and_nonempty_witness :
    (BSTree.empty : BSTree Nat).LeafImbalance = .ok 1 ∧
      chainTree.HasShape chainShape ∧
      chainTree.LeafImbalance = .ok (chainShape.maxLeafDepth - chainShape.minLeafDepth) ∧
      chainShape.maxLeafDepth = 2 ∧ chainShape.minLeafDepth = 2 :=
  ⟨leafImbalance_empty_and_nonempty.1 BSTree.empty rfl, chainTree_hasShape,
    (leafImbalance_empty_and_nonempty.2 chainTree chainShape chainTree_hasShape
      (by intro e; cases e) (by decide)).1, by decide, by decide⟩

end Genstructs
